import Mathlib

/-!
# libopt: a shallow embedding of `opt.c` / `opt.h`

The embedding follows the freestanding (`LIBOPT_SOLO`) build of the library, the one
the example programs use (they call `opt_setprintfn`).

* A C string is the list of its characters before the terminating NUL; `argv` is the
  list of the strings `argv[0] .. argv[argc-1]`.
* Caller-owned storage is a map from addresses to cells; the `value` pointer of a
  descriptor is an optional address. The caller's program-name variable is a cell of
  its own, `Env.progname`.
* The static variables of opt.c (`opt_arg`, `progopts`, `local_progname`, `version`,
  `usage`) are fields of `Env`. The text handed to `opt_print` is accumulated in
  `Env.out`.
* A handler is one of the two handlers of the library or a caller's function of
  `opt_arg` and the storage. Handler invocations are recorded in the ghost field
  `Env.calls`.
* Every `return` of `opt_parse` carries a ghost tag `Exit` that tells which `return`
  statement it was.
* The `goto arghandler` of the source becomes a call of `arghandler`; one iteration of
  the main loop is `opt_iter`, the loop itself `opt_loop`.
-/

namespace LibOpt

/-! ## C strings -/

/-- C string: the characters that precede the terminating NUL. -/
abbrev CStr := List Char

/-- The string terminator. -/
def NUL : Char := Char.ofNat 0

/-- Reading `s[k]`; the position right after the last character holds NUL. -/
def charAt (s : CStr) (k : Nat) : Char := s.getD k NUL

/-- `strlen` of opt.c. -/
def strlen (s : CStr) : Nat := s.length

/-- `strcmp` of opt.c: walk both strings while the characters agree. -/
def strcmp : CStr → CStr → Int
  | [], [] => 0
  | [], _ :: _ => -1
  | _ :: _, [] => 1
  | a :: s1, b :: s2 =>
    if a = b then strcmp s1 s2 else if a.toNat < b.toNat then -1 else 1

/-- `strncmp` of opt.c. -/
def strncmp : CStr → CStr → Nat → Int
  | _, _, 0 => 0
  | [], [], _ + 1 => 0
  | [], _ :: _, _ + 1 => -1
  | _ :: _, [], _ + 1 => 1
  | a :: s1, b :: s2, n + 1 =>
    if a ≠ b then (if a.toNat < b.toNat then -1 else 1) else strncmp s1 s2 n

/-- `strchr` of opt.c: the suffix starting at the first occurrence of `c`, if any. -/
def strchr : CStr → Char → Option CStr
  | [], c => if NUL ≠ c then none else some []
  | a :: s, c => if a ≠ c then strchr s c else some (a :: s)

/-- Macro `STREQ`. -/
def STREQ (a b : CStr) : Bool := strcmp a b == 0

/-- Macro `STREQN`. -/
def STREQN (a b : CStr) (n : Nat) : Bool := strncmp a b n == 0

/-! ## Data model -/

/-- A caller-owned variable: either an `int` or a `const char *`. -/
inductive Cell
  | int (v : Int)
  | str (p : Option CStr)
deriving DecidableEq

/-- Caller-owned storage, indexed by address. -/
abbrev Store := Nat → Cell

/-- An option handler `int (*handler)(void)`: the two handlers of the library, or a
caller-supplied one, which may read `opt_arg`, read and write the caller's storage, and
returns a status code. -/
inductive Handler
  | help
  | version
  | user (f : Option CStr → Store → Int × Store)

/-- `struct opt_s`. -/
structure opt_s where
  s : Option CStr
  l : Option CStr
  desc : Option CStr
  flags : Nat
  value : Option Nat
  handler : Option Handler

def OPT_NO_ARG : Nat := 0
def OPT_HAVE_ARG : Nat := 1
def OPT_SET_FLAG : Nat := 2
def OPT_CLR_FLAG : Nat := 4
def OPT_SET_VALUE : Nat := 9

def LIBOPT_ERROR : Int := -1
def LIBOPT_HELP : Int := -2

/-- Macro `OPT_HELP` (with `OPT_HELP_SHORT_NAME` left at its default `NULL`). -/
def OPT_HELP : opt_s :=
  { s := none, l := some "--help".toList, desc := some "Print this message and exit".toList,
    flags := OPT_NO_ARG, value := none, handler := some Handler.help }

/-- Macro `OPT_VERSION` (with `OPT_VERSION_SHORT_NAME` left at its default `NULL`). -/
def OPT_VERSION : opt_s :=
  { s := none, l := some "--version".toList,
    desc := some "Show version information and exit".toList,
    flags := OPT_NO_ARG, value := none, handler := some Handler.version }

/-- The all-`NULL` element that ends a table. -/
def OPT_END : opt_s :=
  { s := none, l := none, desc := none, flags := 0, value := none, handler := none }

/-- Macro `HAVE_ARG`. -/
def HAVE_ARG (o : opt_s) : Bool := o.flags &&& OPT_HAVE_ARG != 0

/-- The loop condition `o->s || o->l` of every table scan. -/
def live (o : opt_s) : Bool := o.s.isSome || o.l.isSome

/-- One recorded handler invocation: the descriptor, `opt_arg` and the storage as the
handler found them, and the code it returned. -/
structure Call where
  o : opt_s
  arg : Option CStr
  mem : Store
  res : Int

/-- The process-wide state of opt.c together with the caller's storage. -/
structure Env where
  mem : Store
  opt_arg : Option CStr
  progopts : List opt_s
  local_progname : CStr
  version : CStr
  usage : Option CStr
  progname : Option CStr
  out : List Char
  calls : List Call

/-- An environment as it is before the first call: `usage` and `version` at
their defaults. -/
def Env.init (mem : Store) : Env :=
  { mem := mem, opt_arg := none, progopts := [], local_progname := [],
    version := [], usage := some "[options] arg...".toList, progname := none,
    out := [], calls := [] }

/-- Function `opt_print`: hand a formatted text to the diagnostic sink. -/
def opt_print (txt : List Char) (st : Env) : Env :=
  { st with out := st.out ++ txt }

/-- Function `opt_setversion`. -/
def opt_setversion (str : Option CStr) (st : Env) : Env :=
  { st with version := str.getD [] }

/-- Function `opt_setusage`. -/
def opt_setusage (str : Option CStr) (st : Env) : Env :=
  { st with usage := str }

/-! ## The usage formatter -/

def DESC_INDENT : Nat := 24

/-- The placeholder and the description of a value-taking descriptor:
`[NAME]text` gives `(NAME, text)`, anything else `(VALUE, desc)`. -/
def usage_value (desc : CStr) : CStr × CStr :=
  if charAt desc 0 = '[' ∧ (strchr desc ']').isSome then
    let v := desc.drop 1
    match strchr v ']' with
    | some rest => (v.take (v.length - rest.length), rest.drop 1)
    | none => (v, [])
  else ("VALUE".toList, desc)

/-- The body of the loop of `opt_usage`: the help line of one descriptor. -/
def usage_line (o : opt_s) : List Char :=
  let desc := o.desc.getD []
  let short := "  ".toList ++ o.s.getD "  ".toList
    ++ (if o.s.isSome && o.l.isSome then ", ".toList else "  ".toList)
  let long := o.l.getD []
  let n := (match o.l with | some l => strlen l | none => 0)
  let vd := if HAVE_ARG o then usage_value desc else ([], desc)
  let value := if HAVE_ARG o then '=' :: vd.1 else []
  let n := if HAVE_ARG o then n + (vd.1.length + 1) else n
  let pad := if n < DESC_INDENT then List.replicate (DESC_INDENT - n) ' ' else []
  short ++ long ++ value ++ pad ++ vd.2 ++ "\n".toList

/-- The loop of `opt_usage` over the table, up to the terminating element. -/
def usage_lines : List opt_s → List Char
  | [] => []
  | o :: os => if live o then usage_line o ++ usage_lines os else []

/-- Function `opt_usage`. -/
def opt_usage (st : Env) : Env :=
  let st := opt_print ("Usage: ".toList ++ st.local_progname) st
  let st := match st.usage with
    | some u => if u ≠ [] then opt_print (' ' :: u) st else st
    | none => st
  let st := opt_print "\n\n".toList st
  let st := opt_print "Options:\n".toList st
  opt_print (usage_lines st.progopts) st

/-- Function `opt_handle_help` (freestanding build: it returns instead of exiting). -/
def opt_handle_help (st : Env) : Int × Env := (LIBOPT_HELP, opt_usage st)

/-- Function `opt_handle_version`. -/
def opt_handle_version (st : Env) : Int × Env :=
  (0, opt_print (st.local_progname ++ " ".toList ++ st.version ++ "\n".toList) st)

/-! ## The parser -/

/-- Function `check_opt`: the storage effect of a matched descriptor. -/
def check_opt (o : opt_s) (arg : Option CStr) (mem : Store) : Store :=
  match o.value with
  | none => mem
  | some a =>
    if o.flags &&& OPT_SET_FLAG != 0 then Function.update mem a (Cell.int 1)
    else if o.flags &&& OPT_CLR_FLAG != 0 then Function.update mem a (Cell.int 0)
    else if o.flags &&& OPT_SET_VALUE != 0 then Function.update mem a (Cell.str arg)
    else mem

/-- Running a handler body on the current environment. -/
def Handler.run (h : Handler) (st : Env) : Int × Env :=
  match h with
  | Handler.help => opt_handle_help st
  | Handler.version => opt_handle_version st
  | Handler.user f => ((f st.opt_arg st.mem).1, { st with mem := (f st.opt_arg st.mem).2 })

/-- The expression `o->handler ? (*o->handler)() : 0`; an actual invocation is
recorded in `calls`. -/
def call_handler (o : opt_s) (st : Env) : Int × Env :=
  match o.handler with
  | none => (0, st)
  | some h =>
    ((h.run st).1,
     { (h.run st).2 with
       calls := st.calls ++ [{ o := o, arg := st.opt_arg, mem := st.mem, res := (h.run st).1 }] })

/-- Why `opt_parse` returned. -/
inductive Exit
  | noTable
  | positional
  | terminator
  | missingValue
  | unrecognized
  | handlerAbort
  | exhausted
deriving DecidableEq

/-- The outcome of one iteration of the main loop: a `return`, or `continue` with the
index the next iteration starts from. -/
inductive Step
  | ret (why : Exit) (code : Int) (st : Env)
  | next (i : Nat) (st : Env)

/-- Macro `err_arg_required`. -/
def err_arg_required (opt : CStr) (st : Env) : Env :=
  opt_print (st.local_progname ++ ": option requires an argument -- ".toList ++ opt
    ++ "\n".toList) st

/-- The code at label `unrecognized_option`. -/
def unrecognized_option (argv : List CStr) (i : Nat) (st : Env) : Step :=
  Step.ret Exit.unrecognized (-1)
    (opt_print (st.local_progname ++ ": unrecognized option: '".toList ++ argv.getD i []
      ++ "'\n".toList) st)

/-- The assignment `opt_arg = v`. -/
def set_opt_arg (v : Option CStr) (st : Env) : Env := { st with opt_arg := v }

/-- The two statements `check_opt(o, arg); res = o->handler ? (*o->handler)() : 0;`
at label `arghandler` and in the loop over combined short options: the storage effect,
then the handler. -/
def dispatch (o : opt_s) (arg : Option CStr) (st : Env) : Int × Env :=
  call_handler o { st with mem := check_opt o arg st.mem }

/-- The code at label `arghandler`, up to the `continue` that follows its `break`:
apply the storage effect, run the handler, return its code if nonzero. -/
def arghandler (o : opt_s) (i : Nat) (st : Env) : Step :=
  if (dispatch o st.opt_arg st).1 ≠ 0 then
    Step.ret Exit.handlerAbort (dispatch o st.opt_arg st).1 (dispatch o st.opt_arg st).2
  else Step.next (i + 1) (dispatch o st.opt_arg st).2

/-- `int s = o->s && STREQ(argv[i], o->s)`. -/
def eq_short (o : opt_s) (tok : CStr) : Bool :=
  match o.s with
  | some n => STREQ tok n
  | none => false

/-- `int l = o->l && STREQ(argv[i], o->l)`. -/
def eq_long (o : opt_s) (tok : CStr) : Bool :=
  match o.l with
  | some n => STREQ tok n
  | none => false

/-- The check for `NAME=VALUE` in the first table scan: the two `if`s that assign
`opt_arg` when the token starts with the short or the long name followed by `=`. -/
def attached (o : opt_s) (tok : CStr) (st : Env) : Env :=
  let sl := match o.s with | some n => strlen n | none => 0
  let ll := match o.l with | some n => strlen n | none => 0
  if (match o.s with | some n => STREQN tok n sl | none => false) && charAt tok sl == '=' then
    set_opt_arg (some (tok.drop (sl + 1))) st
  else if (match o.l with | some n => STREQN tok n ll | none => false)
      && charAt tok ll == '=' then
    set_opt_arg (some (tok.drop (ll + 1))) st
  else st

/-- The first table scan of an iteration (whole-token match); `none` when the scan
ends at the terminating element. -/
def fullopt (argc : Nat) (argv : List CStr) (i : Nat) (st : Env) : List opt_s → Option Step
  | [] => none
  | o :: os =>
    if live o then
      if eq_short o (argv.getD i []) || eq_long o (argv.getD i []) then
        if HAVE_ARG o then
          if i + 1 ≥ argc then
            some (Step.ret Exit.missingValue (-1)
              (err_arg_required
                ((argv.getD i []).drop (1 + (if eq_long o (argv.getD i []) then 1 else 0))) st))
          else
            some (arghandler o (i + 1) (set_opt_arg (some (argv.getD (i + 1) [])) st))
        else some (arghandler o i st)
      else if HAVE_ARG o then
        if (attached o (argv.getD i []) st).opt_arg.isSome then
          some (arghandler o i (attached o (argv.getD i []) st))
        else fullopt argc argv i (attached o (argv.getD i []) st) os
      else fullopt argc argv i st os
    else none

/-- The inner table scan of the combined-short-options loop: the first descriptor
whose short name has `c` as its second character. -/
def findShort (c : Char) : List opt_s → Option opt_s
  | [] => none
  | o :: os =>
    if live o then
      match o.s with
      | none => findShort c os
      | some n => if c = charAt n 1 then some o else findShort c os
    else none

/-- The loop over the characters of a combined short-option token; `s` is the part of
the token that is still to be read. -/
def shortopts (opts : List opt_s) (argc : Nat) (argv : List CStr) (i : Nat) :
    CStr → Env → Step
  | [], st => Step.next (i + 1) st
  | c :: s, st =>
    match findShort c opts with
    | none => unrecognized_option argv i st
    | some o =>
      if HAVE_ARG o then
        match s with
        | [] =>
          if i + 1 ≥ argc then
            Step.ret Exit.missingValue (-1) (err_arg_required ((o.s.getD []).drop 1) st)
          else arghandler o (i + 1) (set_opt_arg (some (argv.getD (i + 1) [])) st)
        | d :: s1 =>
          arghandler o i (set_opt_arg (some (if d = '=' then s1 else d :: s1)) st)
      else if (dispatch o none st).1 ≠ 0 then
        Step.ret Exit.handlerAbort (dispatch o none st).1 (dispatch o none st).2
      else shortopts opts argc argv i s (dispatch o none st).2

/-- The body of the main loop of `opt_parse` at index `i < argc`. -/
def opt_iter (opts : List opt_s) (argc : Nat) (argv : List CStr) (i : Nat) (st0 : Env) :
    Step :=
  let st := set_opt_arg none st0
  if charAt (argv.getD i []) 0 ≠ '-' then Step.ret Exit.positional i st
  else if strcmp (argv.getD i []) ['-', '-'] = 0 then Step.ret Exit.terminator (i + 1) st
  else
    match fullopt argc argv i st opts with
    | some step => step
    | none =>
      if charAt (argv.getD i []) 0 = '-' ∧ charAt (argv.getD i []) 1 ≠ '-' then
        shortopts opts argc argv i ((argv.getD i []).drop 1) st
      else unrecognized_option argv i st

/-- What `opt_parse` returns: the code, and the state it leaves behind. -/
structure Result where
  why : Exit
  code : Int
  st : Env

/-- The main loop of `opt_parse`, from index `i`; `fuel` bounds the number of
iterations. -/
def opt_loop (opts : List opt_s) (argc : Nat) (argv : List CStr) :
    Nat → Nat → Env → Option Result
  | fuel, i, st =>
    if i < argc then
      match fuel with
      | 0 => none
      | fuel + 1 =>
        match opt_iter opts argc argv i st with
        | Step.ret why code st1 => some { why := why, code := code, st := st1 }
        | Step.next j st1 => opt_loop opts argc argv fuel j st1
    else some { why := Exit.exhausted, code := i, st := st }

/-- The part of `opt_parse` that precedes the loop: remember the table and set the
program name. `progname` tells whether the caller passed a variable for it. -/
def opt_start (argv : List CStr) (opts : List opt_s) (progname : Bool) (st : Env) : Env :=
  let st := { st with progopts := opts }
  if argv.getD 0 [] ≠ [] then
    { st with local_progname := argv.getD 0 [],
              progname := if progname then some (argv.getD 0 []) else st.progname }
  else st

/-- Function `opt_parse`. -/
def opt_parse (argc : Nat) (argv : List CStr) (options : Option (List opt_s))
    (progname : Bool) (st : Env) : Option Result :=
  match options with
  | none => some { why := Exit.noTable, code := -1, st := st }
  | some opts => opt_loop opts argc argv argc 1 (opt_start argv opts progname st)

/-! ## Vocabulary of the properties -/

/-- The scan of `opt_parse` from the state `s0` the loop is entered in:
`Reaches opts argc argv s0 i st` says that an iteration of the main loop begins at
index `i` in state `st`. -/
inductive Reaches (opts : List opt_s) (argc : Nat) (argv : List CStr) (s0 : Env) :
    Nat → Env → Prop
  | start : Reaches opts argc argv s0 1 s0
  | step {i j : Nat} {st st1 : Env} :
      Reaches opts argc argv s0 i st → i < argc →
      opt_iter opts argc argv i st = Step.next j st1 → Reaches opts argc argv s0 j st1

/-- The names a descriptor has. -/
def names (o : opt_s) : List CStr := o.s.toList ++ o.l.toList

/-- `Matches o tok`: the token is matched by `o` as a whole token, that is, `tok` equals
the short or the long name of `o`, or `o` takes a value and `tok` begins with one of its
names immediately followed by `=`. -/
def Matches (o : opt_s) (tok : CStr) : Prop :=
  tok ∈ names o ∨ (HAVE_ARG o = true ∧ ∃ n ∈ names o, n ++ ['='] <+: tok)

instance (o : opt_s) (tok : CStr) : Decidable (Matches o tok) := by
  unfold Matches
  infer_instance

/-- `Carries o c`: the descriptor has a short name whose letter (its second
character) is `c`. -/
def Carries (o : opt_s) (c : Char) : Prop := ∃ n ∈ o.s.toList, charAt n 1 = c

instance (o : opt_s) (c : Char) : Decidable (Carries o c) := by
  unfold Carries
  infer_instance

/-- What a step has to satisfy for an invariant `P` of the states between iterations
and a property `Q` of returns. -/
def StepOK (P : Env → Prop) (Q : Exit → Int → Env → Prop) : Step → Prop
  | Step.ret w c st => Q w c st
  | Step.next _ st => P st

/-- A step of an iteration as it reads when `d` more tokens stand in front of the
token: the indices move up by `d`; a code that is not an index stays. -/
def shiftStep (d : Nat) : Step → Step
  | Step.ret w c st =>
    Step.ret w
      (if w = Exit.positional ∨ w = Exit.terminator ∨ w = Exit.exhausted then c + d else c) st
  | Step.next j st => Step.next (j + d) st

/-- A result as it reads when `d` more tokens stand in front: a code that is an index
moves up by `d`. -/
def shiftResult (d : Nat) (r : Result) : Result :=
  { why := r.why,
    code := if r.why = Exit.positional ∨ r.why = Exit.terminator ∨ r.why = Exit.exhausted
      then r.code + d else r.code,
    st := r.st }

/-! ## The tables of the example programs -/

/-- Descriptor `-n` of examples/echo.c; `no_lf` lives at address 0. -/
def echo_n : opt_s :=
  { s := some "-n".toList, l := none, desc := some "Do not echo a line-feed".toList,
    flags := OPT_SET_FLAG, value := some 0, handler := none }

/-- Descriptor `-p` / `--prefix` of examples/echo.c; `prefix` lives at address 1. -/
def echo_p : opt_s :=
  { s := some "-p".toList, l := some "--prefix".toList,
    desc := some "[STRING] Prepend STRING to each argument".toList,
    flags := OPT_SET_VALUE, value := some 1, handler := none }

/-- Table `progopts` of examples/echo.c. -/
def echo_progopts : List opt_s := [OPT_HELP, echo_n, echo_p, OPT_END]

/-- The variables of examples/echo.c at program start: `no_lf = 0`, `prefix = ""`. -/
def echo_mem : Store := fun a => if a = 0 then Cell.int 0 else Cell.str (some [])

/-- Descriptor `-i` of examples/fnv1a.c; `ignore_case` lives at address 0. -/
def fnv1a_i : opt_s :=
  { s := some "-i".toList, l := none,
    desc := some "Ignore case when computing hashes".toList,
    flags := OPT_SET_FLAG, value := some 0, handler := none }

/-- Descriptor `-o` / `--output` of examples/fnv1a.c; `outfile` lives at address 1. -/
def fnv1a_o : opt_s :=
  { s := some "-o".toList, l := some "--output".toList,
    desc := some "[FILE]Write output to FILE".toList,
    flags := OPT_SET_VALUE, value := some 1, handler := none }

/-- Descriptor `-c` / `--caseful` of examples/fnv1a.c. -/
def fnv1a_c : opt_s :=
  { s := some "-c".toList, l := some "--caseful".toList,
    desc := some "Do not ignore case when computing hashes".toList,
    flags := OPT_CLR_FLAG, value := some 0, handler := none }

/-- Table `progopts` of examples/fnv1a.c. -/
def fnv1a_progopts : List opt_s :=
  [OPT_HELP, OPT_VERSION, fnv1a_i, fnv1a_o, fnv1a_c, OPT_END]

/-- The variables of examples/fnv1a.c at program start: `ignore_case = 0`,
`outfile = NULL`. -/
def fnv1a_mem : Store := fun a => if a = 0 then Cell.int 0 else Cell.str none

/-- A caller's handler that refuses its option: it returns the caller-defined code
`-100` and leaves the storage alone. -/
def refuse : Handler := Handler.user (fun _ m => (-100, m))

/-- A table in which `-` itself is a short letter. -/
def dash_letter_opts : List opt_s :=
  [{ OPT_END with s := some "-a".toList, flags := OPT_SET_FLAG, value := some 0 },
   { OPT_END with s := some "--".toList, flags := OPT_SET_FLAG, value := some 1 },
   { OPT_END with s := some "-c".toList, flags := OPT_SET_VALUE, value := some 2 },
   OPT_END]

/-- A table in which `=` is a short letter and the short name `-a` is used twice, the
second time by a value-taking descriptor. -/
def eq_letter_opts : List opt_s :=
  [{ OPT_END with s := some "-a".toList, flags := OPT_SET_FLAG, value := some 0 },
   { OPT_END with s := some "-a".toList, flags := OPT_SET_VALUE, value := some 1 },
   { OPT_END with s := some "-=".toList, flags := OPT_SET_FLAG, value := some 2 },
   { OPT_END with s := some "-c".toList, flags := OPT_SET_VALUE, value := some 3 },
   OPT_END]

/-! ## State updates -/

@[simp] theorem set_opt_arg_opt_arg (v : Option CStr) (st : Env) :
    (set_opt_arg v st).opt_arg = v := rfl

@[simp] theorem set_opt_arg_mem (v : Option CStr) (st : Env) :
    (set_opt_arg v st).mem = st.mem := rfl

@[simp] theorem set_opt_arg_calls (v : Option CStr) (st : Env) :
    (set_opt_arg v st).calls = st.calls := rfl

@[simp] theorem set_opt_arg_out (v : Option CStr) (st : Env) :
    (set_opt_arg v st).out = st.out := rfl

theorem strcmp_eq_zero_iff (a b : CStr) : strcmp a b = 0 ↔ a = b := by
  induction a generalizing b with
  | nil => cases b <;> simp [strcmp]
  | cons x a ih =>
    cases b with
    | nil => simp [strcmp]
    | cons y b =>
      simp only [strcmp]
      by_cases h : x = y
      · simp [h, ih]
      · simp only [h, if_false, List.cons.injEq, false_and, iff_false]
        split <;> simp

theorem STREQ_iff (a b : CStr) : STREQ a b = true ↔ a = b := by
  simp [STREQ, strcmp_eq_zero_iff]

theorem strncmp_len_iff (a n : CStr) : strncmp a n n.length = 0 ↔ n <+: a := by
  induction n generalizing a with
  | nil => simp [strncmp]
  | cons y n ih =>
    cases a with
    | nil => simp [strncmp]
    | cons x a =>
      simp only [List.length_cons, strncmp]
      by_cases h : x = y
      · subst h
        simp [ih, List.cons_prefix_cons]
      · have h' : ¬ y = x := fun e => h e.symm
        simp only [ne_eq, h, not_false_eq_true, if_true, List.cons_prefix_cons, h', false_and,
          iff_false]
        split <;> simp

theorem STREQN_iff (a n : CStr) : STREQN a n (strlen n) = true ↔ n <+: a := by
  simp [STREQN, strlen, strncmp_len_iff]

theorem charAt_append_len (n rest : CStr) : charAt (n ++ rest) n.length = charAt rest 0 := by
  simp [charAt, List.getD_eq_getElem?_getD, List.getElem?_append_right]

theorem attached_iff (a n : CStr) :
    (STREQN a n (strlen n) = true ∧ charAt a (strlen n) = '=') ↔ (n ++ ['=']) <+: a := by
  rw [STREQN_iff]
  constructor
  · rintro ⟨⟨t, rfl⟩, h2⟩
    rw [strlen, charAt_append_len] at h2
    cases t with
    | nil => simp [charAt, NUL] at h2
    | cons c t =>
      simp [charAt] at h2
      subst h2
      exact ⟨t, by simp⟩
  · rintro ⟨t, rfl⟩
    refine ⟨⟨'=' :: t, by simp⟩, ?_⟩
    rw [List.append_assoc, strlen, charAt_append_len]
    simp [charAt]

/-! ## The main loop -/

theorem arghandler_next {o : opt_s} {k j : Nat} {st st1 : Env}
    (h : arghandler o k st = Step.next j st1) : j = k + 1 := by
  unfold arghandler at h
  split at h
  · cases h
  · injection h with h1 _
    exact h1.symm

theorem attached_of_isSome_eq_false {o : opt_s} {tok : CStr} {st : Env}
    (h : (attached o tok st).opt_arg.isSome = false) : attached o tok st = st := by
  unfold attached at h ⊢
  simp only at h ⊢
  split
  · rename_i h1; rw [if_pos h1] at h; simp [set_opt_arg] at h
  · split
    · rename_i h1 h2; rw [if_neg h1, if_pos h2] at h; simp [set_opt_arg] at h
    · rfl

theorem fullopt_next {argc : Nat} {argv : List CStr} {i j : Nat} {st st1 : Env}
    {opts : List opt_s} (h : fullopt argc argv i st opts = some (Step.next j st1)) :
    i < j := by
  induction opts generalizing st with
  | nil => simp [fullopt] at h
  | cons o os ih =>
    simp only [fullopt] at h
    by_cases hl : live o = true
    · rw [if_pos hl] at h
      by_cases he : (eq_short o (argv.getD i []) || eq_long o (argv.getD i [])) = true
      · rw [if_pos he] at h
        by_cases ha : HAVE_ARG o = true
        · rw [if_pos ha] at h
          by_cases hc : i + 1 ≥ argc
          · rw [if_pos hc] at h; cases h
          · rw [if_neg hc] at h
            have := arghandler_next (Option.some.inj h); omega
        · rw [if_neg ha] at h
          have := arghandler_next (Option.some.inj h); omega
      · rw [if_neg he] at h
        by_cases ha : HAVE_ARG o = true
        · rw [if_pos ha] at h
          by_cases hv : (attached o (argv.getD i []) st).opt_arg.isSome = true
          · rw [if_pos hv] at h
            have := arghandler_next (Option.some.inj h); omega
          · rw [if_neg hv] at h
            exact ih h
        · rw [if_neg ha] at h
          exact ih h
    · rw [if_neg hl] at h; cases h

theorem shortopts_next {opts : List opt_s} {argc : Nat} {argv : List CStr} {i j : Nat}
    {s : CStr} {st st1 : Env} (h : shortopts opts argc argv i s st = Step.next j st1) :
    i < j := by
  induction s generalizing st with
  | nil =>
    simp only [shortopts] at h
    injection h with h1 _
    omega
  | cons c s ih =>
    unfold shortopts at h
    split at h
    · simp [unrecognized_option] at h
    · split at h
      · split at h
        · split at h
          · cases h
          · have := arghandler_next h; omega
        · have := arghandler_next h; omega
      · split at h
        · cases h
        · exact ih h

theorem opt_iter_next {opts : List opt_s} {argc : Nat} {argv : List CStr} {i j : Nat}
    {st st1 : Env} (h : opt_iter opts argc argv i st = Step.next j st1) : i < j := by
  unfold opt_iter at h
  simp only at h
  split at h
  · cases h
  · split at h
    · cases h
    · split at h
      · rename_i step hs
        subst h
        exact fullopt_next hs
      · split at h
        · exact shortopts_next h
        · simp [unrecognized_option] at h

theorem opt_loop_total (opts : List opt_s) (argc : Nat) (argv : List CStr) :
    ∀ (fuel i : Nat) (st : Env), argc < fuel + i →
      ∃ r, opt_loop opts argc argv fuel i st = some r := by
  intro fuel
  induction fuel with
  | zero =>
    intro i st h
    unfold opt_loop
    rw [if_neg (by omega)]
    exact ⟨_, rfl⟩
  | succ f ih =>
    intro i st h
    unfold opt_loop
    by_cases hi : i < argc
    · rw [if_pos hi]
      simp only
      cases hs : opt_iter opts argc argv i st with
      | ret why code st1 => exact ⟨_, rfl⟩
      | next j st1 =>
        have := opt_iter_next hs
        exact ih j st1 (by omega)
    · rw [if_neg hi]
      exact ⟨_, rfl⟩

theorem opt_loop_of_reaches {opts : List opt_s} {argc : Nat} {argv : List CStr}
    {s0 : Env} {i : Nat} {st : Env} (h : Reaches opts argc argv s0 i st) :
    ∃ fuel, argc < fuel + i ∧
      opt_loop opts argc argv argc 1 s0 = opt_loop opts argc argv fuel i st := by
  induction h with
  | start => exact ⟨argc, by omega, rfl⟩
  | step hr hi hs ih =>
    obtain ⟨fuel, hf, he⟩ := ih
    have hj := opt_iter_next hs
    obtain ⟨f, rfl⟩ : ∃ f, fuel = f + 1 := ⟨fuel - 1, by omega⟩
    refine ⟨f, by omega, ?_⟩
    rw [he]
    conv_lhs => unfold opt_loop
    rw [if_pos hi]
    simp only [hs]

theorem opt_parse_of_reaches_ret {opts : List opt_s} {argv : List CStr} {argc : Nat}
    {pn : Bool} {s0 : Env} {i : Nat} {st st1 : Env} {why : Exit} {code : Int}
    (h : Reaches opts argc argv (opt_start argv opts pn s0) i st) (hi : i < argc)
    (hs : opt_iter opts argc argv i st = Step.ret why code st1) :
    opt_parse argc argv (some opts) pn s0 = some { why := why, code := code, st := st1 } := by
  obtain ⟨fuel, hf, he⟩ := opt_loop_of_reaches h
  obtain ⟨f, rfl⟩ : ∃ f, fuel = f + 1 := ⟨fuel - 1, by omega⟩
  simp only [opt_parse]
  rw [he]
  conv_lhs => unfold opt_loop
  rw [if_pos hi]
  simp only [hs]

theorem opt_parse_of_reaches_end {opts : List opt_s} {argv : List CStr} {argc : Nat}
    {pn : Bool} {s0 : Env} {i : Nat} {st : Env}
    (h : Reaches opts argc argv (opt_start argv opts pn s0) i st) (hi : argc ≤ i) :
    opt_parse argc argv (some opts) pn s0
      = some { why := Exit.exhausted, code := i, st := st } := by
  obtain ⟨fuel, hf, he⟩ := opt_loop_of_reaches h
  simp only [opt_parse]
  rw [he]
  unfold opt_loop
  rw [if_neg (by omega)]

theorem opt_start_mem (argv : List CStr) (opts : List opt_s) (pn : Bool) (st : Env) :
    (opt_start argv opts pn st).mem = st.mem ∧ (opt_start argv opts pn st).calls = st.calls
      ∧ (opt_start argv opts pn st).out = st.out := by
  unfold opt_start
  simp only
  split <;> simp

theorem fullopt_congr {argc argc1 : Nat} {argv argv1 : List CStr} {i : Nat}
    (h0 : argv.getD i [] = argv1.getD i [])
    (h1 : argv.getD (i + 1) [] = argv1.getD (i + 1) [])
    (hc : i + 1 ≥ argc ↔ i + 1 ≥ argc1) (opts : List opt_s) (st : Env) :
    fullopt argc argv i st opts = fullopt argc1 argv1 i st opts := by
  induction opts generalizing st with
  | nil => rfl
  | cons o os ih => simp only [fullopt, h0, h1, hc, ih]

theorem shortopts_congr {argc argc1 : Nat} {argv argv1 : List CStr} {i : Nat}
    (h0 : argv.getD i [] = argv1.getD i [])
    (h1 : argv.getD (i + 1) [] = argv1.getD (i + 1) [])
    (hc : i + 1 ≥ argc ↔ i + 1 ≥ argc1) (opts : List opt_s) (s : CStr) (st : Env) :
    shortopts opts argc argv i s st = shortopts opts argc1 argv1 i s st := by
  induction s generalizing st with
  | nil => rfl
  | cons c s ih =>
    unfold shortopts
    simp only [unrecognized_option, h0, h1, hc, ih]

theorem opt_iter_congr {argc argc1 : Nat} {argv argv1 : List CStr} {i : Nat}
    (h0 : argv.getD i [] = argv1.getD i [])
    (h1 : argv.getD (i + 1) [] = argv1.getD (i + 1) [])
    (hc : i + 1 ≥ argc ↔ i + 1 ≥ argc1) (opts : List opt_s) (st : Env) :
    opt_iter opts argc argv i st = opt_iter opts argc1 argv1 i st := by
  unfold opt_iter
  simp only [unrecognized_option, h0, fullopt_congr h0 h1 hc, shortopts_congr h0 h1 hc]

theorem reaches_le {opts : List opt_s} {argc : Nat} {argv : List CStr} {s0 : Env}
    {i : Nat} {st : Env} (h : Reaches opts argc argv s0 i st) : 1 ≤ i := by
  induction h with
  | start => exact Nat.le_refl 1
  | step _ _ hs ih => have := opt_iter_next hs; omega

/-- The scan up to index `k` only looks at the tokens up to index `k`. -/
theorem reaches_congr {opts : List opt_s} {argc argc1 : Nat} {argv argv1 : List CStr}
    {s0 : Env} {k : Nat} (hk : k < argc) (hk1 : k < argc1)
    (hpre : ∀ j, j ≤ k → argv.getD j [] = argv1.getD j [])
    {i : Nat} {st : Env} (h : Reaches opts argc argv s0 i st) (hi : i ≤ k) :
    Reaches opts argc1 argv1 s0 i st := by
  induction h with
  | start => exact Reaches.start
  | step hr hlt hs ih =>
    rename_i a b sta stb
    have hab := opt_iter_next hs
    have hr1 := ih (by omega)
    refine Reaches.step hr1 (by omega) ?_
    rw [← hs]
    symm
    exact opt_iter_congr (hpre a (by omega)) (hpre (a + 1) (by omega))
      (by constructor <;> intro <;> omega) opts sta

/-! ## The table scans -/

theorem eq_short_iff (o : opt_s) (tok : CStr) : eq_short o tok = true ↔ o.s = some tok := by
  unfold eq_short
  cases o.s with
  | none => simp
  | some n => simp only [STREQ_iff, Option.some.injEq]; exact eq_comm

theorem eq_long_iff (o : opt_s) (tok : CStr) : eq_long o tok = true ↔ o.l = some tok := by
  unfold eq_long
  cases o.l with
  | none => simp
  | some n => simp only [STREQ_iff, Option.some.injEq]; exact eq_comm

theorem attached_eq_self {o : opt_s} {tok : CStr} {st : Env}
    (h : ∀ n, (o.s = some n ∨ o.l = some n) → ¬ (n ++ ['='] <+: tok)) :
    attached o tok st = st := by
  unfold attached
  simp only
  rw [if_neg, if_neg]
  · cases hl : o.l with
    | none => simp
    | some n =>
      simp only [Bool.and_eq_true, beq_iff_eq]
      intro hh
      exact h n (Or.inr hl) ((attached_iff tok n).1 hh)
  · cases hs : o.s with
    | none => simp
    | some n =>
      simp only [Bool.and_eq_true, beq_iff_eq]
      intro hh
      exact h n (Or.inl hs) ((attached_iff tok n).1 hh)

theorem attached_short {o : opt_s} {n v : CStr} {st : Env} (hs : o.s = some n) :
    attached o (n ++ '=' :: v) st = (set_opt_arg (some v) st) := by
  have hp : (n ++ ['=']) <+: (n ++ '=' :: v) := ⟨v, by simp⟩
  have := (attached_iff (n ++ '=' :: v) n).2 hp
  unfold attached
  simp only [hs]
  rw [if_pos (by simp only [Bool.and_eq_true, beq_iff_eq]; exact this)]
  simp [strlen]

theorem attached_long {o : opt_s} {n v : CStr} {st : Env} (hl : o.l = some n)
    (hs : ∀ m, o.s = some m → ¬ (m ++ ['='] <+: n ++ '=' :: v)) :
    attached o (n ++ '=' :: v) st = (set_opt_arg (some v) st) := by
  have hp : (n ++ ['=']) <+: (n ++ '=' :: v) := ⟨v, by simp⟩
  have := (attached_iff (n ++ '=' :: v) n).2 hp
  unfold attached
  simp only [hl]
  rw [if_neg, if_pos (by simp only [Bool.and_eq_true, beq_iff_eq]; exact this)]
  · simp [strlen]
  · cases hs' : o.s with
    | none => simp
    | some m =>
      simp only [Bool.and_eq_true, beq_iff_eq]
      intro hh
      exact hs m hs' ((attached_iff _ m).1 hh)

/-- A live descriptor that the token matches neither exactly nor in the `NAME=VALUE`
form is passed over by the first table scan. -/
theorem fullopt_skip {argc : Nat} {argv : List CStr} {i : Nat} {st : Env} {p : opt_s}
    {os : List opt_s} (hlive : live p = true)
    (hs : p.s ≠ some (argv.getD i [])) (hl : p.l ≠ some (argv.getD i []))
    (ha : HAVE_ARG p = true →
      ∀ n, (p.s = some n ∨ p.l = some n) → ¬ (n ++ ['='] <+: argv.getD i []))
    (hst : st.opt_arg = none) :
    fullopt argc argv i st (p :: os) = fullopt argc argv i st os := by
  have h1 : eq_short p (argv.getD i []) = false := by
    rw [← Bool.not_eq_true, eq_short_iff]; exact hs
  have h2 : eq_long p (argv.getD i []) = false := by
    rw [← Bool.not_eq_true, eq_long_iff]; exact hl
  simp only [fullopt, hlive, h1, h2, if_true, Bool.or_self, Bool.false_eq_true, if_false]
  by_cases hh : HAVE_ARG p = true
  · rw [if_pos hh, attached_eq_self (ha hh)]
    simp [hst]
  · rw [if_neg hh]

theorem fullopt_skip_pre {argc : Nat} {argv : List CStr} {i : Nat} {st : Env}
    (pre rest : List opt_s) (hst : st.opt_arg = none)
    (hpre : ∀ p ∈ pre, live p = true ∧ p.s ≠ some (argv.getD i []) ∧
      p.l ≠ some (argv.getD i []) ∧ (HAVE_ARG p = true →
        ∀ n, (p.s = some n ∨ p.l = some n) → ¬ (n ++ ['='] <+: argv.getD i []))) :
    fullopt argc argv i st (pre ++ rest) = fullopt argc argv i st rest := by
  induction pre with
  | nil => rfl
  | cons p ps ih =>
    obtain ⟨a, b, c, d⟩ := hpre p (List.mem_cons_self _ _)
    rw [List.cons_append, fullopt_skip a b c d hst]
    exact ih (fun q hq => hpre q (List.mem_cons_of_mem _ hq))

/-- No descriptor matches: the first table scan runs to its end. -/
theorem fullopt_none {argc : Nat} {argv : List CStr} {i : Nat} {st : Env}
    (opts : List opt_s) (hst : st.opt_arg = none)
    (h : ∀ p ∈ opts, p.s ≠ some (argv.getD i []) ∧
      p.l ≠ some (argv.getD i []) ∧ (HAVE_ARG p = true →
        ∀ n, (p.s = some n ∨ p.l = some n) → ¬ (n ++ ['='] <+: argv.getD i []))) :
    fullopt argc argv i st opts = none := by
  induction opts with
  | nil => rfl
  | cons p ps ih =>
    obtain ⟨b, c, d⟩ := h p (List.mem_cons_self _ _)
    by_cases hlive : live p = true
    · rw [fullopt_skip hlive b c d hst]
      exact ih (fun q hq => h q (List.mem_cons_of_mem _ hq))
    · simp only [fullopt, hlive, Bool.false_eq_true, if_false]

theorem findShort_skip_pre (c : Char) (pre rest : List opt_s)
    (hpre : ∀ p ∈ pre, live p = true ∧ ∀ n, p.s = some n → charAt n 1 ≠ c) :
    findShort c (pre ++ rest) = findShort c rest := by
  induction pre with
  | nil => rfl
  | cons p ps ih =>
    obtain ⟨a, b⟩ := hpre p (List.mem_cons_self _ _)
    rw [List.cons_append]
    simp only [findShort, a, if_true]
    cases hs : p.s with
    | none => exact ih (fun q hq => hpre q (List.mem_cons_of_mem _ hq))
    | some n =>
      simp only
      rw [if_neg (fun e => b n hs e.symm)]
      exact ih (fun q hq => hpre q (List.mem_cons_of_mem _ hq))

theorem findShort_head (c : Char) (o : opt_s) (n : CStr) (rest : List opt_s)
    (hs : o.s = some n) (hc : charAt n 1 = c) : findShort c (o :: rest) = some o := by
  have hl : live o = true := by simp [live, hs]
  simp only [findShort, hl, if_true, hs]
  rw [if_pos hc.symm]

theorem live_of_s {o : opt_s} {n : CStr} (hs : o.s = some n) : live o = true := by
  simp [live, hs]

theorem live_of_l {o : opt_s} {n : CStr} (hs : o.l = some n) : live o = true := by
  simp [live, hs]

theorem mem_names {o : opt_s} {n : CStr} : n ∈ names o ↔ o.s = some n ∨ o.l = some n := by
  unfold names
  cases o.s <;> cases o.l <;> simp [eq_comm]

theorem not_matches_iff {p : opt_s} {tok : CStr} :
    ¬ Matches p tok ↔ (p.s ≠ some tok ∧ p.l ≠ some tok ∧ (HAVE_ARG p = true →
      ∀ n, (p.s = some n ∨ p.l = some n) → ¬ (n ++ ['='] <+: tok))) := by
  unfold Matches
  rw [not_or, mem_names, not_or]
  constructor
  · rintro ⟨⟨h1, h2⟩, h3⟩
    exact ⟨h1, h2, fun ha n hn hp => h3 ⟨ha, n, mem_names.2 hn, hp⟩⟩
  · rintro ⟨h1, h2, h3⟩
    exact ⟨⟨h1, h2⟩, fun ⟨ha, n, hn, hp⟩ => h3 ha n (mem_names.1 hn) hp⟩

theorem not_carries_iff {p : opt_s} {c : Char} :
    ¬ Carries p c ↔ ∀ n, p.s = some n → charAt n 1 ≠ c := by
  unfold Carries
  cases p.s <;> simp

theorem carries_of {o : opt_s} {n : CStr} {c : Char} (hs : o.s = some n)
    (hc : charAt n 1 = c) : Carries o c := by
  unfold Carries
  rw [hs]
  exact ⟨n, by simp, hc⟩

/-- The first table scan passes over the live descriptors that do not match. -/
theorem fullopt_pass {argc : Nat} {argv : List CStr} {i : Nat} {st : Env}
    (pre rest : List opt_s) (hst : st.opt_arg = none)
    (hpre : ∀ p ∈ pre, live p = true ∧ ¬ Matches p (argv.getD i [])) :
    fullopt argc argv i st (pre ++ rest) = fullopt argc argv i st rest :=
  fullopt_skip_pre pre rest hst (fun p hp => ⟨(hpre p hp).1, not_matches_iff.1 (hpre p hp).2⟩)

/-- When no descriptor matches, the first table scan runs to its end. -/
theorem fullopt_unmatched {argc : Nat} {argv : List CStr} {i : Nat} {st : Env}
    (opts : List opt_s) (hst : st.opt_arg = none)
    (h : ∀ p ∈ opts, ¬ Matches p (argv.getD i [])) :
    fullopt argc argv i st opts = none :=
  fullopt_none opts hst (fun p hp => not_matches_iff.1 (h p hp))

/-- The scan for a short letter passes over the live descriptors that do not carry it. -/
theorem findShort_pass (c : Char) (pre rest : List opt_s)
    (hpre : ∀ p ∈ pre, live p = true ∧ ¬ Carries p c) :
    findShort c (pre ++ rest) = findShort c rest :=
  findShort_skip_pre c pre rest (fun p hp => ⟨(hpre p hp).1, not_carries_iff.1 (hpre p hp).2⟩)

theorem findShort_none (c : Char) (opts : List opt_s) (h : ∀ p ∈ opts, ¬ Carries p c) :
    findShort c opts = none := by
  induction opts with
  | nil => rfl
  | cons p ps ih =>
    have hp := not_carries_iff.1 (h p (List.mem_cons_self _ _))
    have ih' := ih (fun q hq => h q (List.mem_cons_of_mem _ hq))
    simp only [findShort]
    split
    · cases hs : p.s with
      | none => exact ih'
      | some n =>
        simp only
        rw [if_neg (fun e => hp n hs e.symm)]
        exact ih'
    · rfl

theorem check_opt_set_value {o : opt_s} {a : Nat} (hf : o.flags = OPT_SET_VALUE)
    (hv : o.value = some a) (arg : Option CStr) (mem : Store) :
    check_opt o arg mem = Function.update mem a (Cell.str arg) := by
  unfold check_opt
  rw [hv, hf]
  rfl

theorem have_arg_set_value {o : opt_s} (hf : o.flags = OPT_SET_VALUE) : HAVE_ARG o = true := by
  unfold HAVE_ARG
  rw [hf]
  rfl

/-- The first table scan stops at the first descriptor whose name is the token; a
value-taking one takes the next token as its value. -/
theorem fullopt_exact_value {argc : Nat} {argv : List CStr} {i : Nat} {st : Env}
    {o : opt_s} {post : List opt_s}
    (hm : o.s = some (argv.getD i []) ∨ o.l = some (argv.getD i []))
    (ha : HAVE_ARG o = true) (hi : i + 1 < argc) :
    fullopt argc argv i st (o :: post)
      = some (arghandler o (i + 1) (set_opt_arg (some (argv.getD (i + 1) [])) st)) := by
  have hlive : live o = true := by
    rcases hm with h | h
    · exact live_of_s h
    · exact live_of_l h
  have he : (eq_short o (argv.getD i []) || eq_long o (argv.getD i [])) = true := by
    rcases hm with h | h
    · rw [(eq_short_iff _ _).2 h]; rfl
    · rw [(eq_long_iff _ _).2 h]; simp
  simp only [fullopt, hlive, he, ha, if_true]
  rw [if_neg (by omega)]

theorem fullopt_exact_missing {argc : Nat} {argv : List CStr} {i : Nat} {st : Env}
    {o : opt_s} {post : List opt_s}
    (hm : o.s = some (argv.getD i []) ∨ o.l = some (argv.getD i []))
    (ha : HAVE_ARG o = true) (hi : argc ≤ i + 1) :
    fullopt argc argv i st (o :: post)
      = some (Step.ret Exit.missingValue (-1)
          (err_arg_required
            ((argv.getD i []).drop (1 + (if eq_long o (argv.getD i []) then 1 else 0))) st)) := by
  have hlive : live o = true := by
    rcases hm with h | h
    · exact live_of_s h
    · exact live_of_l h
  have he : (eq_short o (argv.getD i []) || eq_long o (argv.getD i [])) = true := by
    rcases hm with h | h
    · rw [(eq_short_iff _ _).2 h]; rfl
    · rw [(eq_long_iff _ _).2 h]; simp
  simp only [fullopt, hlive, he, ha, if_true]
  rw [if_pos (by omega)]

/-- The first table scan stops at a value-taking descriptor whose name followed by `=`
starts the token, when the token is not its name. -/
theorem fullopt_attached {argc : Nat} {argv : List CStr} {i : Nat} {st : Env}
    {o : opt_s} {post : List opt_s} {v : CStr} (hlive : live o = true)
    (hs : o.s ≠ some (argv.getD i [])) (hl : o.l ≠ some (argv.getD i []))
    (ha : HAVE_ARG o = true)
    (hat : attached o (argv.getD i []) st = (set_opt_arg (some v) st)) :
    fullopt argc argv i st (o :: post)
      = some (arghandler o i (set_opt_arg (some v) st)) := by
  have h1 : eq_short o (argv.getD i []) = false := by
    rw [← Bool.not_eq_true, eq_short_iff]; exact hs
  have h2 : eq_long o (argv.getD i []) = false := by
    rw [← Bool.not_eq_true, eq_long_iff]; exact hl
  simp only [fullopt, hlive, h1, h2, ha, hat, if_true, Bool.or_self, Bool.false_eq_true,
    if_false, set_opt_arg_opt_arg, Option.isSome_some]

/-- An iteration whose first table scan finds a descriptor does what that scan says. -/
theorem opt_iter_full {opts : List opt_s} {argc : Nat} {argv : List CStr} {i : Nat}
    {st : Env} {step : Step} (h0 : charAt (argv.getD i []) 0 = '-')
    (h1 : argv.getD i [] ≠ ['-', '-'])
    (hf : fullopt argc argv i (set_opt_arg (none) st) opts = some step) :
    opt_iter opts argc argv i st = step := by
  unfold opt_iter
  simp only
  rw [if_neg (by simpa using h0), if_neg (by rw [strcmp_eq_zero_iff]; exact h1)]
  simp only [hf]

/-- An iteration whose first table scan finds nothing reads a token with a single `-`
as a group of short options. -/
theorem opt_iter_short {opts : List opt_s} {argc : Nat} {argv : List CStr} {i : Nat}
    {st : Env} (h0 : charAt (argv.getD i []) 0 = '-') (h1 : argv.getD i [] ≠ ['-', '-'])
    (hf : fullopt argc argv i (set_opt_arg (none) st) opts = none)
    (h2 : charAt (argv.getD i []) 1 ≠ '-') :
    opt_iter opts argc argv i st
      = shortopts opts argc argv i ((argv.getD i []).drop 1) (set_opt_arg (none) st) := by
  unfold opt_iter
  simp only
  rw [if_neg (by simpa using h0), if_neg (by rw [strcmp_eq_zero_iff]; exact h1)]
  simp only [hf]
  rw [if_pos ⟨h0, h2⟩]

/-- An iteration whose first table scan finds nothing rejects a token that starts
with `--`. -/
theorem opt_iter_unrecognized {opts : List opt_s} {argc : Nat} {argv : List CStr} {i : Nat}
    {st : Env} (h0 : charAt (argv.getD i []) 0 = '-') (h1 : argv.getD i [] ≠ ['-', '-'])
    (hf : fullopt argc argv i (set_opt_arg (none) st) opts = none)
    (h2 : charAt (argv.getD i []) 1 = '-') :
    opt_iter opts argc argv i st = unrecognized_option argv i (set_opt_arg (none) st) := by
  unfold opt_iter
  simp only
  rw [if_neg (by simpa using h0), if_neg (by rw [strcmp_eq_zero_iff]; exact h1)]
  simp only [hf]
  rw [if_neg (fun h => h.2 h2)]

/-- The storage effect of an `OPT_SET_VALUE` descriptor, as its handler finds it. -/
theorem dispatch_set_value {o : opt_s} {a : Nat} (hf : o.flags = OPT_SET_VALUE)
    (hv : o.value = some a) (arg : Option CStr) (st : Env) :
    dispatch o arg st
      = call_handler o { st with mem := Function.update st.mem a (Cell.str arg) } := by
  unfold dispatch
  rw [check_opt_set_value hf hv]

/-- Label `arghandler`, by the code the handler returns. -/
theorem arghandler_eq (o : opt_s) (k : Nat) (st : Env) :
    arghandler o k st =
      if (dispatch o st.opt_arg st).1 = 0 then Step.next (k + 1) (dispatch o st.opt_arg st).2
      else Step.ret Exit.handlerAbort (dispatch o st.opt_arg st).1
        (dispatch o st.opt_arg st).2 := by
  unfold arghandler
  split <;> simp_all

/-- C1: if `argc == 1` or `argv[1]` does not begin with `-`, `opt_parse` returns 1,
leaves every storage cell as it was, invokes no handler and prints nothing, whatever the
later tokens are; in particular this holds for every vector without a token that
begins with `-`. -/
theorem opt_parse_first_positional (argv : List CStr) (opts : List opt_s) (pn : Bool)
    (st : Env) (hargc : 1 ≤ argv.length) :
    ((argv.length = 1 ∨ charAt (argv.getD 1 []) 0 ≠ '-') →
      ∃ r, opt_parse argv.length argv (some opts) pn st = some r ∧ r.code = 1 ∧
        r.st.mem = st.mem ∧ r.st.calls = st.calls ∧ r.st.out = st.out) ∧
    ((∀ t ∈ argv, charAt t 0 ≠ '-') →
      ∃ r, opt_parse argv.length argv (some opts) pn st = some r ∧ r.code = 1 ∧
        r.st.mem = st.mem ∧ r.st.calls = st.calls ∧ r.st.out = st.out) := by
  have main : (argv.length = 1 ∨ charAt (argv.getD 1 []) 0 ≠ '-') →
      ∃ r, opt_parse argv.length argv (some opts) pn st = some r ∧ r.code = 1 ∧
        r.st.mem = st.mem ∧ r.st.calls = st.calls ∧ r.st.out = st.out := by
    intro h
    obtain ⟨hm, hc, ho⟩ := opt_start_mem argv opts pn st
    by_cases h1 : 1 < argv.length
    · have htok : charAt (argv.getD 1 []) 0 ≠ '-' := by
        rcases h with h | h
        · omega
        · exact h
      have hs : opt_iter opts argv.length argv 1 (opt_start argv opts pn st)
          = Step.ret Exit.positional 1 (set_opt_arg none (opt_start argv opts pn st)) := by
        unfold opt_iter
        simp only
        rw [if_pos htok]
        rfl
      rw [opt_parse_of_reaches_ret Reaches.start h1 hs]
      exact ⟨_, rfl, rfl, hm, hc, ho⟩
    · rw [opt_parse_of_reaches_end Reaches.start (by omega)]
      exact ⟨_, rfl, rfl, hm, hc, ho⟩
  refine ⟨main, fun hall => main ?_⟩
  by_cases h1 : 1 < argv.length
  · right
    apply hall
    rw [List.getD_eq_getElem _ _ h1]
    exact List.getElem_mem _
  · left; omega

/-- A vector for C1: the positional token at index 1 hides a later `-n`. -/
theorem opt_parse_first_positional_witness :
    ∃ r, opt_parse 3 ["echo".toList, "a".toList, "-n".toList] (some echo_progopts) true
        (Env.init echo_mem) = some r ∧ r.code = 1 ∧
      r.st.mem = echo_mem ∧ r.st.calls = [] ∧ r.st.out = [] :=
  (opt_parse_first_positional ["echo".toList, "a".toList, "-n".toList] echo_progopts true
    (Env.init echo_mem) (by decide)).1 (Or.inr (by decide))

/-- C2: when the scan reaches index `k < argc` and `argv[k]` is exactly `--`,
`opt_parse` returns `k + 1` and leaves the state as it was when the scan reached `k`
(storage, handler calls, output); the tokens after `k` do not matter: every vector that
agrees with `argv` up to index `k` gives this same result. -/
theorem opt_parse_terminator (opts : List opt_s) (argv : List CStr) (pn : Bool)
    (s0 st : Env) (k : Nat) (hk : k < argv.length) (htok : argv.getD k [] = ['-', '-'])
    (hr : Reaches opts argv.length argv (opt_start argv opts pn s0) k st) :
    ∀ argv1 : List CStr, k < argv1.length →
      (∀ j, j ≤ k → argv1.getD j [] = argv.getD j []) →
      opt_parse argv1.length argv1 (some opts) pn s0
        = some { why := Exit.terminator, code := (k : Int) + 1,
                 st := set_opt_arg none st } := by
  intro argv1 hk1 hpre
  have h0 : opt_start argv1 opts pn s0 = opt_start argv opts pn s0 := by
    unfold opt_start
    simp only [hpre 0 (Nat.zero_le k)]
  have hr1 : Reaches opts argv1.length argv1 (opt_start argv1 opts pn s0) k st := by
    rw [h0]
    exact reaches_congr hk hk1 (fun j hj => (hpre j hj).symm) hr (Nat.le_refl k)
  have hs : opt_iter opts argv1.length argv1 k st
      = Step.ret Exit.terminator ((k : Int) + 1) (set_opt_arg none st) := by
    unfold opt_iter
    simp only [hpre k (Nat.le_refl k), htok]
    rw [if_neg (by decide), if_pos (by decide)]
  exact opt_parse_of_reaches_ret hr1 hk1 hs

/-- A vector for C2: `-n` is applied, `--` ends the options, the `-p` behind it is
left alone. -/
theorem opt_parse_terminator_witness :
    (opt_parse 4 ["echo".toList, "-n".toList, "--".toList, "-p".toList]
        (some echo_progopts) true (Env.init echo_mem)).map
      (fun r => (r.code, r.st.mem 0, r.st.mem 1, r.st.calls.length, r.st.out))
      = some (3, Cell.int 1, Cell.str (some []), 0, []) := by
  have hr : Reaches echo_progopts 4 ["echo".toList, "-n".toList, "--".toList, "-p".toList]
      (opt_start ["echo".toList, "-n".toList, "--".toList, "-p".toList] echo_progopts true
        (Env.init echo_mem)) 2 _ :=
    Reaches.step Reaches.start (by decide) rfl
  have h := opt_parse_terminator echo_progopts
    ["echo".toList, "-n".toList, "--".toList, "-p".toList] true (Env.init echo_mem) _ 2
    (by decide) (by decide) hr
    ["echo".toList, "-n".toList, "--".toList, "-p".toList] (by decide) (fun _ _ => rfl)
  rw [show (["echo".toList, "-n".toList, "--".toList, "-p".toList] : List CStr).length = 4
    from rfl] at h
  rw [h]
  decide

/-! ## Value syntaxes -/

/-- C4 (amended): when the scan reaches index `i`, the token `argv[i]` is the short or
long name of a value-taking descriptor `o` that is the first one to match it (names
begin with `-` and none is `--`), and `i + 1 < argc`, then `argv[i+1]` is taken
verbatim as the value, whatever it is: it becomes `opt_arg`, the storage effect of `o`
is applied with it (for `OPT_SET_VALUE` it is stored in the target), and the handler of
`o` runs on that state. Scanning resumes at index `i + 2` when `o` has no handler or
its handler returns 0; otherwise `opt_parse` returns the handler's code. On the echo
table `-p X: a b` returns 3 with `prefix` equal to `X:` and `no_lf` untouched. -/
theorem exact_value_next_token (pre post : List opt_s) (o : opt_s) (argv : List CStr)
    (pn : Bool) (s0 st : Env) (i : Nat)
    (hr : Reaches (pre ++ o :: post) argv.length argv
      (opt_start argv (pre ++ o :: post) pn s0) i st)
    (hi : i + 1 < argv.length)
    (hname : ∀ n ∈ names o, charAt n 0 = '-' ∧ n ≠ ['-', '-'])
    (hpre : ∀ p ∈ pre, live p = true ∧ ¬ Matches p (argv.getD i []))
    (hm : argv.getD i [] ∈ names o) (ha : HAVE_ARG o = true) :
    ((dispatch o (some (argv.getD (i + 1) []))
          (set_opt_arg (some (argv.getD (i + 1) [])) st)).1 = 0 →
      Reaches (pre ++ o :: post) argv.length argv (opt_start argv (pre ++ o :: post) pn s0)
        (i + 2)
        (dispatch o (some (argv.getD (i + 1) []))
          (set_opt_arg (some (argv.getD (i + 1) [])) st)).2) ∧
    ((dispatch o (some (argv.getD (i + 1) []))
          (set_opt_arg (some (argv.getD (i + 1) [])) st)).1 ≠ 0 →
      opt_parse argv.length argv (some (pre ++ o :: post)) pn s0 =
        some { why := Exit.handlerAbort,
               code := (dispatch o (some (argv.getD (i + 1) []))
                 (set_opt_arg (some (argv.getD (i + 1) [])) st)).1,
               st := (dispatch o (some (argv.getD (i + 1) []))
                 (set_opt_arg (some (argv.getD (i + 1) [])) st)).2 }) ∧
    (∀ a, o.flags = OPT_SET_VALUE → o.value = some a →
      dispatch o (some (argv.getD (i + 1) [])) (set_opt_arg (some (argv.getD (i + 1) [])) st)
        = call_handler o
            { st with
              mem := Function.update st.mem a (Cell.str (some (argv.getD (i + 1) [])))
              opt_arg := some (argv.getD (i + 1) []) }) ∧
    (o.handler = none →
      dispatch o (some (argv.getD (i + 1) [])) (set_opt_arg (some (argv.getD (i + 1) [])) st)
        = (0, { st with
              mem := check_opt o (some (argv.getD (i + 1) [])) st.mem
              opt_arg := some (argv.getD (i + 1) []) })) ∧
    (opt_parse 5 ["echo".toList, "-p".toList, "X:".toList, "a".toList, "b".toList]
        (some echo_progopts) true (Env.init echo_mem)).map
        (fun r => (r.code, r.st.mem 0, r.st.mem 1))
      = some (3, Cell.int 0, Cell.str (some "X:".toList)) := by
  obtain ⟨h0, h1⟩ := hname _ hm
  have hstep : opt_iter (pre ++ o :: post) argv.length argv i st
      = arghandler o (i + 1) (set_opt_arg (some (argv.getD (i + 1) [])) st) := by
    refine opt_iter_full h0 h1 ?_
    rw [fullopt_pass pre (o :: post) rfl hpre]
    rw [fullopt_exact_value (mem_names.1 hm) ha hi]
    rfl
  rw [arghandler_eq] at hstep
  refine ⟨?_, ?_, ?_, ?_, by decide⟩
  · intro hz
    rw [set_opt_arg_opt_arg, if_pos hz] at hstep
    exact Reaches.step hr (by omega) hstep
  · intro hz
    rw [set_opt_arg_opt_arg, if_neg hz] at hstep
    exact opt_parse_of_reaches_ret hr (by omega) hstep
  · intro a hf hv
    exact dispatch_set_value hf hv _ _
  · intro hn
    unfold dispatch call_handler
    rw [hn]
    rfl

/-- C4 at a concrete vector: on the echo table the value of `-p` is taken verbatim
even though it is `--`, and the scan resumes behind it. -/
theorem exact_value_next_token_witness :
    ∃ st, Reaches echo_progopts 4
        ["echo".toList, "-p".toList, "--".toList, "-n".toList]
        (opt_start ["echo".toList, "-p".toList, "--".toList, "-n".toList] echo_progopts true
          (Env.init echo_mem)) 3 st ∧
      st.mem 1 = Cell.str (some "--".toList) ∧ st.opt_arg = some "--".toList :=
  ⟨_, (exact_value_next_token [OPT_HELP, echo_n] [OPT_END] echo_p
      ["echo".toList, "-p".toList, "--".toList, "-n".toList] true (Env.init echo_mem) _ 1
      Reaches.start (by decide) (by decide) (by decide) (by decide)
      (by decide)).1 rfl, rfl, rfl⟩

/-- C4 as stated fails: when the handler of `-p` returns `-100`, the value `X:` is
stored but the scan does not resume at index 3; `opt_parse` returns `-100`. -/
theorem exact_value_handler_abort :
    (opt_parse 5 ["echo".toList, "-p".toList, "X:".toList, "a".toList, "b".toList]
        (some [OPT_HELP, echo_n, { echo_p with handler := some refuse }, OPT_END])
        true (Env.init echo_mem)).map (fun r => (r.why, r.code, r.st.mem 1))
      = some (Exit.handlerAbort, -100, Cell.str (some "X:".toList)) ∧ (-100 : Int) ≠ 3 := by
  decide

/-! ## Combined short options -/

theorem check_opt_set_flag {o : opt_s} {a : Nat} (hf : o.flags = OPT_SET_FLAG)
    (hv : o.value = some a) (arg : Option CStr) (mem : Store) :
    check_opt o arg mem = Function.update mem a (Cell.int 1) := by
  unfold check_opt
  rw [hv, hf]
  rfl

theorem have_arg_set_flag {o : opt_s} (hf : o.flags = OPT_SET_FLAG) : HAVE_ARG o = false := by
  unfold HAVE_ARG
  rw [hf]
  rfl

theorem dispatch_set_flag {o : opt_s} {a : Nat} (hf : o.flags = OPT_SET_FLAG)
    (hv : o.value = some a) (arg : Option CStr) (st : Env) :
    dispatch o arg st
      = call_handler o { st with mem := Function.update st.mem a (Cell.int 1) } := by
  unfold dispatch
  rw [check_opt_set_flag hf hv]

theorem call_handler_none {o : opt_s} (h : o.handler = none) (st : Env) :
    call_handler o st = (0, st) := by
  unfold call_handler
  rw [h]

/-- C5 (amended): for every table with a no-value `OPT_SET_FLAG` option `-n` and an
`OPT_SET_VALUE` option `-p`, each the first descriptor carrying its letter, where no
descriptor matches `-np` as a whole token, and for every token `X` and positional token
`R`: reading `[prog, -np, X, R]` sets the flag of `-n` to 1 and runs the handler of
`-n`; when that returns 0 (or is absent), `X` is assigned to the target of `-p` and to
`opt_arg` and the handler of `-p` runs; when that returns 0 (or is absent) as well,
`opt_parse` returns 3. With no handlers the storage ends with the flag at 1 and `X` in
the target of `-p`. When the handler of `-n` returns a nonzero code, `opt_parse`
returns that code in the state that handler left, the flag having been set before it
ran; when the handler of `-n` returns 0 and the handler of `-p` returns a nonzero code,
`opt_parse` returns that code in the state that handler left, `X` having been assigned
before it ran. -/
theorem combined_short_options (pre1 post1 pre2 post2 opts : List opt_s) (dn dp : opt_s)
    (an ap : Nat) (prog X R : CStr) (pn : Bool) (s0 : Env)
    (h1 : opts = pre1 ++ dn :: post1) (h2 : opts = pre2 ++ dp :: post2)
    (hpre1 : ∀ p ∈ pre1, live p = true ∧ ¬ Carries p 'n')
    (hpre2 : ∀ p ∈ pre2, live p = true ∧ ¬ Carries p 'p')
    (hcn : Carries dn 'n') (hcp : Carries dp 'p')
    (hnf : dn.flags = OPT_SET_FLAG) (hnv : dn.value = some an)
    (hpf : dp.flags = OPT_SET_VALUE) (hpv : dp.value = some ap)
    (hno : ∀ p ∈ opts, ¬ Matches p ['-', 'n', 'p'])
    (hR : charAt R 0 ≠ '-') :
    ((dispatch dn none (set_opt_arg none (opt_start [prog] opts pn s0))).1 = 0 →
      (dispatch dp (some X) (set_opt_arg (some X)
        (dispatch dn none (set_opt_arg none (opt_start [prog] opts pn s0))).2)).1 = 0 →
      opt_parse 4 [prog, ['-', 'n', 'p'], X, R] (some opts) pn s0 =
        some { why := Exit.positional, code := 3,
               st := set_opt_arg none (dispatch dp (some X) (set_opt_arg (some X)
                 (dispatch dn none (set_opt_arg none (opt_start [prog] opts pn s0))).2)).2 }) ∧
    (∀ st : Env, dispatch dn none st
        = call_handler dn { st with mem := Function.update st.mem an (Cell.int 1) }) ∧
    (∀ st : Env, dispatch dp (some X) st
        = call_handler dp { st with mem := Function.update st.mem ap (Cell.str (some X)) }) ∧
    (dn.handler = none → dp.handler = none →
      ∃ r, opt_parse 4 [prog, ['-', 'n', 'p'], X, R] (some opts) pn s0 = some r ∧
        r.code = 3 ∧ r.st.calls = s0.calls ∧
        r.st.mem = Function.update (Function.update s0.mem an (Cell.int 1)) ap
          (Cell.str (some X))) ∧
    ((dispatch dn none (set_opt_arg none (opt_start [prog] opts pn s0))).1 ≠ 0 →
      opt_parse 4 [prog, ['-', 'n', 'p'], X, R] (some opts) pn s0 =
        some { why := Exit.handlerAbort,
               code := (dispatch dn none (set_opt_arg none (opt_start [prog] opts pn s0))).1,
               st := (dispatch dn none (set_opt_arg none (opt_start [prog] opts pn s0))).2 }) ∧
    ((dispatch dn none (set_opt_arg none (opt_start [prog] opts pn s0))).1 = 0 →
      (dispatch dp (some X) (set_opt_arg (some X)
        (dispatch dn none (set_opt_arg none (opt_start [prog] opts pn s0))).2)).1 ≠ 0 →
      opt_parse 4 [prog, ['-', 'n', 'p'], X, R] (some opts) pn s0 =
        some { why := Exit.handlerAbort,
               code := (dispatch dp (some X) (set_opt_arg (some X)
                 (dispatch dn none (set_opt_arg none (opt_start [prog] opts pn s0))).2)).1,
               st := (dispatch dp (some X) (set_opt_arg (some X)
                 (dispatch dn none (set_opt_arg none (opt_start [prog] opts pn s0))).2)).2 }) := by
  have hfn : findShort 'n' opts = some dn := by
    obtain ⟨n, hn, hc⟩ := hcn
    rw [h1, findShort_pass 'n' pre1 _ hpre1]
    exact findShort_head 'n' dn n post1 (by simpa using hn) hc
  have hfp : findShort 'p' opts = some dp := by
    obtain ⟨n, hn, hc⟩ := hcp
    rw [h2, findShort_pass 'p' pre2 _ hpre2]
    exact findShort_head 'p' dp n post2 (by simpa using hn) hc
  have hiter : opt_iter opts 4 [prog, ['-', 'n', 'p'], X, R] 1
      (opt_start [prog, ['-', 'n', 'p'], X, R] opts pn s0)
      = shortopts opts 4 [prog, ['-', 'n', 'p'], X, R] 1 ['n', 'p']
          (set_opt_arg none (opt_start [prog, ['-', 'n', 'p'], X, R] opts pn s0)) :=
    @opt_iter_short opts 4 [prog, ['-', 'n', 'p'], X, R] 1 _ rfl (by simp)
      (fullopt_unmatched opts rfl hno) (by simp [charAt])
  have main : (dispatch dn none (set_opt_arg none (opt_start [prog] opts pn s0))).1 = 0 →
      (dispatch dp (some X) (set_opt_arg (some X)
        (dispatch dn none (set_opt_arg none (opt_start [prog] opts pn s0))).2)).1 = 0 →
      opt_parse 4 [prog, ['-', 'n', 'p'], X, R] (some opts) pn s0 =
        some { why := Exit.positional, code := 3,
               st := set_opt_arg none (dispatch dp (some X) (set_opt_arg (some X)
                 (dispatch dn none (set_opt_arg none (opt_start [prog] opts pn s0))).2)).2 } := by
    intro hz1 hz2
    have hsh : shortopts opts 4 [prog, ['-', 'n', 'p'], X, R] 1 ['n', 'p']
          (set_opt_arg none (opt_start [prog, ['-', 'n', 'p'], X, R] opts pn s0))
        = Step.next 3 (dispatch dp (some X) (set_opt_arg (some X)
            (dispatch dn none (set_opt_arg none (opt_start [prog] opts pn s0))).2)).2 := by
      have e0 : opt_start [prog, ['-', 'n', 'p'], X, R] opts pn s0
          = opt_start [prog] opts pn s0 := rfl
      rw [e0]
      simp only [shortopts, hfn, hfp, have_arg_set_flag hnf, have_arg_set_value hpf,
        Bool.false_eq_true, if_false, if_true]
      rw [if_neg (by simpa using hz1)]
      rw [if_neg (by simp)]
      rw [arghandler_eq]
      simp only [List.getD_cons_succ, List.getD_cons_zero, set_opt_arg_opt_arg]
      rw [if_pos hz2]
    have hr := Reaches.step Reaches.start (by simp) (hiter.trans hsh)
    refine opt_parse_of_reaches_ret hr (by simp) ?_
    unfold opt_iter
    simp only
    rw [if_pos (by simpa using hR)]
    rfl
  have e0 : opt_start [prog, ['-', 'n', 'p'], X, R] opts pn s0
      = opt_start [prog] opts pn s0 := rfl
  have abort1 : (dispatch dn none (set_opt_arg none (opt_start [prog] opts pn s0))).1 ≠ 0 →
      opt_parse 4 [prog, ['-', 'n', 'p'], X, R] (some opts) pn s0 =
        some { why := Exit.handlerAbort,
               code := (dispatch dn none (set_opt_arg none (opt_start [prog] opts pn s0))).1,
               st := (dispatch dn none
                 (set_opt_arg none (opt_start [prog] opts pn s0))).2 } := by
    intro hz1
    have hsh : shortopts opts 4 [prog, ['-', 'n', 'p'], X, R] 1 ['n', 'p']
          (set_opt_arg none (opt_start [prog, ['-', 'n', 'p'], X, R] opts pn s0))
        = Step.ret Exit.handlerAbort
            (dispatch dn none (set_opt_arg none (opt_start [prog] opts pn s0))).1
            (dispatch dn none (set_opt_arg none (opt_start [prog] opts pn s0))).2 := by
      rw [e0]
      simp only [shortopts, hfn, hfp, have_arg_set_flag hnf, have_arg_set_value hpf,
        Bool.false_eq_true, if_false, if_true]
      rw [if_pos hz1]
    exact opt_parse_of_reaches_ret Reaches.start (by simp) (hiter.trans hsh)
  have abort2 : (dispatch dn none (set_opt_arg none (opt_start [prog] opts pn s0))).1 = 0 →
      (dispatch dp (some X) (set_opt_arg (some X)
        (dispatch dn none (set_opt_arg none (opt_start [prog] opts pn s0))).2)).1 ≠ 0 →
      opt_parse 4 [prog, ['-', 'n', 'p'], X, R] (some opts) pn s0 =
        some { why := Exit.handlerAbort,
               code := (dispatch dp (some X) (set_opt_arg (some X)
                 (dispatch dn none (set_opt_arg none (opt_start [prog] opts pn s0))).2)).1,
               st := (dispatch dp (some X) (set_opt_arg (some X)
                 (dispatch dn none
                   (set_opt_arg none (opt_start [prog] opts pn s0))).2)).2 } := by
    intro hz1 hz2
    have hsh : shortopts opts 4 [prog, ['-', 'n', 'p'], X, R] 1 ['n', 'p']
          (set_opt_arg none (opt_start [prog, ['-', 'n', 'p'], X, R] opts pn s0))
        = Step.ret Exit.handlerAbort
            (dispatch dp (some X) (set_opt_arg (some X)
              (dispatch dn none (set_opt_arg none (opt_start [prog] opts pn s0))).2)).1
            (dispatch dp (some X) (set_opt_arg (some X)
              (dispatch dn none (set_opt_arg none (opt_start [prog] opts pn s0))).2)).2 := by
      rw [e0]
      simp only [shortopts, hfn, hfp, have_arg_set_flag hnf, have_arg_set_value hpf,
        Bool.false_eq_true, if_false, if_true]
      rw [if_neg (by simpa using hz1)]
      rw [if_neg (by simp)]
      rw [arghandler_eq]
      simp only [List.getD_cons_succ, List.getD_cons_zero, set_opt_arg_opt_arg]
      rw [if_neg hz2]
    exact opt_parse_of_reaches_ret Reaches.start (by simp) (hiter.trans hsh)
  refine ⟨main, fun st => dispatch_set_flag hnf hnv _ st,
    fun st => dispatch_set_value hpf hpv _ st, ?_, abort1, abort2⟩
  intro hn hp
  have e1 : ∀ st, dispatch dn none st
      = (0, { st with mem := Function.update st.mem an (Cell.int 1) }) := fun st => by
    rw [dispatch_set_flag hnf hnv, call_handler_none hn]
  have e2 : ∀ st, dispatch dp (some X) st
      = (0, { st with mem := Function.update st.mem ap (Cell.str (some X)) }) := fun st => by
    rw [dispatch_set_value hpf hpv, call_handler_none hp]
  have hm := main (by rw [e1]) (by rw [e2])
  refine ⟨_, hm, rfl, ?_, ?_⟩
  · simp only [e1, e2, set_opt_arg_calls]
    exact (opt_start_mem _ _ _ _).2.1
  · simp only [e1, e2, set_opt_arg_mem]
    rw [(opt_start_mem _ _ _ _).1]

/-- C5 on the table of examples/echo.c. -/
theorem combined_short_options_witness :
    ∃ r, opt_parse 4 ["echo".toList, "-np".toList, "X".toList, "rest".toList]
        (some echo_progopts) true (Env.init echo_mem) = some r ∧
      r.code = 3 ∧ r.st.calls = [] ∧
      r.st.mem = Function.update (Function.update echo_mem 0 (Cell.int 1)) 1
        (Cell.str (some "X".toList)) :=
  (combined_short_options [OPT_HELP] [echo_p, OPT_END] [OPT_HELP, echo_n] [OPT_END]
    echo_progopts echo_n echo_p 0 1 "echo".toList "X".toList "rest".toList true
    (Env.init echo_mem) rfl rfl (by decide) (by decide) (by decide) (by decide) rfl rfl rfl rfl
    (by decide) (by decide)).2.2.2.1 rfl rfl

/-- C5 as stated fails: when the handler of `-n` returns `-100`, `opt_parse` returns
`-100` for `-np X rest`, not 3, and `X` is never assigned to the target of `-p`. -/
theorem combined_short_handler_abort :
    (opt_parse 4 ["echo".toList, "-np".toList, "X".toList, "rest".toList]
        (some [OPT_HELP, { echo_n with handler := some refuse }, echo_p, OPT_END])
        true (Env.init echo_mem)).map (fun r => (r.why, r.code, r.st.mem 0, r.st.mem 1))
      = some (Exit.handlerAbort, -100, Cell.int 1, Cell.str (some [])) ∧ (-100 : Int) ≠ 3 := by
  decide

/-! ## Invariants of a run -/

theorem opt_usage_frame (st : Env) :
    (opt_usage st).opt_arg = st.opt_arg ∧ (opt_usage st).calls = st.calls ∧
      (opt_usage st).mem = st.mem := by
  unfold opt_usage opt_print
  simp only
  cases st.usage with
  | none => exact ⟨rfl, rfl, rfl⟩
  | some u =>
    simp only
    split <;> exact ⟨rfl, rfl, rfl⟩

/-- A handler leaves `opt_arg` and the record of calls alone. -/
theorem handler_run_frame (h : Handler) (st : Env) :
    (h.run st).2.opt_arg = st.opt_arg ∧ (h.run st).2.calls = st.calls := by
  cases h with
  | help => exact ⟨(opt_usage_frame st).1, (opt_usage_frame st).2.1⟩
  | version => exact ⟨rfl, rfl⟩
  | user f => exact ⟨rfl, rfl⟩

theorem call_handler_opt_arg (o : opt_s) (st : Env) :
    (call_handler o st).2.opt_arg = st.opt_arg := by
  unfold call_handler
  cases o.handler with
  | none => rfl
  | some h => exact (handler_run_frame h st).1

/-- What `call_handler` adds to the record of calls. -/
theorem call_handler_calls (o : opt_s) (st : Env) :
    (call_handler o st).2.calls = st.calls ++
      (if o.handler.isSome then
        [{ o := o, arg := st.opt_arg, mem := st.mem, res := (call_handler o st).1 }]
      else []) := by
  unfold call_handler
  cases o.handler with
  | none => simp
  | some h => simp

theorem dispatch_opt_arg (o : opt_s) (arg : Option CStr) (st : Env) :
    (dispatch o arg st).2.opt_arg = st.opt_arg := by
  unfold dispatch
  rw [call_handler_opt_arg]

/-- What `dispatch` adds to the record of calls. -/
theorem dispatch_calls (o : opt_s) (arg : Option CStr) (st : Env) :
    (dispatch o arg st).2.calls = st.calls ++
      (if o.handler.isSome then
        [{ o := o, arg := st.opt_arg, mem := check_opt o arg st.mem,
           res := (dispatch o arg st).1 }]
      else []) := by
  unfold dispatch
  rw [call_handler_calls]

/-- Invariant rule for `arghandler`. -/
theorem arghandler_rule {P : Env → Prop} {Q : Exit → Int → Env → Prop}
    (hdis : ∀ o arg st, P st → st.opt_arg = arg → arg.isSome = HAVE_ARG o →
      ((dispatch o arg st).1 = 0 → P (dispatch o arg st).2) ∧
      ((dispatch o arg st).1 ≠ 0 →
        Q Exit.handlerAbort (dispatch o arg st).1 (dispatch o arg st).2))
    (o : opt_s) (k : Nat) (st : Env) (hP : P st) (ha : st.opt_arg.isSome = HAVE_ARG o) :
    StepOK P Q (arghandler o k st) := by
  rw [arghandler_eq]
  obtain ⟨h1, h2⟩ := hdis o st.opt_arg st hP rfl ha
  split
  · rename_i hz; exact h1 hz
  · rename_i hz; exact h2 hz

/-- Invariant rule for the first table scan. -/
theorem fullopt_rule {P : Env → Prop} {Q : Exit → Int → Env → Prop}
    (hP_arg : ∀ v st, P st → P (set_opt_arg v st))
    (hdis : ∀ o arg st, P st → st.opt_arg = arg → arg.isSome = HAVE_ARG o →
      ((dispatch o arg st).1 = 0 → P (dispatch o arg st).2) ∧
      ((dispatch o arg st).1 ≠ 0 →
        Q Exit.handlerAbort (dispatch o arg st).1 (dispatch o arg st).2))
    (hQ_missing : ∀ st txt, P st → Q Exit.missingValue (-1) (opt_print txt st))
    {argc : Nat} {argv : List CStr} {i : Nat} {opts : List opt_s} {st : Env} {step : Step}
    (hP : P st) (hst : st.opt_arg = none)
    (h : fullopt argc argv i st opts = some step) : StepOK P Q step := by
  induction opts with
  | nil => simp [fullopt] at h
  | cons o os ih =>
    simp only [fullopt] at h
    by_cases hl : live o = true
    · rw [if_pos hl] at h
      by_cases he : (eq_short o (argv.getD i []) || eq_long o (argv.getD i [])) = true
      · rw [if_pos he] at h
        by_cases ha : HAVE_ARG o = true
        · rw [if_pos ha] at h
          by_cases hc : i + 1 ≥ argc
          · rw [if_pos hc] at h
            cases h
            exact hQ_missing _ _ hP
          · rw [if_neg hc] at h
            cases h
            exact arghandler_rule hdis o _ _ (hP_arg _ _ hP) (by simp [ha])
        · rw [if_neg ha] at h
          cases h
          exact arghandler_rule hdis o _ _ hP (by simp [hst, ha])
      · rw [if_neg he] at h
        by_cases ha : HAVE_ARG o = true
        · rw [if_pos ha] at h
          by_cases hv : (attached o (argv.getD i []) st).opt_arg.isSome = true
          · rw [if_pos hv] at h
            cases h
            refine arghandler_rule hdis o _ _ ?_ (by rw [hv, ha])
            unfold attached
            simp only
            split
            · exact hP_arg _ _ hP
            · split
              · exact hP_arg _ _ hP
              · exact hP
          · rw [if_neg hv] at h
            rw [attached_of_isSome_eq_false (by simpa using hv)] at h
            exact ih h
        · rw [if_neg ha] at h
          exact ih h
    · rw [if_neg hl] at h; cases h

/-- Invariant rule for the loop over combined short options. -/
theorem shortopts_rule {P : Env → Prop} {Q : Exit → Int → Env → Prop}
    (hP_arg : ∀ v st, P st → P (set_opt_arg v st))
    (hdis : ∀ o arg st, P st → st.opt_arg = arg → arg.isSome = HAVE_ARG o →
      ((dispatch o arg st).1 = 0 → P (dispatch o arg st).2) ∧
      ((dispatch o arg st).1 ≠ 0 →
        Q Exit.handlerAbort (dispatch o arg st).1 (dispatch o arg st).2))
    (hQ_missing : ∀ st txt, P st → Q Exit.missingValue (-1) (opt_print txt st))
    (hQ_unrec : ∀ st txt, P st → Q Exit.unrecognized (-1) (opt_print txt st))
    (opts : List opt_s) (argc : Nat) (argv : List CStr) (i : Nat) (s : CStr) (st : Env)
    (hP : P st) (hst : st.opt_arg = none) :
    StepOK P Q (shortopts opts argc argv i s st) := by
  induction s generalizing st with
  | nil => exact hP
  | cons c s ih =>
    unfold shortopts
    cases hf : findShort c opts with
    | none => exact hQ_unrec _ _ hP
    | some o =>
      simp only
      by_cases ha : HAVE_ARG o = true
      · rw [if_pos ha]
        cases s with
        | nil =>
          simp only
          split
          · exact hQ_missing _ _ hP
          · exact arghandler_rule hdis o _ _ (hP_arg _ _ hP) (by simp [ha])
        | cons d s1 =>
          exact arghandler_rule hdis o _ _ (hP_arg _ _ hP) (by simp [ha])
      · rw [if_neg ha]
        obtain ⟨h1, h2⟩ := hdis o none st hP hst (by simp [ha])
        split
        · rename_i hz; exact h2 hz
        · rename_i hz
          exact ih _ (h1 (by simpa using hz)) (by rw [dispatch_opt_arg, hst])

/-- Invariant rule for one iteration of the main loop. -/
theorem opt_iter_rule {P : Env → Prop} {Q : Exit → Int → Env → Prop}
    (hP_arg : ∀ v st, P st → P (set_opt_arg v st))
    (hdis : ∀ o arg st, P st → st.opt_arg = arg → arg.isSome = HAVE_ARG o →
      ((dispatch o arg st).1 = 0 → P (dispatch o arg st).2) ∧
      ((dispatch o arg st).1 ≠ 0 →
        Q Exit.handlerAbort (dispatch o arg st).1 (dispatch o arg st).2))
    (hQ_missing : ∀ st txt, P st → Q Exit.missingValue (-1) (opt_print txt st))
    (hQ_unrec : ∀ st txt, P st → Q Exit.unrecognized (-1) (opt_print txt st))
    (hQ_pos : ∀ st c, P st → Q Exit.positional c st)
    (hQ_term : ∀ st c, P st → Q Exit.terminator c st)
    (opts : List opt_s) (argc : Nat) (argv : List CStr) (i : Nat) (st : Env) (hP : P st) :
    StepOK P Q (opt_iter opts argc argv i st) := by
  unfold opt_iter
  simp only
  split
  · exact hQ_pos _ _ (hP_arg _ _ hP)
  · split
    · exact hQ_term _ _ (hP_arg _ _ hP)
    · split
      · rename_i step hs
        exact fullopt_rule hP_arg hdis hQ_missing (hP_arg _ _ hP) rfl hs
      · split
        · exact shortopts_rule hP_arg hdis hQ_missing hQ_unrec opts argc argv i _ _
            (hP_arg _ _ hP) rfl
        · exact hQ_unrec _ _ (hP_arg _ _ hP)

/-- Invariant rule for the main loop: with enough fuel it returns, and the result
satisfies `Q`. -/
theorem opt_loop_rule {P : Env → Prop} {Q : Exit → Int → Env → Prop}
    {opts : List opt_s} {argc : Nat} {argv : List CStr}
    (hiter : ∀ i st, P st → StepOK P Q (opt_iter opts argc argv i st))
    (hend : ∀ st c, P st → Q Exit.exhausted c st) :
    ∀ (fuel i : Nat) (st : Env), argc < fuel + i → P st →
      ∃ r, opt_loop opts argc argv fuel i st = some r ∧ Q r.why r.code r.st := by
  intro fuel
  induction fuel with
  | zero =>
    intro i st h hP
    unfold opt_loop
    rw [if_neg (by omega)]
    exact ⟨_, rfl, hend _ _ hP⟩
  | succ f ih =>
    intro i st h hP
    unfold opt_loop
    by_cases hi : i < argc
    · rw [if_pos hi]
      simp only
      have hok := hiter i st hP
      cases hs : opt_iter opts argc argv i st with
      | ret why code st1 =>
        rw [hs] at hok
        exact ⟨_, rfl, hok⟩
      | next j st1 =>
        rw [hs] at hok
        have := opt_iter_next hs
        exact ih j st1 (by omega) hok
    · rw [if_neg hi]
      exact ⟨_, rfl, hend _ _ hP⟩

/-! ## Errors -/

/-- Every return of the main loop comes from the iteration the scan had reached, or
from running off the end of the vector. -/
theorem opt_loop_last {opts : List opt_s} {argc : Nat} {argv : List CStr} {s0 : Env}
    {r : Result} :
    ∀ (fuel i : Nat) (st : Env), Reaches opts argc argv s0 i st →
      opt_loop opts argc argv fuel i st = some r →
      (∃ j sj, Reaches opts argc argv s0 j sj ∧ argc ≤ j ∧
        r = { why := Exit.exhausted, code := j, st := sj }) ∨
      (∃ j sj, Reaches opts argc argv s0 j sj ∧ j < argc ∧
        opt_iter opts argc argv j sj = Step.ret r.why r.code r.st) := by
  intro fuel
  induction fuel with
  | zero =>
    intro i st hr h
    unfold opt_loop at h
    by_cases hi : i < argc
    · rw [if_pos hi] at h
      cases h
    · rw [if_neg hi] at h
      exact Or.inl ⟨i, st, hr, by omega, (Option.some.inj h).symm⟩
  | succ f ih =>
    intro i st hr h
    unfold opt_loop at h
    by_cases hi : i < argc
    · rw [if_pos hi] at h
      simp only at h
      cases hs : opt_iter opts argc argv i st with
      | ret why code st1 =>
        rw [hs] at h
        simp only [Option.some.injEq] at h
        subst h
        exact Or.inr ⟨i, st, hr, hi, hs⟩
      | next j st1 =>
        rw [hs] at h
        exact ih j st1 (Reaches.step hr hi hs) h
    · rw [if_neg hi] at h
      exact Or.inl ⟨i, st, hr, by omega, (Option.some.inj h).symm⟩

theorem arghandler_why {o : opt_s} {k : Nat} {st st1 : Env} {w : Exit} {c : Int}
    (h : arghandler o k st = Step.ret w c st1) : w = Exit.handlerAbort := by
  rw [arghandler_eq] at h
  split at h
  · cases h
  · injection h with h1 _ _
    exact h1.symm

theorem fullopt_why {argc : Nat} {argv : List CStr} {i : Nat} {opts : List opt_s}
    {st st1 : Env} {w : Exit} {c : Int}
    (h : fullopt argc argv i st opts = some (Step.ret w c st1)) :
    w = Exit.handlerAbort ∨ w = Exit.missingValue := by
  induction opts generalizing st with
  | nil => simp [fullopt] at h
  | cons o os ih =>
    simp only [fullopt] at h
    by_cases hl : live o = true
    · rw [if_pos hl] at h
      by_cases he : (eq_short o (argv.getD i []) || eq_long o (argv.getD i [])) = true
      · rw [if_pos he] at h
        by_cases ha : HAVE_ARG o = true
        · rw [if_pos ha] at h
          by_cases hc : i + 1 ≥ argc
          · rw [if_pos hc] at h
            simp only [Option.some.injEq, Step.ret.injEq] at h
            exact Or.inr h.1.symm
          · rw [if_neg hc] at h
            exact Or.inl (arghandler_why (Option.some.inj h))
        · rw [if_neg ha] at h
          exact Or.inl (arghandler_why (Option.some.inj h))
      · rw [if_neg he] at h
        by_cases ha : HAVE_ARG o = true
        · rw [if_pos ha] at h
          by_cases hv : (attached o (argv.getD i []) st).opt_arg.isSome = true
          · rw [if_pos hv] at h
            exact Or.inl (arghandler_why (Option.some.inj h))
          · rw [if_neg hv] at h
            exact ih h
        · rw [if_neg ha] at h
          exact ih h
    · rw [if_neg hl] at h; cases h

/-- When the loop over a group of short options reports an unrecognized option, the
group splits into the characters `pre` that were processed as no-value options, the
failing character `x`, and the rest, which was never looked at. -/
theorem shortopts_unrecognized {opts : List opt_s} {argc : Nat} {argv : List CStr} {i : Nat}
    {s : CStr} {st st1 : Env} {c : Int}
    (h : shortopts opts argc argv i s st = Step.ret Exit.unrecognized c st1) :
    ∃ pre x post stp, s = pre ++ x :: post ∧
      (∀ d ∈ pre, ∃ o, findShort d opts = some o ∧ HAVE_ARG o = false) ∧
      findShort x opts = none ∧
      shortopts opts argc argv i pre st = Step.next (i + 1) stp ∧
      unrecognized_option argv i stp = Step.ret Exit.unrecognized c st1 := by
  induction s generalizing st with
  | nil => simp [shortopts] at h
  | cons a s ih =>
    unfold shortopts at h
    cases hf : findShort a opts with
    | none =>
      rw [hf] at h
      exact ⟨[], a, s, st, rfl, by simp, hf, rfl, h⟩
    | some o =>
      rw [hf] at h
      simp only at h
      by_cases ha : HAVE_ARG o = true
      · rw [if_pos ha] at h
        exfalso
        cases s with
        | nil =>
          simp only at h
          split at h
          · cases h
          · cases arghandler_why h
        | cons d s1 => cases arghandler_why h
      · rw [if_neg ha] at h
        split at h
        · cases h
        · rename_i hz
          obtain ⟨pre, x, post, stp, e, hpre, hx, hs, hu⟩ := ih h
          refine ⟨a :: pre, x, post, stp, by rw [e]; rfl, ?_, hx, ?_, hu⟩
          · intro d hd
            rcases List.mem_cons.1 hd with rfl | hd
            · exact ⟨o, hf, by simpa using ha⟩
            · exact hpre d hd
          · conv_lhs => unfold shortopts
            simp only [hf]
            rw [if_neg ha, if_neg hz]
            exact hs

theorem charAt_zero_eq {tok : CStr} {c : Char} (h : charAt tok 0 = c) (hc : c ≠ NUL) :
    tok = c :: tok.drop 1 := by
  cases tok with
  | nil => exact absurd h.symm hc
  | cons a t =>
    simp only [charAt, List.getD_cons_zero] at h
    rw [h]
    rfl

/-- C6 (amended): whenever `opt_parse` reports an unrecognized option it returns `-1`,
and the failing token `-` `pre` `x` `post` has had exactly the effect of the group of
short options `pre` in front of the failing character `x`: every character of `pre`
names a no-value option, whose storage effect and handler have been applied and are
kept, while `x` and the characters after it cause nothing but the diagnostic. When the
token starts with `--`, or its first character after `-` is the failing one, the
failing token has no side effect: storage and handler calls are those left by the
tokens before it. -/
theorem unrecognized_option_effects (argv : List CStr) (opts : List opt_s) (pn : Bool)
    (s0 : Env) (r : Result)
    (h : opt_parse argv.length argv (some opts) pn s0 = some r)
    (hw : r.why = Exit.unrecognized) :
    r.code = -1 ∧
    ∃ i st pre x post stp,
      Reaches opts argv.length argv (opt_start argv opts pn s0) i st ∧ i < argv.length ∧
      argv.getD i [] = '-' :: (pre ++ x :: post) ∧
      (∀ d ∈ pre, ∃ o, findShort d opts = some o ∧ HAVE_ARG o = false) ∧
      (findShort x opts = none ∨ (pre = [] ∧ x = '-')) ∧
      shortopts opts argv.length argv i pre (set_opt_arg none st) = Step.next (i + 1) stp ∧
      r.st = opt_print (stp.local_progname ++ ": unrecognized option: '".toList
        ++ argv.getD i [] ++ "'\n".toList) stp ∧
      (pre = [] → r.st.mem = st.mem ∧ r.st.calls = st.calls) := by
  simp only [opt_parse] at h
  rcases opt_loop_last _ _ _ Reaches.start h with ⟨j, sj, _, _, e⟩ | ⟨i, st, hr, hi, hs⟩
  · rw [e] at hw
    cases hw
  · rw [hw] at hs
    unfold opt_iter at hs
    simp only at hs
    split at hs
    · cases hs
    · rename_i h0
      split at hs
      · cases hs
      · split at hs
        · rename_i step hf
          rw [hs] at hf
          rcases fullopt_why hf with e | e <;> cases e
        · have h0' : charAt (argv.getD i []) 0 = '-' := by simpa using h0
          have htok := charAt_zero_eq h0' (by decide)
          split at hs
          · obtain ⟨pre, x, post, stp, e, hpre, hx, hsh, hu⟩ := shortopts_unrecognized hs
            simp only [unrecognized_option, Step.ret.injEq, true_and] at hu
            refine ⟨hu.1.symm, i, st, pre, x, post, stp, hr, hi, ?_, hpre, Or.inl hx, hsh,
              hu.2.symm, ?_⟩
            · rw [htok, e]
            · intro hp
              subst hp
              simp only [shortopts, Step.next.injEq, true_and] at hsh
              rw [← hu.2, ← hsh]
              exact ⟨rfl, rfl⟩
          · rename_i hn
            have h1 : charAt (argv.getD i []) 1 = '-' := by
              by_contra hne
              exact hn ⟨h0', hne⟩
            have h1' : charAt ((argv.getD i []).drop 1) 0 = '-' := by
              rw [← h1]
              simp [charAt, List.getD_eq_getElem?_getD]
            have htok1 := charAt_zero_eq h1' (by decide)
            simp only [unrecognized_option, Step.ret.injEq, true_and] at hs
            refine ⟨hs.1.symm, i, st, [], '-', ((argv.getD i []).drop 1).drop 1,
              set_opt_arg none st, hr, hi, ?_, by simp, Or.inr ⟨rfl, rfl⟩, rfl, hs.2.symm, ?_⟩
            · rw [List.nil_append, ← htok1]
              exact htok
            · intro _
              rw [← hs.2]
              exact ⟨rfl, rfl⟩

/-- C6 as stated fails: on the echo table the token `-nz` is reported as
unrecognized with code `-1`, yet it has set `no_lf`, which was 0 before, to 1. -/
theorem unrecognized_partial_effect :
    (opt_parse 2 ["echo".toList, "-nz".toList] (some echo_progopts) true
        (Env.init echo_mem)).map (fun r => (r.why, r.code, r.st.mem 0))
      = some (Exit.unrecognized, -1, Cell.int 1) ∧ echo_mem 0 = Cell.int 0 := by
  decide

/-- C6 (amended) at the vector `-nz` on the echo table: the run reports the
unrecognized option with code `-1`. -/
theorem unrecognized_option_effects_witness :
    ∃ r, opt_parse 2 ["echo".toList, "-nz".toList] (some echo_progopts) true
        (Env.init echo_mem) = some r ∧ r.why = Exit.unrecognized ∧ r.code = -1 := by
  have e : (opt_parse 2 ["echo".toList, "-nz".toList] (some echo_progopts) true
      (Env.init echo_mem)).map (fun r => r.why) = some Exit.unrecognized := by decide
  cases h : opt_parse 2 ["echo".toList, "-nz".toList] (some echo_progopts) true
      (Env.init echo_mem) with
  | none =>
    rw [h] at e
    cases e
  | some r =>
    rw [h] at e
    have hw : r.why = Exit.unrecognized := Option.some.inj e
    exact ⟨r, rfl, hw, (unrecognized_option_effects ["echo".toList, "-nz".toList]
      echo_progopts true (Env.init echo_mem) r h hw).1⟩

/-- C7: when the scan reaches a token that begins with `--`, is not exactly `--`, and is
matched by no descriptor (it equals no short or long name and does not begin with a
value-taking descriptor's name followed by `=`), `opt_parse` returns `-1`; storage and
handler calls are as they were when the scan reached the token, which is named in the
diagnostic and is never taken apart into short options. In particular
`[prog, --bogus]` returns `-1` against every table with no entry named `--bogus`. -/
theorem unrecognized_long_option (argv : List CStr) (opts : List opt_s) (pn : Bool)
    (s0 st : Env) (i : Nat) (c : Char) (rest : CStr)
    (hr : Reaches opts argv.length argv (opt_start argv opts pn s0) i st)
    (hi : i < argv.length) (htok : argv.getD i [] = '-' :: '-' :: c :: rest)
    (hno : ∀ p ∈ opts, ¬ Matches p (argv.getD i [])) :
    (∃ r, opt_parse argv.length argv (some opts) pn s0 = some r ∧
      r.why = Exit.unrecognized ∧ r.code = -1 ∧ r.st.mem = st.mem ∧ r.st.calls = st.calls ∧
      r.st.out = st.out ++ (st.local_progname ++ ": unrecognized option: '".toList
        ++ argv.getD i [] ++ "'\n".toList)) ∧
    (∀ (tbl : List opt_s) (prog : CStr) (b : Bool) (e0 : Env),
      (∀ p ∈ tbl, "--bogus".toList ∉ names p) →
      ∃ r, opt_parse 2 [prog, "--bogus".toList] (some tbl) b e0 = some r ∧
        r.why = Exit.unrecognized ∧ r.code = -1 ∧ r.st.mem = e0.mem ∧
        r.st.calls = e0.calls) := by
  have gen : ∀ (av : List CStr) (tbl : List opt_s) (b : Bool) (e0 e : Env) (k : Nat)
      (x : Char) (t : CStr),
      Reaches tbl av.length av (opt_start av tbl b e0) k e → k < av.length →
      av.getD k [] = '-' :: '-' :: x :: t → (∀ p ∈ tbl, ¬ Matches p (av.getD k [])) →
      opt_parse av.length av (some tbl) b e0 = some
        { why := Exit.unrecognized, code := -1,
          st := opt_print ((set_opt_arg none e).local_progname
            ++ ": unrecognized option: '".toList ++ av.getD k [] ++ "'\n".toList)
            (set_opt_arg none e) } := by
    intro av tbl b e0 e k x t hre hk ht hn
    refine opt_parse_of_reaches_ret hre hk ?_
    exact opt_iter_unrecognized (by rw [ht]; rfl) (by rw [ht]; simp)
      (fullopt_unmatched tbl rfl hn) (by rw [ht]; rfl)
  constructor
  · exact ⟨_, gen argv opts pn s0 st i c rest hr hi htok hno, rfl, rfl, rfl, rfl, rfl⟩
  · intro tbl prog b e0 hnames
    refine ⟨_, gen [prog, "--bogus".toList] tbl b e0 _ 1 'b' "ogus".toList Reaches.start
      (by simp) rfl ?_, rfl, rfl, ?_, ?_⟩
    · intro p hp hm
      rcases hm with hm | ⟨_, n, hn, hpre⟩
      · exact hnames p hp hm
      · -- a name followed by `=` cannot start a token without `=`
        obtain ⟨t, ht⟩ := hpre
        have hmem : '=' ∈ n ++ ['='] ++ t := by simp
        rw [ht] at hmem
        have hb : '=' ∉ "--bogus".toList := by decide
        exact hb hmem
    · exact (opt_start_mem _ _ _ _).1
    · exact (opt_start_mem _ _ _ _).2.1

/-- C7 on the echo table: `--prefiX` after `-n` is rejected and leaves the flag that
`-n` set. -/
theorem unrecognized_long_option_witness :
    ∃ r, opt_parse 3 ["echo".toList, "-n".toList, "--prefiX".toList] (some echo_progopts)
        true (Env.init echo_mem) = some r ∧
      r.why = Exit.unrecognized ∧ r.code = -1 ∧ r.st.mem 0 = Cell.int 1 ∧
      r.st.calls = [] := by
  have hr : Reaches echo_progopts 3 ["echo".toList, "-n".toList, "--prefiX".toList]
      (opt_start ["echo".toList, "-n".toList, "--prefiX".toList] echo_progopts true
        (Env.init echo_mem)) 2 _ :=
    Reaches.step Reaches.start (by decide) rfl
  obtain ⟨r, h1, h2, h3, h4, h5, _⟩ := (unrecognized_long_option
    ["echo".toList, "-n".toList, "--prefiX".toList] echo_progopts true (Env.init echo_mem)
    _ 2 'p' "refiX".toList hr (by decide) rfl (by decide)).1
  exact ⟨r, h1, h2, h3, by rw [h4]; rfl, by rw [h5]; rfl⟩

/-- C8 (amended): when the scan reaches the last token, and the first descriptor that
matches it is value-taking and has it as its short or long name, where its names begin
with `-` and none is `--`, `opt_parse` returns `-1`; the descriptor's target is not
written and no handler is invoked: storage and handler calls are exactly those left by
the earlier tokens. The diagnostic names the option. -/
theorem missing_value (pre post : List opt_s) (o : opt_s) (argv : List CStr) (pn : Bool)
    (s0 st : Env) (i : Nat)
    (hr : Reaches (pre ++ o :: post) argv.length argv
      (opt_start argv (pre ++ o :: post) pn s0) i st)
    (hlast : i + 1 = argv.length)
    (hname : ∀ n ∈ names o, charAt n 0 = '-' ∧ n ≠ ['-', '-'])
    (hpre : ∀ p ∈ pre, live p = true ∧ ¬ Matches p (argv.getD i []))
    (hm : argv.getD i [] ∈ names o) (ha : HAVE_ARG o = true) :
    ∃ r, opt_parse argv.length argv (some (pre ++ o :: post)) pn s0 = some r ∧
      r.why = Exit.missingValue ∧ r.code = -1 ∧ r.st.mem = st.mem ∧ r.st.calls = st.calls ∧
      r.st.out = st.out ++ (st.local_progname ++ ": option requires an argument -- ".toList
        ++ (argv.getD i []).drop (if o.l = some (argv.getD i []) then 2 else 1)
        ++ "\n".toList) := by
  obtain ⟨h0, h1⟩ := hname _ hm
  have hstep : opt_iter (pre ++ o :: post) argv.length argv i st
      = Step.ret Exit.missingValue (-1)
          (err_arg_required
            ((argv.getD i []).drop (1 + (if eq_long o (argv.getD i []) then 1 else 0)))
            (set_opt_arg none st)) := by
    refine opt_iter_full h0 h1 ?_
    rw [fullopt_pass pre (o :: post) rfl hpre]
    exact fullopt_exact_missing (mem_names.1 hm) ha (by omega)
  refine ⟨_, opt_parse_of_reaches_ret hr (by omega) hstep, rfl, rfl, rfl, rfl, ?_⟩
  simp only [err_arg_required, opt_print, set_opt_arg]
  by_cases hl : o.l = some (argv.getD i [])
  · rw [if_pos hl, if_pos ((eq_long_iff _ _).2 hl)]
  · rw [if_neg hl, if_neg (fun h => hl ((eq_long_iff _ _).1 h))]

/-- C8 (amended) on the echo table: `--prefix` as the last token, after `-n`. -/
theorem missing_value_witness :
    ∃ r, opt_parse 3 ["echo".toList, "-n".toList, "--prefix".toList] (some echo_progopts)
        true (Env.init echo_mem) = some r ∧
      r.why = Exit.missingValue ∧ r.code = -1 ∧ r.st.mem 0 = Cell.int 1 ∧
      r.st.mem 1 = Cell.str (some []) ∧ r.st.calls = [] ∧
      r.st.out = "echo: option requires an argument -- prefix\n".toList := by
  have hr : Reaches echo_progopts 3 ["echo".toList, "-n".toList, "--prefix".toList]
      (opt_start ["echo".toList, "-n".toList, "--prefix".toList] echo_progopts true
        (Env.init echo_mem)) 2 _ :=
    Reaches.step Reaches.start (by decide) rfl
  obtain ⟨r, h1, h2, h3, h4, h5, h6⟩ := missing_value [OPT_HELP, echo_n] [OPT_END] echo_p
    ["echo".toList, "-n".toList, "--prefix".toList] true (Env.init echo_mem) _ 2 hr rfl
    (by decide) (by decide) (by decide) (by decide)
  exact ⟨r, h1, h2, h3, by rw [h4]; rfl, by rw [h4]; rfl, by rw [h5]; rfl,
    by rw [h6]; decide⟩

/-- C8 as stated fails for a name that is not scanned as an option: a token is tested
for a positional argument and for the terminator before the table is looked at. With
a value-taking descriptor named `--`, the last token `--` returns 2; with one named
`x`, the last token `x` returns 1. Neither prints a diagnostic. -/
theorem missing_value_unscanned_name :
    ("--".toList ∈ names { OPT_END with l := some "--".toList, flags := OPT_SET_VALUE } ∧
      HAVE_ARG { OPT_END with l := some "--".toList, flags := OPT_SET_VALUE } = true) ∧
    (opt_parse 2 ["prog".toList, "--".toList]
        (some [{ OPT_END with l := some "--".toList, flags := OPT_SET_VALUE }, OPT_END])
        false (Env.init echo_mem)).map (fun r => (r.why, r.code, r.st.out))
      = some (Exit.terminator, 2, []) ∧
    ("x".toList ∈ names { OPT_END with s := some "x".toList, flags := OPT_SET_VALUE } ∧
      HAVE_ARG { OPT_END with s := some "x".toList, flags := OPT_SET_VALUE } = true) ∧
    (opt_parse 2 ["prog".toList, "x".toList]
        (some [{ OPT_END with s := some "x".toList, flags := OPT_SET_VALUE }, OPT_END])
        false (Env.init echo_mem)).map (fun r => (r.why, r.code, r.st.out))
      = some (Exit.positional, 1, []) := by
  refine ⟨⟨?_, ?_⟩, ?_, ⟨?_, ?_⟩, ?_⟩ <;> decide

/-! ## Handlers -/

theorem check_opt_idem (o : opt_s) (arg : Option CStr) (mem : Store) :
    check_opt o arg (check_opt o arg mem) = check_opt o arg mem := by
  unfold check_opt
  cases o.value with
  | none => rfl
  | some a =>
    simp only
    split
    · simp
    · split
      · simp
      · split
        · simp
        · rfl

theorem last_nonzero {init init1 rest : List Call} {c c1 : Call}
    (h : init ++ c :: rest = init1 ++ [c1]) (hz : ∀ d ∈ init1, d.res = 0) (hc : c.res ≠ 0) :
    rest = [] ∧ c = c1 := by
  rcases List.append_eq_append_iff.1 h with ⟨a, h1, h2⟩ | ⟨a, h1, h2⟩
  · cases a with
    | nil =>
      simp only [List.nil_append, List.cons.injEq] at h2
      exact ⟨h2.2, h2.1⟩
    | cons x a =>
      simp only [List.cons_append, List.cons.injEq] at h2
      exfalso
      apply hc
      apply hz
      rw [h1, h2.1]
      simp
  · cases a with
    | nil =>
      simp only [List.nil_append, List.cons.injEq] at h2
      exact ⟨h2.2.symm, h2.1.symm⟩
    | cons x a =>
      simp only [List.cons_append, List.cons.injEq] at h2
      have := congrArg List.length h2.2
      simp at this
      omega

/-- C9: in every run of `opt_parse` (which always returns), each handler is invoked
on storage to which the effect of its own descriptor has already been applied; when an
invocation returns a nonzero code it is the last one, `opt_parse` returns exactly that
code and the state it returns is the one that handler left, so nothing after it was
processed; `opt_parse` reports a handler abort only for such an invocation. A handler
that returns 0 lets the scan go on: behind label `arghandler` with the next token, in a
group of short options with the next character. -/
theorem handler_abort (argv : List CStr) (opts : List opt_s) (pn : Bool) (s0 : Env) :
    (∃ r new, opt_parse argv.length argv (some opts) pn s0 = some r ∧
      r.st.calls = s0.calls ++ new ∧
      (∀ c ∈ new, check_opt c.o c.arg c.mem = c.mem) ∧
      (∀ init c rest, new = init ++ c :: rest → c.res ≠ 0 →
        rest = [] ∧ r.why = Exit.handlerAbort ∧ r.code = c.res ∧
          ∃ stc : Env, stc.mem = c.mem ∧ stc.opt_arg = c.arg ∧
            call_handler c.o stc = (r.code, r.st)) ∧
      (r.why = Exit.handlerAbort → ∃ init c, new = init ++ [c] ∧ c.res ≠ 0)) ∧
    (∀ (o : opt_s) (i : Nat) (st : Env), (dispatch o st.opt_arg st).1 = 0 →
      arghandler o i st = Step.next (i + 1) (dispatch o st.opt_arg st).2) ∧
    (∀ (argc i : Nat) (c : Char) (s : CStr) (st : Env) (o : opt_s),
      findShort c opts = some o → HAVE_ARG o = false → (dispatch o none st).1 = 0 →
      shortopts opts argc argv i (c :: s) st
        = shortopts opts argc argv i s (dispatch o none st).2) := by
  refine ⟨?_, ?_, ?_⟩
  · have key := @opt_loop_rule
      (fun st => ∃ new : List Call, st.calls = s0.calls ++ new ∧
        ∀ c ∈ new, c.res = 0 ∧ check_opt c.o c.arg c.mem = c.mem)
      (fun w code st => ∃ new : List Call, st.calls = s0.calls ++ new ∧
        (∀ c ∈ new, check_opt c.o c.arg c.mem = c.mem) ∧
        (w = Exit.handlerAbort → ∃ (init : List Call) (c : Call),
          new = init ++ [c] ∧ (∀ d ∈ init, d.res = 0) ∧
          c.res = code ∧ code ≠ 0 ∧
          ∃ stc : Env, stc.mem = c.mem ∧ stc.opt_arg = c.arg ∧
            call_handler c.o stc = (code, st)) ∧
        (w ≠ Exit.handlerAbort → ∀ c ∈ new, c.res = 0))
      opts argv.length argv
      (fun i st hP => opt_iter_rule
        (fun v st h => h)
        (by
          intro o arg st ⟨new, hc, hn⟩ harg _
          have hd := dispatch_calls o arg st
          constructor
          · intro hz
            refine ⟨new ++ (if o.handler.isSome then
              [Call.mk o st.opt_arg (check_opt o arg st.mem) (dispatch o arg st).1]
              else []), ?_, ?_⟩
            · rw [hd, hc, List.append_assoc]
            · intro c hcm
              rcases List.mem_append.1 hcm with hcm | hcm
              · exact hn c hcm
              · split at hcm
                · simp only [List.mem_singleton] at hcm
                  subst hcm
                  exact ⟨hz, by simp only; rw [harg, check_opt_idem]⟩
                · cases hcm
          · intro hz
            have hh : o.handler.isSome = true := by
              cases hh : o.handler with
              | none =>
                exfalso
                apply hz
                unfold dispatch
                rw [call_handler_none hh]
              | some h => rfl
            rw [hh, if_pos rfl] at hd
            refine ⟨new ++ [Call.mk o st.opt_arg (check_opt o arg st.mem) (dispatch o arg st).1],
              ?_, ?_, ?_, ?_⟩
            · rw [hd, hc, List.append_assoc]
            · intro c hcm
              rcases List.mem_append.1 hcm with hcm | hcm
              · exact (hn c hcm).2
              · simp only [List.mem_singleton] at hcm
                subst hcm
                simp only
                rw [harg, check_opt_idem]
            · intro _
              exact ⟨new, _, rfl, fun d hd => (hn d hd).1, rfl, hz,
                { st with mem := check_opt o arg st.mem }, rfl, rfl, rfl⟩
            · intro hne
              exact absurd rfl hne)
        (fun st txt ⟨new, hc, hn⟩ =>
          ⟨new, hc, fun c h => (hn c h).2, fun h => (by cases h), fun _ c h => (hn c h).1⟩)
        (fun st txt ⟨new, hc, hn⟩ =>
          ⟨new, hc, fun c h => (hn c h).2, fun h => (by cases h), fun _ c h => (hn c h).1⟩)
        (fun st c ⟨new, hc, hn⟩ =>
          ⟨new, hc, fun c h => (hn c h).2, fun h => (by cases h), fun _ c h => (hn c h).1⟩)
        (fun st c ⟨new, hc, hn⟩ =>
          ⟨new, hc, fun c h => (hn c h).2, fun h => (by cases h), fun _ c h => (hn c h).1⟩)
        opts argv.length argv i st hP)
      (fun st c ⟨new, hc, hn⟩ =>
        ⟨new, hc, fun c h => (hn c h).2, fun h => (by cases h), fun _ c h => (hn c h).1⟩)
      argv.length 1 (opt_start argv opts pn s0) (by omega)
      ⟨[], by rw [(opt_start_mem argv opts pn s0).2.1, List.append_nil], by simp⟩
    obtain ⟨r, hr, new, hc, heff, hab, hnab⟩ := key
    refine ⟨r, new, hr, hc, heff, ?_, ?_⟩
    · intro init c rest hnew hres
      by_cases hw : r.why = Exit.handlerAbort
      · obtain ⟨init1, c1, h1, hz, hres1, _, stc, hs1, hs2, hs3⟩ := hab hw
        obtain ⟨e1, e2⟩ := last_nonzero (hnew.symm.trans h1) hz hres
        subst e2
        exact ⟨e1, hw, hres1.symm, stc, hs1, hs2, hs3⟩
      · exfalso
        apply hres
        apply hnab hw
        rw [hnew]
        simp
    · intro hw
      obtain ⟨init1, c1, h1, _, hres1, hne, _⟩ := hab hw
      exact ⟨init1, c1, h1, by rw [hres1]; exact hne⟩
  · intro o i st hz
    rw [arghandler_eq, if_pos hz]
  · intro argc i c s st o hf ha hz
    conv_lhs => unfold shortopts
    simp only [hf, ha, Bool.false_eq_true, if_false]
    rw [if_neg (by simpa using hz)]

/-- C9 at a concrete run: on the echo table with a handler on `-n` that returns `-100`,
`-np X rest` makes one handler call, and `opt_parse` returns its code with the flag of
`-n` already set in the storage the handler saw. -/
theorem handler_abort_witness :
    ∃ r c, opt_parse 4 ["echo".toList, "-np".toList, "X".toList, "rest".toList]
        (some [OPT_HELP, { echo_n with handler := some refuse }, echo_p, OPT_END])
        true (Env.init echo_mem) = some r ∧
      r.st.calls = [c] ∧ c.res = -100 ∧ c.mem 0 = Cell.int 1 ∧
      r.why = Exit.handlerAbort ∧ r.code = -100 := by
  obtain ⟨r, new, h1, h2, _, hab, _⟩ :=
    (handler_abort ["echo".toList, "-np".toList, "X".toList, "rest".toList]
      [OPT_HELP, { echo_n with handler := some refuse }, echo_p, OPT_END]
      true (Env.init echo_mem)).1
  have e : (opt_parse 4 ["echo".toList, "-np".toList, "X".toList, "rest".toList]
      (some [OPT_HELP, { echo_n with handler := some refuse }, echo_p, OPT_END])
      true (Env.init echo_mem)).map (fun r => r.st.calls.map (fun c => (c.res, c.mem 0)))
      = some [(-100, Cell.int 1)] := by decide
  have h1' : opt_parse 4 ["echo".toList, "-np".toList, "X".toList, "rest".toList]
      (some [OPT_HELP, { echo_n with handler := some refuse }, echo_p, OPT_END])
      true (Env.init echo_mem) = some r := h1
  rw [h1'] at e
  simp only [Option.map_some', Option.some.injEq] at e
  have h2' : r.st.calls = new := by rw [h2]; rfl
  rw [h2'] at e
  cases new with
  | nil => cases e
  | cons c rest =>
    cases rest with
    | cons _ _ => simp at e
    | nil =>
      simp only [List.map_cons, List.map_nil, List.cons.injEq, Prod.mk.injEq, and_true] at e
      obtain ⟨_, hw, hc, _⟩ := hab [] c [] rfl (by rw [e.1]; decide)
      exact ⟨r, c, h1', h2', e.1, e.2, hw, by rw [hc, e.1]⟩

/-- C10: in every run of `opt_parse`, each time the handler of a descriptor with
`OPT_HAVE_ARG` is invoked `opt_arg` is non-`NULL`, and each time the handler of a
descriptor without `OPT_HAVE_ARG` is invoked `opt_arg` is `NULL`. The run always
returns; `new` lists the handler invocations it made, in order. -/
theorem handler_sees_opt_arg (argv : List CStr) (opts : List opt_s) (pn : Bool) (s0 : Env) :
    ∃ r new, opt_parse argv.length argv (some opts) pn s0 = some r ∧
      r.st.calls = s0.calls ++ new ∧
      ∀ c ∈ new, (HAVE_ARG c.o = true → c.arg ≠ none) ∧
        (HAVE_ARG c.o = false → c.arg = none) := by
  have key := @opt_loop_rule
    (fun st => ∃ new, st.calls = s0.calls ++ new ∧
      ∀ c ∈ new, (HAVE_ARG c.o = true → c.arg ≠ none) ∧ (HAVE_ARG c.o = false → c.arg = none))
    (fun _ _ st => ∃ new, st.calls = s0.calls ++ new ∧
      ∀ c ∈ new, (HAVE_ARG c.o = true → c.arg ≠ none) ∧ (HAVE_ARG c.o = false → c.arg = none))
    opts argv.length argv
    (fun i st hP => opt_iter_rule
      (fun v st h => h)
      (by
        intro o arg st ⟨new, hc, hn⟩ harg hsome
        have hd := dispatch_calls o arg st
        have hP1 : ∃ new, (dispatch o arg st).2.calls = s0.calls ++ new ∧
            ∀ c ∈ new, (HAVE_ARG c.o = true → c.arg ≠ none) ∧
              (HAVE_ARG c.o = false → c.arg = none) := by
          refine ⟨new ++ (if o.handler.isSome then
            [Call.mk o st.opt_arg (check_opt o arg st.mem) (dispatch o arg st).1]
            else []), ?_, ?_⟩
          · rw [hd, hc, List.append_assoc]
          · intro c hcm
            rcases List.mem_append.1 hcm with hcm | hcm
            · exact hn c hcm
            · split at hcm
              · simp only [List.mem_singleton] at hcm
                subst hcm
                simp only
                rw [harg]
                constructor
                · intro ha he
                  rw [he, ha] at hsome
                  cases hsome
                · intro ha
                  rw [ha] at hsome
                  cases arg with
                  | none => rfl
                  | some v => cases hsome
              · cases hcm
        exact ⟨fun _ => hP1, fun _ => hP1⟩)
      (fun st txt h => h) (fun st txt h => h) (fun st c h => h) (fun st c h => h)
      opts argv.length argv i st hP)
    (fun st c h => h)
    argv.length 1 (opt_start argv opts pn s0) (by omega)
    ⟨[], by rw [(opt_start_mem argv opts pn s0).2.1, List.append_nil], by simp⟩
  obtain ⟨r, hr, new, hc, hn⟩ := key
  exact ⟨r, new, hr, hc, hn⟩

/-- C10 at a concrete run: on the fnv1a table with a handler on `-o`, the vector
`--version -o FILE` invokes the handler of `--version` with `opt_arg` `NULL` and the
handler of `-o` with `opt_arg` pointing to `FILE`. -/
theorem handler_sees_opt_arg_witness :
    ∃ r new, opt_parse 4 ["fnv1a".toList, "--version".toList, "-o".toList, "FILE".toList]
        (some [OPT_HELP, OPT_VERSION, fnv1a_i, { fnv1a_o with handler := some refuse },
          fnv1a_c, OPT_END])
        false (Env.init fnv1a_mem) = some r ∧
      r.st.calls = new ∧
      new.map (fun c => (HAVE_ARG c.o, c.arg)) = [(false, none), (true, some "FILE".toList)] ∧
      ∀ c ∈ new, (HAVE_ARG c.o = true → c.arg ≠ none) ∧ (HAVE_ARG c.o = false → c.arg = none) := by
  obtain ⟨r, new, h1, h2, h3⟩ :=
    handler_sees_opt_arg ["fnv1a".toList, "--version".toList, "-o".toList, "FILE".toList]
      [OPT_HELP, OPT_VERSION, fnv1a_i, { fnv1a_o with handler := some refuse },
        fnv1a_c, OPT_END]
      false (Env.init fnv1a_mem)
  have e : (opt_parse 4 ["fnv1a".toList, "--version".toList, "-o".toList, "FILE".toList]
      (some [OPT_HELP, OPT_VERSION, fnv1a_i, { fnv1a_o with handler := some refuse },
        fnv1a_c, OPT_END])
      false (Env.init fnv1a_mem)).map
        (fun r => r.st.calls.map (fun c => (HAVE_ARG c.o, c.arg)))
      = some [(false, none), (true, some "FILE".toList)] := by decide
  have h1' : opt_parse 4 ["fnv1a".toList, "--version".toList, "-o".toList, "FILE".toList]
      (some [OPT_HELP, OPT_VERSION, fnv1a_i, { fnv1a_o with handler := some refuse },
        fnv1a_c, OPT_END])
      false (Env.init fnv1a_mem) = some r := h1
  rw [h1'] at e
  simp only [Option.map_some', Option.some.injEq] at e
  have h2' : r.st.calls = new := by rw [h2]; rfl
  rw [h2'] at e
  exact ⟨r, new, h1', h2', e, h3⟩

/-! ## The help text -/

/-- `strchr` finds nothing in a string that lacks the character. -/
theorem strchr_none {s : CStr} {c : Char} (hc : c ≠ NUL) (h : c ∉ s) : strchr s c = none := by
  induction s with
  | nil =>
    simp only [strchr]
    rw [if_pos (fun e => hc e.symm)]
  | cons a s ih =>
    simp only [List.mem_cons, not_or] at h
    simp only [strchr]
    rw [if_pos (fun e => h.1 e.symm)]
    exact ih h.2

/-- `strchr` stops at the first occurrence of the character. -/
theorem strchr_first {P R : CStr} {c : Char} (h : c ∉ P) :
    strchr (P ++ c :: R) c = some (c :: R) := by
  induction P with
  | nil => simp [strchr]
  | cons a P ih =>
    simp only [List.mem_cons, not_or] at h
    simp only [List.cons_append, strchr]
    rw [if_pos (fun e => h.1 e.symm)]
    exact ih h.2

theorem usage_value_bracket (P R : CStr) (h : ']' ∉ P) :
    usage_value ('[' :: (P ++ ']' :: R)) = (P, R) := by
  have h1 : strchr ('[' :: (P ++ ']' :: R)) ']' = some (']' :: R) := by
    simp only [strchr]
    rw [if_pos (by decide)]
    exact strchr_first h
  unfold usage_value
  rw [if_pos ⟨rfl, by rw [h1]; rfl⟩]
  simp only [List.drop_succ_cons, List.drop_zero, strchr_first h]
  simp

theorem usage_value_plain (d : CStr) (h : charAt d 0 ≠ '[' ∨ ']' ∉ d) :
    usage_value d = ("VALUE".toList, d) := by
  unfold usage_value
  rw [if_neg]
  rintro ⟨h1, h2⟩
  rcases h with h | h
  · exact h h1
  · rw [strchr_none (by decide) h] at h2
    cases h2

theorem pad_eq (n : Nat) :
    (if n < DESC_INDENT then List.replicate (DESC_INDENT - n) ' ' else [])
      = List.replicate (DESC_INDENT - n) ' ' := by
  split
  · rfl
  · rw [Nat.sub_eq_zero_of_le (by omega)]
    rfl

/-- The help line of a value-taking descriptor, by placeholder and description. -/
theorem usage_line_value (o : opt_s) (ha : HAVE_ARG o = true) :
    usage_line o =
      "  ".toList ++ o.s.getD "  ".toList
        ++ (if o.s.isSome && o.l.isSome then ", ".toList else "  ".toList)
        ++ o.l.getD [] ++ '=' :: (usage_value (o.desc.getD [])).1
        ++ List.replicate
            (DESC_INDENT - ((o.l.getD []).length + ((usage_value (o.desc.getD [])).1.length + 1)))
            ' '
        ++ (usage_value (o.desc.getD [])).2 ++ "\n".toList := by
  unfold usage_line
  simp only [ha, if_true, pad_eq]
  cases o.l <;> rfl

/-- The help line of a descriptor that takes no value. -/
theorem usage_line_novalue (o : opt_s) (ha : HAVE_ARG o = false) :
    usage_line o =
      "  ".toList ++ o.s.getD "  ".toList
        ++ (if o.s.isSome && o.l.isSome then ", ".toList else "  ".toList)
        ++ o.l.getD []
        ++ List.replicate (DESC_INDENT - (o.l.getD []).length) ' '
        ++ o.desc.getD [] ++ "\n".toList := by
  unfold usage_line
  simp only [ha, Bool.false_eq_true, if_false, pad_eq, List.append_nil]
  cases o.l <;> rfl

theorem usage_lines_split (pre post : List opt_s) (o : opt_s)
    (hpre : ∀ p ∈ pre, live p = true) (hlive : live o = true) :
    usage_lines (pre ++ o :: post) = usage_lines pre ++ usage_line o ++ usage_lines post := by
  induction pre with
  | nil => simp [usage_lines, hlive]
  | cons p ps ih =>
    have hp := hpre p (List.mem_cons_self _ _)
    have ih' := ih (fun q hq => hpre q (List.mem_cons_of_mem _ hq))
    rw [List.cons_append]
    simp only [usage_lines, hp, if_true]
    rw [ih']
    simp

/-- What `opt_usage` prints for a table: what it prints for the descriptors in front of
`o`, then the line of `o`, then the lines of the descriptors behind it. -/
theorem opt_usage_split (st : Env) (pre post : List opt_s) (o : opt_s)
    (hst : st.progopts = pre ++ o :: post)
    (hpre : ∀ p ∈ pre, live p = true) (hlive : live o = true) :
    (opt_usage st).out
      = (opt_usage { st with progopts := pre }).out ++ usage_line o ++ usage_lines post := by
  have hsp := usage_lines_split pre post o hpre hlive
  unfold opt_usage opt_print
  simp only [hst]
  cases st.usage with
  | none => simp [hsp]
  | some u =>
    simp only
    split <;> simp [hsp]

/-- C12: for a value-taking descriptor `o` of the table whose description is
`[` `P` `]` `R` with no `]` in `P`, `opt_usage` prints `=` and `P` after the names and
prints exactly `R` as the description, the bracket span being absent; when the
description does not begin with `[` or holds no `]`, it prints `=VALUE` and the whole
description. For `[FILE]Write output to FILE` the placeholder is `FILE` and the
description `Write output to FILE`. -/
theorem usage_placeholder (st : Env) (pre post : List opt_s) (o : opt_s)
    (hst : st.progopts = pre ++ o :: post) (hpre : ∀ p ∈ pre, live p = true)
    (hlive : live o = true) (ha : HAVE_ARG o = true) :
    (∀ P R : CStr, ']' ∉ P → o.desc = some ('[' :: (P ++ ']' :: R)) →
      (opt_usage st).out = (opt_usage { st with progopts := pre }).out
        ++ ("  ".toList ++ o.s.getD "  ".toList
            ++ (if o.s.isSome && o.l.isSome then ", ".toList else "  ".toList)
            ++ o.l.getD [] ++ '=' :: P
            ++ List.replicate (DESC_INDENT - ((o.l.getD []).length + (P.length + 1))) ' '
            ++ R ++ "\n".toList)
        ++ usage_lines post) ∧
    (∀ d : CStr, o.desc.getD [] = d → (charAt d 0 ≠ '[' ∨ ']' ∉ d) →
      (opt_usage st).out = (opt_usage { st with progopts := pre }).out
        ++ ("  ".toList ++ o.s.getD "  ".toList
            ++ (if o.s.isSome && o.l.isSome then ", ".toList else "  ".toList)
            ++ o.l.getD [] ++ '=' :: "VALUE".toList
            ++ List.replicate (DESC_INDENT - ((o.l.getD []).length + (5 + 1))) ' '
            ++ d ++ "\n".toList)
        ++ usage_lines post) ∧
    usage_value "[FILE]Write output to FILE".toList
      = ("FILE".toList, "Write output to FILE".toList) := by
  refine ⟨?_, ?_, by decide⟩
  · intro P R hP hd
    rw [opt_usage_split st pre post o hst hpre hlive, usage_line_value o ha, hd]
    simp only [Option.getD_some, usage_value_bracket P R hP]
  · intro d hd hplain
    rw [opt_usage_split st pre post o hst hpre hlive, usage_line_value o ha, hd,
      usage_value_plain d hplain]
    rfl

set_option maxRecDepth 8000 in
/-- C12 on the table of examples/fnv1a.c: everything `opt_usage` prints. -/
theorem usage_placeholder_witness :
    (opt_usage (opt_start ["fnv1a".toList] fnv1a_progopts false (Env.init fnv1a_mem))).out
      = ("Usage: fnv1a [options] arg...\n\nOptions:\n"
        ++ "      --help                  Print this message and exit\n"
        ++ "      --version               Show version information and exit\n"
        ++ "  -i                          Ignore case when computing hashes\n"
        ++ "  -o, --output=FILE           Write output to FILE\n"
        ++ "  -c, --caseful               Do not ignore case when computing hashes\n").toList := by
  have h := (usage_placeholder
    (opt_start ["fnv1a".toList] fnv1a_progopts false (Env.init fnv1a_mem))
    [OPT_HELP, OPT_VERSION, fnv1a_i] [fnv1a_c, OPT_END] fnv1a_o rfl (by decide) (by decide)
    (by decide)).1 "FILE".toList "Write output to FILE".toList (by decide) rfl
  rw [h]
  decide

/-- C13 on the code: for the descriptor `-o` / `--output` with description
`[FILE]Write output to FILE` the help line has eleven spaces between `FILE` and the
description, not the seven of the line shown in opt.h. -/
theorem usage_line_output :
    usage_line fnv1a_o
      = "  -o, --output=FILE".toList ++ List.replicate 11 ' '
        ++ "Write output to FILE\n".toList ∧
    usage_line fnv1a_o ≠ "  -o, --output=FILE       Write output to FILE\n".toList := by
  decide

/-- C14 (amended): let `n` be the length of the long name plus, for a value-taking
descriptor, the length of `=` and the placeholder. `opt_usage` prints `24 - n` spaces
between that span and the description text when `n < 24`, and no space at all when
`n >= 24`: the description then follows the span at once. With no short name or one of
two characters and `n < 24`, the description starts at column 30. -/
theorem usage_padding (o : opt_s) :
    (HAVE_ARG o = false →
      usage_line o = "  ".toList ++ o.s.getD "  ".toList
        ++ (if o.s.isSome && o.l.isSome then ", ".toList else "  ".toList)
        ++ o.l.getD []
        ++ List.replicate (24 - (o.l.getD []).length) ' '
        ++ o.desc.getD [] ++ "\n".toList) ∧
    (HAVE_ARG o = true →
      usage_line o = "  ".toList ++ o.s.getD "  ".toList
        ++ (if o.s.isSome && o.l.isSome then ", ".toList else "  ".toList)
        ++ o.l.getD [] ++ '=' :: (usage_value (o.desc.getD [])).1
        ++ List.replicate
            (24 - ((o.l.getD []).length + ((usage_value (o.desc.getD [])).1.length + 1))) ' '
        ++ (usage_value (o.desc.getD [])).2 ++ "\n".toList) ∧
    (∀ n : Nat, 24 ≤ n → List.replicate (24 - n) ' ' = []) ∧
    (∀ lead span : CStr, ∀ n : Nat, lead.length = 6 → span.length = n → n < 24 →
      (lead ++ span ++ List.replicate (24 - n) ' ').length = 30) ∧
    ((o.s.getD "  ".toList).length = 2 →
      ("  ".toList ++ o.s.getD "  ".toList
        ++ (if o.s.isSome && o.l.isSome then ", ".toList else "  ".toList)).length = 6) := by
  refine ⟨usage_line_novalue o, usage_line_value o, ?_, ?_, ?_⟩
  · intro n hn
    rw [Nat.sub_eq_zero_of_le hn]
    rfl
  · intro lead span n h1 h2 h3
    simp only [List.length_append, List.length_replicate, h1, h2]
    omega
  · intro h
    simp only [List.length_append, h]
    split <;> rfl

/-- C14 (amended) on the `-c` / `--caseful` descriptor of examples/fnv1a.c: fifteen
spaces after the nine characters of the long name. -/
theorem usage_padding_witness :
    usage_line fnv1a_c = "  -c, --caseful".toList ++ List.replicate 15 ' '
      ++ "Do not ignore case when computing hashes\n".toList := by
  rw [(usage_padding fnv1a_c).1 rfl]
  decide

/-- C14 as stated fails: a long name of 25 characters is followed by the description
with no space between them. -/
theorem usage_padding_long_name :
    usage_line { s := none, l := some "--a-very-long-option-name".toList,
                 desc := some "text".toList, flags := OPT_NO_ARG, value := none,
                 handler := none }
      = "      --a-very-long-option-nametext\n".toList ∧
    "--a-very-long-option-name".toList.length = 25 := by
  decide

/-! ## Storage and the lone dash -/

/-- C18 on the code: `check_opt` tests `flags & OPT_SET_VALUE` with `OPT_SET_VALUE = 9`,
which holds for flags equal to `OPT_HAVE_ARG` alone; with a non-null target such a
descriptor gets the value assigned to its target as a string, where `OPT_NO_ARG`
leaves the target alone. The other cases are as the flags say: `OPT_HAVE_ARG` with
`OPT_SET_FLAG` stores 1, with `OPT_CLR_FLAG` stores 0, `OPT_SET_VALUE` stores the value,
and a null target is never written. -/
theorem check_opt_have_arg_alone :
    (∀ (o : opt_s) (a : Nat) (arg : Option CStr) (mem : Store), o.value = some a →
      (o.flags = OPT_HAVE_ARG → check_opt o arg mem = Function.update mem a (Cell.str arg)) ∧
      (o.flags = OPT_NO_ARG → check_opt o arg mem = mem) ∧
      (o.flags = OPT_HAVE_ARG ||| OPT_SET_FLAG →
        check_opt o arg mem = Function.update mem a (Cell.int 1)) ∧
      (o.flags = OPT_HAVE_ARG ||| OPT_CLR_FLAG →
        check_opt o arg mem = Function.update mem a (Cell.int 0)) ∧
      (o.flags = OPT_SET_VALUE → check_opt o arg mem = Function.update mem a (Cell.str arg))) ∧
    (∀ (o : opt_s) (arg : Option CStr) (mem : Store), o.value = none →
      check_opt o arg mem = mem) ∧
    (opt_parse 3 ["prog".toList, "-x".toList, "V".toList]
        (some [{ s := some "-x".toList, l := none, desc := none, flags := OPT_HAVE_ARG,
                 value := some 0, handler := none }, OPT_END])
        false (Env.init echo_mem)).map (fun r => (r.code, r.st.mem 0))
      = some (3, Cell.str (some "V".toList)) ∧
    echo_mem 0 = Cell.int 0 := by
  refine ⟨?_, ?_, by decide, rfl⟩
  · intro o a arg mem hv
    unfold check_opt
    rw [hv]
    refine ⟨?_, ?_, ?_, ?_, ?_⟩ <;> intro hf <;> rw [hf] <;> rfl
  · intro o arg mem hv
    unfold check_opt
    rw [hv]

theorem not_matches_dash {p : opt_s} (h : ['-'] ∉ names p) : ¬ Matches p ['-'] := by
  rintro (hm | ⟨_, n, _, t, ht⟩)
  · exact h hm
  · cases n with
    | nil => simp at ht
    | cons c n =>
      have := congrArg List.length ht
      simp at this

/-- C20: when the scan reaches a token that is the single character `-` and no
descriptor is named `-`, the iteration changes no storage, runs no handler, prints
nothing and goes on with the next token; so `[prog, -]` returns 2, and `[prog, -, x]`
returns 2, the index of the positional `x`, not 1. -/
theorem lone_dash (opts : List opt_s) (argv : List CStr) (pn : Bool) (s0 st : Env) (i : Nat)
    (hr : Reaches opts argv.length argv (opt_start argv opts pn s0) i st)
    (hi : i < argv.length) (htok : argv.getD i [] = ['-'])
    (hno : ∀ p ∈ opts, ['-'] ∉ names p) :
    (opt_iter opts argv.length argv i st = Step.next (i + 1) (set_opt_arg none st) ∧
      Reaches opts argv.length argv (opt_start argv opts pn s0) (i + 1)
        (set_opt_arg none st)) ∧
    (∀ prog : CStr, ∃ r, opt_parse 2 [prog, ['-']] (some opts) pn s0 = some r ∧
      r.why = Exit.exhausted ∧ r.code = 2 ∧ r.st.mem = s0.mem ∧ r.st.calls = s0.calls ∧
      r.st.out = s0.out) ∧
    (∀ prog : CStr, ∃ r, opt_parse 3 [prog, ['-'], ['x']] (some opts) pn s0 = some r ∧
      r.why = Exit.positional ∧ r.code = 2 ∧ r.st.mem = s0.mem ∧ r.st.calls = s0.calls ∧
      r.st.out = s0.out) := by
  have step : ∀ (av : List CStr) (k : Nat) (e : Env), av.getD k [] = ['-'] →
      opt_iter opts av.length av k e = Step.next (k + 1) (set_opt_arg none e) := by
    intro av k e ht
    have hf : fullopt av.length av k (set_opt_arg none e) opts = none :=
      fullopt_unmatched opts rfl (fun p hp => by rw [ht]; exact not_matches_dash (hno p hp))
    rw [opt_iter_short (by rw [ht]; rfl) (by rw [ht]; simp) hf (by rw [ht]; decide), ht]
    rfl
  refine ⟨⟨step argv i st htok, Reaches.step hr hi (step argv i st htok)⟩, ?_, ?_⟩
  · intro prog
    have h1 := Reaches.step (Reaches.start) (by simp) (step [prog, ['-']] 1
      (opt_start [prog, ['-']] opts pn s0) rfl)
    refine ⟨_, opt_parse_of_reaches_end h1 (by simp), rfl, rfl, ?_, ?_, ?_⟩
    · exact (opt_start_mem _ _ _ _).1
    · exact (opt_start_mem _ _ _ _).2.1
    · exact (opt_start_mem _ _ _ _).2.2
  · intro prog
    have h1 := Reaches.step (Reaches.start) (by simp) (step [prog, ['-'], ['x']] 1
      (opt_start [prog, ['-'], ['x']] opts pn s0) rfl)
    have h2 : opt_iter opts [prog, ['-'], ['x']].length [prog, ['-'], ['x']] 2
        (set_opt_arg none (opt_start [prog, ['-'], ['x']] opts pn s0))
        = Step.ret Exit.positional 2
          (set_opt_arg none (opt_start [prog, ['-'], ['x']] opts pn s0)) := by
      unfold opt_iter
      simp only
      rw [if_pos (by simp [charAt])]
      rfl
    refine ⟨_, opt_parse_of_reaches_ret h1 (by simp) h2, rfl, rfl, ?_, ?_, ?_⟩
    · exact (opt_start_mem _ _ _ _).1
    · exact (opt_start_mem _ _ _ _).2.1
    · exact (opt_start_mem _ _ _ _).2.2

/-- C20 on the echo table: a `-` between `-n` and a positional token is passed over. -/
theorem lone_dash_witness :
    (opt_parse 4 ["echo".toList, "-n".toList, "-".toList, "x".toList] (some echo_progopts)
        true (Env.init echo_mem)).map
        (fun r => (r.code, r.st.mem 0, r.st.calls.length, r.st.out))
      = some (3, Cell.int 1, 0, []) := by
  have hr : Reaches echo_progopts 4 ["echo".toList, "-n".toList, "-".toList, "x".toList]
      (opt_start ["echo".toList, "-n".toList, "-".toList, "x".toList] echo_progopts true
        (Env.init echo_mem)) 2 _ :=
    Reaches.step Reaches.start (by decide) rfl
  have h := (lone_dash echo_progopts ["echo".toList, "-n".toList, "-".toList, "x".toList]
    true (Env.init echo_mem) _ 2 hr (by decide) rfl (by decide)).1.2
  have h3 := opt_parse_of_reaches_ret h (by decide)
    (rfl : opt_iter echo_progopts 4 ["echo".toList, "-n".toList, "-".toList, "x".toList] 3 _
      = Step.ret Exit.positional 3 _)
  rw [show (["echo".toList, "-n".toList, "-".toList, "x".toList] : List CStr).length = 4
    from rfl] at h3
  rw [h3]
  decide

/-! ## Names and the NAME=VALUE form -/

/-- A name without `=` that, followed by `=`, starts `N=V` (no `=` in `N`) is `N`. -/
theorem name_eq_of_prefix {n N V : CStr} (hn : '=' ∉ n) (hN : '=' ∉ N)
    (h : n ++ ['='] <+: N ++ '=' :: V) : n = N := by
  induction n generalizing N with
  | nil =>
    cases N with
    | nil => rfl
    | cons c N =>
      simp only [List.nil_append, List.cons_append, List.cons_prefix_cons] at h
      exact absurd (by rw [h.1]; simp) hN
  | cons a n ih =>
    simp only [List.mem_cons, not_or] at hn
    cases N with
    | nil =>
      simp only [List.cons_append, List.nil_append, List.cons_prefix_cons] at h
      exact absurd h.1.symm hn.1
    | cons c N =>
      simp only [List.mem_cons, not_or] at hN
      simp only [List.cons_append, List.cons_prefix_cons] at h
      rw [h.1, ih hn.2 hN.2 h.2]

theorem not_mem_names_of_eq {p : opt_s} {N V : CStr}
    (hp : ∀ n ∈ names p, '=' ∉ n) : N ++ '=' :: V ∉ names p := by
  intro h
  exact hp _ h (by simp)

/-- A value-taking descriptor named `N` takes `V` from the token `N=V`. -/
theorem attached_named {o : opt_s} {N V : CStr} (st : Env) (hN : '=' ∉ N)
    (ho : ∀ n ∈ names o, '=' ∉ n) (hn : N ∈ names o) :
    attached o (N ++ '=' :: V) st = set_opt_arg (some V) st := by
  rcases mem_names.1 hn with hs | hl
  · exact attached_short hs
  · cases hs : o.s with
    | none => exact attached_long hl (fun m hm => by rw [hs] at hm; cases hm)
    | some m =>
      by_cases hp : m ++ ['='] <+: N ++ '=' :: V
      · have hm : m = N := name_eq_of_prefix (ho m (mem_names.2 (Or.inl hs))) hN hp
        rw [hm] at hs
        exact attached_short hs
      · exact attached_long hl (fun m1 hm1 => by
          rw [hs] at hm1
          cases hm1
          exact hp)

/-- When the check for `NAME=VALUE` assigns `opt_arg`, one of the names followed by `=`
starts the token. -/
theorem attached_isSome {o : opt_s} {tok : CStr} {st : Env} (hst : st.opt_arg = none)
    (h : (attached o tok st).opt_arg.isSome = true) : ∃ n ∈ names o, n ++ ['='] <+: tok := by
  by_contra hno
  have : attached o tok st = st :=
    attached_eq_self (fun n hn hp => hno ⟨n, mem_names.2 hn, hp⟩)
  rw [this, hst] at h
  cases h

theorem matches_attached_iff {p : opt_s} {N V : CStr} (hN : '=' ∉ N)
    (hp : ∀ n ∈ names p, '=' ∉ n) :
    Matches p (N ++ '=' :: V) ↔ (HAVE_ARG p = true ∧ N ∈ names p) := by
  constructor
  · rintro (hm | ⟨ha, n, hn, hpre⟩)
    · exact absurd hm (not_mem_names_of_eq hp)
    · have := name_eq_of_prefix (hp n hn) hN hpre
      rw [this] at hn
      exact ⟨ha, hn⟩
  · rintro ⟨ha, hn⟩
    exact Or.inr ⟨ha, N, hn, V, by simp⟩

/-- C19: in a table where no name contains `=`, for a token `N=V` with no `=` in `N`:
whatever the first table scan applies to the token, it applies through the
`NAME=VALUE` form; the descriptor is value-taking and has `N` itself as its short or
long name, no value-taking descriptor in front of it is named `N`, and the value is
exactly `V`. A descriptor matches the token only when it is value-taking and named
`N`; a name that is a strict prefix of `N` never matches. Where the table has a
value-taking descriptor named `N`, the first one is applied. For a token beginning
with `-`, what the scan applies is what the iteration of `opt_parse` does. -/
theorem attached_exact_name (opts : List opt_s) (argc : Nat) (argv : List CStr) (i : Nat)
    (st : Env) (N V : CStr) (htok : argv.getD i [] = N ++ '=' :: V) (hN : '=' ∉ N)
    (hnames : ∀ p ∈ opts, ∀ n ∈ names p, '=' ∉ n) :
    (∀ step, fullopt argc argv i (set_opt_arg none st) opts = some step →
      ∃ pre o post, opts = pre ++ o :: post ∧
        (∀ p ∈ pre, live p = true ∧ ¬ (HAVE_ARG p = true ∧ N ∈ names p)) ∧
        live o = true ∧ HAVE_ARG o = true ∧ N ∈ names o ∧
        step = arghandler o i (set_opt_arg (some V) st)) ∧
    (∀ p ∈ opts, Matches p (argv.getD i []) ↔ (HAVE_ARG p = true ∧ N ∈ names p)) ∧
    (∀ pre o post, opts = pre ++ o :: post →
      (∀ p ∈ pre, live p = true ∧ ¬ (HAVE_ARG p = true ∧ N ∈ names p)) →
      HAVE_ARG o = true → N ∈ names o →
      fullopt argc argv i (set_opt_arg none st) opts
        = some (arghandler o i (set_opt_arg (some V) st))) ∧
    (charAt (argv.getD i []) 0 = '-' → ∀ step,
      fullopt argc argv i (set_opt_arg none st) opts = some step →
      opt_iter opts argc argv i st = step) := by
  have hmatch : ∀ p ∈ opts, Matches p (argv.getD i []) ↔ (HAVE_ARG p = true ∧ N ∈ names p) :=
    fun p hp => by rw [htok]; exact matches_attached_iff hN (hnames p hp)
  have hne : argv.getD i [] ≠ ['-', '-'] := by
    intro e
    have hmem : '=' ∈ argv.getD i [] := by rw [htok]; simp
    rw [e] at hmem
    simp at hmem
  refine ⟨?_, hmatch, ?_, fun h0 step hf => opt_iter_full h0 hne hf⟩
  · intro step
    clear hmatch
    induction opts with
    | nil => intro h; simp [fullopt] at h
    | cons o os ih =>
      intro h
      have ho := hnames o (List.mem_cons_self _ _)
      have hos : ∀ p ∈ os, ∀ n ∈ names p, '=' ∉ n :=
        fun p hp => hnames p (List.mem_cons_of_mem _ hp)
      by_cases hl : live o = true
      · have hs1 : o.s ≠ some (argv.getD i []) := fun e =>
          not_mem_names_of_eq ho (by rw [← htok]; exact mem_names.2 (Or.inl e))
        have hl1 : o.l ≠ some (argv.getD i []) := fun e =>
          not_mem_names_of_eq ho (by rw [← htok]; exact mem_names.2 (Or.inr e))
        by_cases hm : HAVE_ARG o = true ∧ N ∈ names o
        · have hat : attached o (argv.getD i []) (set_opt_arg none st)
              = set_opt_arg (some V) (set_opt_arg none st) := by
            rw [htok]; exact attached_named _ hN ho hm.2
          rw [fullopt_attached hl hs1 hl1 hm.1 hat] at h
          exact ⟨[], o, os, rfl, by simp, hl, hm.1, hm.2, (Option.some.inj h).symm⟩
        · have hnm : ¬ Matches o (argv.getD i []) := by
            rw [htok, matches_attached_iff hN ho]; exact hm
          have hnm' := not_matches_iff.1 hnm
          rw [fullopt_skip hl hnm'.1 hnm'.2.1 hnm'.2.2 rfl] at h
          obtain ⟨pre, o1, post, e, hpre, h1, h2, h3, h4⟩ := ih hos h
          refine ⟨o :: pre, o1, post, by rw [e]; rfl, ?_, h1, h2, h3, h4⟩
          intro p hp
          rcases List.mem_cons.1 hp with rfl | hp
          · exact ⟨hl, hm⟩
          · exact hpre p hp
      · simp only [fullopt, hl, Bool.false_eq_true, if_false] at h
        cases h
  · intro pre o post e hpre ha hn
    subst e
    have ho := hnames o (by simp)
    rw [fullopt_pass pre (o :: post) rfl (fun p hp =>
      ⟨(hpre p hp).1, by
        rw [hmatch p (by simp [hp])]
        exact (hpre p hp).2⟩)]
    have hs1 : o.s ≠ some (argv.getD i []) := fun e =>
      not_mem_names_of_eq ho (by rw [← htok]; exact mem_names.2 (Or.inl e))
    have hl1 : o.l ≠ some (argv.getD i []) := fun e =>
      not_mem_names_of_eq ho (by rw [← htok]; exact mem_names.2 (Or.inr e))
    have hlive : live o = true := by
      rcases mem_names.1 hn with h | h
      · exact live_of_s h
      · exact live_of_l h
    have hat : attached o (argv.getD i []) (set_opt_arg none st)
        = set_opt_arg (some V) (set_opt_arg none st) := by
      rw [htok]; exact attached_named _ hN ho hn
    exact fullopt_attached hlive hs1 hl1 ha hat

/-- C19 on the fnv1a table extended with an option named `--out`, a strict prefix of
`--output`: the token `--output=F` is given to `--output`. -/
theorem attached_exact_name_witness :
    ∃ step, fullopt 2 ["fnv1a".toList, "--output=F".toList] 1
        (set_opt_arg none (Env.init fnv1a_mem))
        [{ fnv1a_c with l := some "--out".toList, flags := OPT_SET_VALUE, value := some 2 },
          fnv1a_o, OPT_END] = some step ∧
      step = arghandler fnv1a_o 1 (set_opt_arg (some "F".toList) (Env.init fnv1a_mem)) := by
  have h := (attached_exact_name
    [{ fnv1a_c with l := some "--out".toList, flags := OPT_SET_VALUE, value := some 2 },
      fnv1a_o, OPT_END] 2 ["fnv1a".toList, "--output=F".toList] 1 (Env.init fnv1a_mem)
    "--output".toList "F".toList rfl (by decide) (by decide)).2.2.1
    [{ fnv1a_c with l := some "--out".toList, flags := OPT_SET_VALUE, value := some 2 }]
    fnv1a_o [OPT_END] rfl (by decide) (by decide) (by decide)
  exact ⟨_, h, rfl⟩

/-! ## Table order -/

/-- The first table scan stops at a no-value descriptor whose name is the token. -/
theorem fullopt_exact_novalue {argc : Nat} {argv : List CStr} {i : Nat} {st : Env}
    {o : opt_s} {post : List opt_s}
    (hm : o.s = some (argv.getD i []) ∨ o.l = some (argv.getD i []))
    (ha : HAVE_ARG o = false) :
    fullopt argc argv i st (o :: post) = some (arghandler o i st) := by
  have hlive : live o = true := by
    rcases hm with h | h
    · exact live_of_s h
    · exact live_of_l h
  have he : (eq_short o (argv.getD i []) || eq_long o (argv.getD i [])) = true := by
    rcases hm with h | h
    · rw [(eq_short_iff _ _).2 h]; rfl
    · rw [(eq_long_iff _ _).2 h]; simp
  simp only [fullopt, hlive, he, ha, if_true, Bool.false_eq_true, if_false]

/-- A value-taking descriptor one of whose names, followed by `=`, starts the token
takes the rest of the token after that `=` as its value. -/
theorem attached_matched {o : opt_s} {tok : CStr}
    (h : ∃ n ∈ names o, n ++ ['='] <+: tok) :
    ∃ m v, m ∈ names o ∧ tok = m ++ '=' :: v ∧
      ∀ st, attached o tok st = set_opt_arg (some v) st := by
  obtain ⟨n, hn, t, ht⟩ := h
  have htok : tok = n ++ '=' :: t := by rw [← ht]; simp
  cases hs : o.s with
  | none =>
    rcases mem_names.1 hn with h1 | h1
    · rw [hs] at h1; cases h1
    · refine ⟨n, t, hn, htok, fun st => ?_⟩
      rw [htok]
      exact attached_long h1 (fun m hm => by rw [hs] at hm; cases hm)
  | some m =>
    by_cases hp : m ++ ['='] <+: tok
    · obtain ⟨u, hu⟩ := hp
      have htok1 : tok = m ++ '=' :: u := by rw [← hu]; simp
      refine ⟨m, u, mem_names.2 (Or.inl hs), htok1, fun st => ?_⟩
      rw [htok1]
      exact attached_short hs
    · rcases mem_names.1 hn with h1 | h1
      · rw [hs] at h1
        cases h1
        exact absurd ⟨t, ht⟩ hp
      · refine ⟨n, t, hn, htok, fun st => ?_⟩
        rw [htok]
        refine attached_long h1 (fun m1 hm1 => ?_)
        rw [hs] at hm1
        cases hm1
        rw [← htok]
        exact hp

/-- C15 (amended): the descriptor applied for a token is the first one in table order
that matches it in either form. When the token is one of its names it is applied in
the exact form (a value comes from the next token); otherwise it is value-taking, the
token is one of its names followed by `=` and a value, and it is applied with that
value, whatever the names of the descriptors after it are. -/
theorem first_match_applied (pre post : List opt_s) (o : opt_s) (argc : Nat)
    (argv : List CStr) (i : Nat) (st : Env)
    (h0 : charAt (argv.getD i []) 0 = '-') (h1 : argv.getD i [] ≠ ['-', '-'])
    (hpre : ∀ p ∈ pre, live p = true ∧ ¬ Matches p (argv.getD i []))
    (hm : Matches o (argv.getD i [])) :
    (argv.getD i [] ∈ names o → HAVE_ARG o = false →
      opt_iter (pre ++ o :: post) argc argv i st = arghandler o i (set_opt_arg none st)) ∧
    (argv.getD i [] ∈ names o → HAVE_ARG o = true → i + 1 < argc →
      opt_iter (pre ++ o :: post) argc argv i st
        = arghandler o (i + 1) (set_opt_arg (some (argv.getD (i + 1) [])) st)) ∧
    (argv.getD i [] ∈ names o → HAVE_ARG o = true → argc ≤ i + 1 →
      ∃ e, opt_iter (pre ++ o :: post) argc argv i st = Step.ret Exit.missingValue (-1) e) ∧
    (argv.getD i [] ∉ names o →
      HAVE_ARG o = true ∧ ∃ n v, n ∈ names o ∧ argv.getD i [] = n ++ '=' :: v ∧
        opt_iter (pre ++ o :: post) argc argv i st
          = arghandler o i (set_opt_arg (some v) st)) := by
  have hp := @fullopt_pass argc argv i (set_opt_arg none st) pre (o :: post) rfl hpre
  refine ⟨?_, ?_, ?_, ?_⟩
  · intro hn ha
    exact opt_iter_full h0 h1 (by rw [hp]; exact fullopt_exact_novalue (mem_names.1 hn) ha)
  · intro hn ha hi
    refine opt_iter_full h0 h1 ?_
    rw [hp, fullopt_exact_value (mem_names.1 hn) ha hi]
    rfl
  · intro hn ha hi
    exact ⟨_, opt_iter_full h0 h1
      (by rw [hp]; exact fullopt_exact_missing (mem_names.1 hn) ha hi)⟩
  · intro hn
    rcases hm with hm | ⟨ha, hex⟩
    · exact absurd hm hn
    · refine ⟨ha, ?_⟩
      obtain ⟨m, v, hmn, htok, hat⟩ := attached_matched hex
      refine ⟨m, v, hmn, htok, opt_iter_full h0 h1 ?_⟩
      rw [hp]
      have hlive : live o = true := by
        rcases mem_names.1 hmn with h | h
        · exact live_of_s h
        · exact live_of_l h
      have hs1 : o.s ≠ some (argv.getD i []) := fun e => hn (mem_names.2 (Or.inl e))
      have hl1 : o.l ≠ some (argv.getD i []) := fun e => hn (mem_names.2 (Or.inr e))
      rw [fullopt_attached hlive hs1 hl1 ha (hat _)]
      rfl

/-- C15 (amended) on the fnv1a table: `--output=F` is applied through `--output`. -/
theorem first_match_applied_witness :
    opt_iter ([OPT_HELP, fnv1a_i] ++ fnv1a_o :: [fnv1a_c, OPT_END]) 2
        ["fnv1a".toList, "--output=F".toList] 1 (Env.init fnv1a_mem)
      = arghandler fnv1a_o 1 (set_opt_arg (some "F".toList) (Env.init fnv1a_mem)) := by
  obtain ⟨_, n, v, hn, htok, h⟩ := (first_match_applied [OPT_HELP, fnv1a_i]
    [fnv1a_c, OPT_END] fnv1a_o 2 ["fnv1a".toList, "--output=F".toList] 1
    (Env.init fnv1a_mem) (by decide) (by decide) (by decide) (by decide)).2.2.2 (by decide)
  rw [h]
  have hn1 : n = "-o".toList ∨ n = "--output".toList := by
    simpa [names, fnv1a_o] using hn
  rcases hn1 with rfl | rfl
  · simp at htok
  · simp at htok
    rw [← htok]
    rfl

/-- C15 as stated fails: with a value-taking `--a` placed before a descriptor named
`--a=b`, the token `--a=b` is given to `--a` with the value `b`; the descriptor whose
name equals the token is not applied, although it is when it comes first. -/
theorem exact_match_not_first :
    "--a=b".toList ∈ names { OPT_END with l := some "--a=b".toList, flags := OPT_SET_FLAG, value := some 0 } ∧
    (opt_parse 2 ["prog".toList, "--a=b".toList]
        (some [{ OPT_END with l := some "--a".toList, flags := OPT_SET_VALUE, value := some 1 },
          { OPT_END with l := some "--a=b".toList, flags := OPT_SET_FLAG, value := some 0 }, OPT_END])
        false (Env.init echo_mem)).map (fun r => (r.code, r.st.mem 0, r.st.mem 1))
      = some (2, Cell.int 0, Cell.str (some "b".toList)) ∧
    (opt_parse 2 ["prog".toList, "--a=b".toList]
        (some [{ OPT_END with l := some "--a=b".toList, flags := OPT_SET_FLAG, value := some 0 },
          { OPT_END with l := some "--a".toList, flags := OPT_SET_VALUE, value := some 1 }, OPT_END])
        false (Env.init echo_mem)).map (fun r => (r.code, r.st.mem 0, r.st.mem 1))
      = some (2, Cell.int 1, Cell.str (some [])) := by
  decide

/-- Once a descriptor at which the first table scan is sure to stop is in the table,
what follows it has no part in the scan. -/
theorem fullopt_stop {argc : Nat} {argv : List CStr} {i : Nat} (pre : List opt_s)
    (e : opt_s) (hpre : ∀ p ∈ pre, live p = true)
    (he : ∀ st rest rest1, fullopt argc argv i st (e :: rest)
        = fullopt argc argv i st (e :: rest1) ∧
      (fullopt argc argv i st (e :: rest)).isSome = true) :
    ∀ st rest rest1, fullopt argc argv i st (pre ++ e :: rest)
        = fullopt argc argv i st (pre ++ e :: rest1) ∧
      (fullopt argc argv i st (pre ++ e :: rest)).isSome = true := by
  induction pre with
  | nil => exact he
  | cons p ps ih =>
    intro st rest rest1
    have hl := hpre p (List.mem_cons_self _ _)
    have ih' := ih (fun q hq => hpre q (List.mem_cons_of_mem _ hq))
    have h1 := ih' st rest rest1
    have h2 := ih' (attached p (argv.getD i []) st) rest rest1
    simp only [List.cons_append, fullopt, hl, if_true]
    by_cases c1 : (eq_short p (argv.getD i []) || eq_long p (argv.getD i [])) = true
    · rw [if_pos c1, if_pos c1]
      by_cases c2 : HAVE_ARG p = true
      · rw [if_pos c2]
        by_cases c3 : i + 1 ≥ argc
        · rw [if_pos c3]; exact ⟨rfl, rfl⟩
        · rw [if_neg c3]; exact ⟨rfl, rfl⟩
      · rw [if_neg c2]; exact ⟨rfl, rfl⟩
    · rw [if_neg c1, if_neg c1]
      by_cases c2 : HAVE_ARG p = true
      · rw [if_pos c2, if_pos c2]
        by_cases c3 : (attached p (argv.getD i []) st).opt_arg.isSome = true
        · rw [if_pos c3, if_pos c3]; exact ⟨rfl, rfl⟩
        · rw [if_neg c3, if_neg c3]; exact h2
      · rw [if_neg c2, if_neg c2]; exact h1

/-- The first table scan is sure to stop at a descriptor whose name is the token. -/
theorem fullopt_stop_exact {argc : Nat} {argv : List CStr} {i : Nat} {e : opt_s}
    (hm : e.s = some (argv.getD i []) ∨ e.l = some (argv.getD i []))
    (st : Env) (rest rest1 : List opt_s) :
    fullopt argc argv i st (e :: rest) = fullopt argc argv i st (e :: rest1) ∧
      (fullopt argc argv i st (e :: rest)).isSome = true := by
  by_cases ha : HAVE_ARG e = true
  · by_cases hi : i + 1 < argc
    · rw [fullopt_exact_value hm ha hi, fullopt_exact_value hm ha hi]
      exact ⟨rfl, rfl⟩
    · rw [fullopt_exact_missing hm ha (by omega), fullopt_exact_missing hm ha (by omega)]
      exact ⟨rfl, rfl⟩
  · have ha1 : HAVE_ARG e = false := by simpa using ha
    rw [fullopt_exact_novalue hm ha1, fullopt_exact_novalue hm ha1]
    exact ⟨rfl, rfl⟩

/-- An iteration in which the first table scan is sure to stop does the same for
every tail of the table. -/
theorem opt_iter_stop {argc : Nat} {argv : List CStr} {i : Nat} {st : Env}
    {l l1 : List opt_s} (h0 : charAt (argv.getD i []) 0 = '-')
    (h1 : argv.getD i [] ≠ ['-', '-'])
    (h : fullopt argc argv i (set_opt_arg none st) l
        = fullopt argc argv i (set_opt_arg none st) l1 ∧
      (fullopt argc argv i (set_opt_arg none st) l).isSome = true) :
    opt_iter l argc argv i st = opt_iter l1 argc argv i st := by
  obtain ⟨step, hstep⟩ := Option.isSome_iff_exists.1 h.2
  rw [opt_iter_full h0 h1 hstep, opt_iter_full h0 h1 (h.1 ▸ hstep)]

/-- C16 (amended): let `e` have the short name `-x`, after live descriptors `pre`.
For the token `-x`, and for a token `-x=V` when `e` takes a value, the iteration does
the same whatever follows `e` in the table, and so does the lookup of the letter `x`
in a group of short options: no descriptor after `e` is applied. When no descriptor
of `pre` carries `x`, the lookup finds `e`. When `e` takes no value (and its long name
is not the token), it is passed over for a token `-x=V`: a value-taking descriptor
`later` with the short name `-x` that follows it is applied with the value `V`,
provided no descriptor in front of `later` matches the token. -/
theorem short_name_tie_break (pre : List opt_s) (e : opt_s) (x : Char)
    (hpre : ∀ p ∈ pre, live p = true) (hs : e.s = some ['-', x]) :
    (∀ rest rest1 argc argv i st, argv.getD i [] = ['-', x] →
      opt_iter (pre ++ e :: rest) argc argv i st
        = opt_iter (pre ++ e :: rest1) argc argv i st) ∧
    (HAVE_ARG e = true → ∀ rest rest1 argc argv i st V,
      argv.getD i [] = '-' :: x :: '=' :: V →
      opt_iter (pre ++ e :: rest) argc argv i st
        = opt_iter (pre ++ e :: rest1) argc argv i st) ∧
    (∀ rest rest1, findShort x (pre ++ e :: rest) = findShort x (pre ++ e :: rest1)) ∧
    ((∀ p ∈ pre, ¬ Carries p x) → ∀ rest, findShort x (pre ++ e :: rest) = some e) ∧
    (HAVE_ARG e = false → ∀ (mid post : List opt_s) (later : opt_s) (argc : Nat)
        (argv : List CStr) (i : Nat) (st : Env) (V : CStr),
      argv.getD i [] = '-' :: x :: '=' :: V →
      e.l ≠ some (argv.getD i []) →
      (∀ p ∈ pre, ¬ Matches p (argv.getD i [])) →
      (∀ p ∈ mid, live p = true ∧ ¬ Matches p (argv.getD i [])) →
      later.s = some ['-', x] → HAVE_ARG later = true → later.l ≠ some (argv.getD i []) →
      opt_iter (pre ++ e :: (mid ++ later :: post)) argc argv i st
        = arghandler later i (set_opt_arg (some V) st)) := by
  refine ⟨?_, ?_, ?_, ?_, ?_⟩
  · intro rest rest1 argc argv i st htok
    by_cases hx : x = '-'
    · subst hx
      unfold opt_iter
      simp only [htok]
      rfl
    · have h0 : charAt (argv.getD i []) 0 = '-' := by rw [htok]; rfl
      have h1 : argv.getD i [] ≠ ['-', '-'] := by
        rw [htok]; intro e1; simp at e1; exact hx e1
      exact opt_iter_stop h0 h1 (fullopt_stop pre e hpre
        (fullopt_stop_exact (Or.inl (by rw [htok]; exact hs))) (set_opt_arg none st)
        rest rest1)
  · intro ha rest rest1 argc argv i st V htok
    have h0 : charAt (argv.getD i []) 0 = '-' := by rw [htok]; rfl
    have h1 : argv.getD i [] ≠ ['-', '-'] := by
      rw [htok]; intro e1; simp at e1
    have hstop : ∀ st rest rest1, fullopt argc argv i st (e :: rest)
          = fullopt argc argv i st (e :: rest1) ∧
        (fullopt argc argv i st (e :: rest)).isSome = true := by
      intro st1 r r1
      by_cases hl : e.l = some (argv.getD i [])
      · exact fullopt_stop_exact (Or.inr hl) st1 r r1
      · have hs1 : e.s ≠ some (argv.getD i []) := by
          rw [hs, htok]; intro e1; simp at e1
        have hat : attached e (argv.getD i []) st1 = set_opt_arg (some V) st1 := by
          rw [htok]
          exact @attached_short e ['-', x] V st1 hs
        rw [fullopt_attached (live_of_s hs) hs1 hl ha hat,
          fullopt_attached (live_of_s hs) hs1 hl ha hat]
        exact ⟨rfl, rfl⟩
    exact opt_iter_stop h0 h1 (fullopt_stop pre e hpre hstop (set_opt_arg none st) rest rest1)
  · intro rest rest1
    induction pre with
    | nil =>
      rw [List.nil_append, List.nil_append, findShort_head x e _ rest hs rfl,
        findShort_head x e _ rest1 hs rfl]
    | cons p ps ih =>
      have ih' := ih (fun q hq => hpre q (List.mem_cons_of_mem _ hq))
      simp only [List.cons_append, findShort, List.append_eq, ih']
  · intro hno rest
    rw [findShort_pass x pre (e :: rest) (fun p hp => ⟨hpre p hp, hno p hp⟩)]
    exact findShort_head x e _ rest hs rfl
  · intro hna mid post later argc argv i st V htok hel hnpre hmid hls hla hll
    have h0 : charAt (argv.getD i []) 0 = '-' := by rw [htok]; rfl
    have h1 : argv.getD i [] ≠ ['-', '-'] := by
      rw [htok]; intro e1; simp at e1
    have hes : e.s ≠ some (argv.getD i []) := by
      rw [hs, htok]; intro e1; simp at e1
    have hlas : later.s ≠ some (argv.getD i []) := by
      rw [hls, htok]; intro e1; simp at e1
    have hfront : ∀ p ∈ pre ++ e :: mid, live p = true ∧ ¬ Matches p (argv.getD i []) := by
      intro p hp
      rcases List.mem_append.1 hp with hp | hp
      · exact ⟨hpre p hp, hnpre p hp⟩
      · rcases List.mem_cons.1 hp with rfl | hp
        · refine ⟨live_of_s hs, not_matches_iff.2 ⟨hes, hel, fun ha => ?_⟩⟩
          rw [hna] at ha
          cases ha
        · exact hmid p hp
    have hat : attached later (argv.getD i []) (set_opt_arg none st)
        = set_opt_arg (some V) (set_opt_arg none st) := by
      rw [htok]
      exact @attached_short later ['-', x] V _ hls
    refine opt_iter_full h0 h1 ?_
    have hsplit : pre ++ e :: (mid ++ later :: post) = (pre ++ e :: mid) ++ later :: post := by
      simp
    rw [hsplit, fullopt_pass (pre ++ e :: mid) (later :: post) rfl hfront,
      fullopt_attached (live_of_s hls) hlas hll hla hat]
    rfl

/-- C16 (amended) on a table with two descriptors named `-x`, both taking a value:
the later one has no part in `-x=V`. -/
theorem short_name_tie_break_witness :
    opt_iter ([echo_n] ++ { echo_p with s := some "-x".toList } ::
        [{ echo_p with s := some "-x".toList, value := some 2 }, OPT_END]) 2
        ["echo".toList, "-x=V".toList] 1 (Env.init echo_mem)
      = opt_iter ([echo_n] ++ { echo_p with s := some "-x".toList } :: []) 2
        ["echo".toList, "-x=V".toList] 1 (Env.init echo_mem) :=
  (short_name_tie_break [echo_n] { echo_p with s := some "-x".toList } 'x' (by decide)
    rfl).2.1 (by decide) _ _ 2 ["echo".toList, "-x=V".toList] 1 (Env.init echo_mem)
    "V".toList rfl

/-- C16 as stated fails: when the earlier descriptor named `-x` takes no value and the
later one does, the token `-x=V` is given to the later one through the short name.
With a flag and two value-taking descriptors named `-x`, it is given to the first of
the value-taking ones. -/
theorem later_short_name_applied :
    (opt_parse 2 ["prog".toList, "-x=V".toList]
        (some [{ s := some "-x".toList, l := none, desc := none, flags := OPT_SET_FLAG,
                 value := some 0, handler := none },
               { s := some "-x".toList, l := none, desc := none, flags := OPT_SET_VALUE,
                 value := some 1, handler := none }, OPT_END])
        false (Env.init echo_mem)).map (fun r => (r.code, r.st.mem 0, r.st.mem 1))
      = some (2, Cell.int 0, Cell.str (some "V".toList)) ∧
    (opt_parse 2 ["prog".toList, "-x=V".toList]
        (some [{ s := some "-x".toList, l := none, desc := none, flags := OPT_SET_FLAG,
                 value := some 0, handler := none },
               { s := some "-x".toList, l := none, desc := none, flags := OPT_SET_VALUE,
                 value := some 1, handler := none },
               { s := some "-x".toList, l := none, desc := none, flags := OPT_SET_VALUE,
                 value := some 2, handler := none }, OPT_END])
        false (Env.init echo_mem)).map
        (fun r => (r.code, r.st.mem 0, r.st.mem 1, r.st.mem 2))
      = some (2, Cell.int 0, Cell.str (some "V".toList), Cell.str (some [])) := by
  refine ⟨?_, ?_⟩ <;> decide

/-! ## The result of a run -/

theorem arghandler_ret {o : opt_s} {k : Nat} {st st1 : Env} {w : Exit} {c : Int}
    (h : arghandler o k st = Step.ret w c st1) :
    w = Exit.handlerAbort ∧ c ≠ 0 ∧ ∃ s, c = (call_handler o s).1 := by
  rw [arghandler_eq] at h
  split at h
  · cases h
  · rename_i hz
    injection h with h1 h2 _
    subst h2
    exact ⟨h1.symm, hz, _, rfl⟩

theorem findShort_mem {c : Char} {opts : List opt_s} {o : opt_s}
    (h : findShort c opts = some o) : o ∈ opts := by
  induction opts with
  | nil => simp [findShort] at h
  | cons p ps ih =>
    simp only [findShort] at h
    split at h
    · split at h
      · exact List.mem_cons_of_mem _ (ih h)
      · split at h
        · cases h; exact List.mem_cons_self _ _
        · exact List.mem_cons_of_mem _ (ih h)
    · cases h

/-- A return of the first table scan is the missing-value error, or a nonzero code of
the handler of a descriptor of the table. -/
theorem fullopt_ret {argc : Nat} {argv : List CStr} {i : Nat} {opts : List opt_s}
    {st st1 : Env} {w : Exit} {c : Int}
    (h : fullopt argc argv i st opts = some (Step.ret w c st1)) :
    (w = Exit.missingValue ∧ c = -1) ∨
      (w = Exit.handlerAbort ∧ c ≠ 0 ∧ ∃ o ∈ opts, ∃ s, c = (call_handler o s).1) := by
  induction opts generalizing st with
  | nil => simp [fullopt] at h
  | cons o os ih =>
    have hmem : ∀ {w c}, (w = Exit.handlerAbort ∧ c ≠ 0 ∧ ∃ s, c = (call_handler o s).1) →
        (w = Exit.missingValue ∧ c = -1) ∨
        (w = Exit.handlerAbort ∧ c ≠ 0 ∧ ∃ p ∈ o :: os, ∃ s, c = (call_handler p s).1) :=
      fun hx => Or.inr ⟨hx.1, hx.2.1, o, List.mem_cons_self _ _, hx.2.2⟩
    have htail : ((w = Exit.missingValue ∧ c = -1) ∨
        (w = Exit.handlerAbort ∧ c ≠ 0 ∧ ∃ p ∈ os, ∃ s, c = (call_handler p s).1)) →
        (w = Exit.missingValue ∧ c = -1) ∨
        (w = Exit.handlerAbort ∧ c ≠ 0 ∧ ∃ p ∈ o :: os, ∃ s, c = (call_handler p s).1) := by
      rintro (hx | ⟨h1, h2, p, hp, hs⟩)
      · exact Or.inl hx
      · exact Or.inr ⟨h1, h2, p, List.mem_cons_of_mem _ hp, hs⟩
    simp only [fullopt] at h
    by_cases hl : live o = true
    · rw [if_pos hl] at h
      by_cases he : (eq_short o (argv.getD i []) || eq_long o (argv.getD i [])) = true
      · rw [if_pos he] at h
        by_cases ha : HAVE_ARG o = true
        · rw [if_pos ha] at h
          by_cases hc : i + 1 ≥ argc
          · rw [if_pos hc] at h
            simp only [Option.some.injEq, Step.ret.injEq] at h
            exact Or.inl ⟨h.1.symm, h.2.1.symm⟩
          · rw [if_neg hc] at h
            exact hmem (arghandler_ret (Option.some.inj h))
        · rw [if_neg ha] at h
          exact hmem (arghandler_ret (Option.some.inj h))
      · rw [if_neg he] at h
        by_cases ha : HAVE_ARG o = true
        · rw [if_pos ha] at h
          by_cases hv : (attached o (argv.getD i []) st).opt_arg.isSome = true
          · rw [if_pos hv] at h
            exact hmem (arghandler_ret (Option.some.inj h))
          · rw [if_neg hv] at h
            exact htail (ih h)
        · rw [if_neg ha] at h
          exact htail (ih h)
    · rw [if_neg hl] at h; cases h

/-- A return of the loop over a group of short options is an error, or a nonzero code
of the handler of a descriptor of the table. -/
theorem shortopts_ret {opts : List opt_s} {argc : Nat} {argv : List CStr} {i : Nat}
    {s : CStr} {st st1 : Env} {w : Exit} {c : Int}
    (h : shortopts opts argc argv i s st = Step.ret w c st1) :
    ((w = Exit.missingValue ∨ w = Exit.unrecognized) ∧ c = -1) ∨
      (w = Exit.handlerAbort ∧ c ≠ 0 ∧ ∃ o ∈ opts, ∃ s, c = (call_handler o s).1) := by
  induction s generalizing st with
  | nil => simp [shortopts] at h
  | cons a s ih =>
    unfold shortopts at h
    cases hf : findShort a opts with
    | none =>
      rw [hf] at h
      simp only [unrecognized_option, Step.ret.injEq] at h
      exact Or.inl ⟨Or.inr h.1.symm, h.2.1.symm⟩
    | some o =>
      rw [hf] at h
      simp only at h
      have ho := findShort_mem hf
      by_cases ha : HAVE_ARG o = true
      · rw [if_pos ha] at h
        cases s with
        | nil =>
          simp only at h
          split at h
          · simp only [Step.ret.injEq] at h
            exact Or.inl ⟨Or.inl h.1.symm, h.2.1.symm⟩
          · have hx := arghandler_ret h
            exact Or.inr ⟨hx.1, hx.2.1, o, ho, hx.2.2⟩
        | cons d s1 =>
          have hx := arghandler_ret h
          exact Or.inr ⟨hx.1, hx.2.1, o, ho, hx.2.2⟩
      · rw [if_neg ha] at h
        split at h
        · rename_i hz
          simp only [Step.ret.injEq] at h
          exact Or.inr ⟨h.1.symm, by rw [← h.2.1]; exact hz, o, ho, _, h.2.1.symm⟩
        · exact ih h

/-- The code an iteration of the main loop returns. -/
theorem opt_iter_ret {opts : List opt_s} {argc : Nat} {argv : List CStr} {i : Nat}
    {st st1 : Env} {w : Exit} {c : Int}
    (h : opt_iter opts argc argv i st = Step.ret w c st1) :
    (w = Exit.positional ∧ c = i) ∨ (w = Exit.terminator ∧ c = i + 1) ∨
      ((w = Exit.missingValue ∨ w = Exit.unrecognized) ∧ c = -1) ∨
      (w = Exit.handlerAbort ∧ c ≠ 0 ∧ ∃ o ∈ opts, ∃ s, c = (call_handler o s).1) := by
  unfold opt_iter at h
  simp only at h
  split at h
  · simp only [Step.ret.injEq] at h
    exact Or.inl ⟨h.1.symm, h.2.1.symm⟩
  · split at h
    · simp only [Step.ret.injEq] at h
      exact Or.inr (Or.inl ⟨h.1.symm, by rw [← h.2.1]⟩)
    · split at h
      · rename_i step hs
        subst h
        rcases fullopt_ret hs with hx | hx
        · exact Or.inr (Or.inr (Or.inl ⟨Or.inl hx.1, hx.2⟩))
        · exact Or.inr (Or.inr (Or.inr hx))
      · split at h
        · rcases shortopts_ret h with hx | hx
          · exact Or.inr (Or.inr (Or.inl hx))
          · exact Or.inr (Or.inr (Or.inr hx))
        · simp only [unrecognized_option, Step.ret.injEq] at h
          exact Or.inr (Or.inr (Or.inl ⟨Or.inr h.1.symm, h.2.1.symm⟩))

theorem fullopt_next_le {argc : Nat} {argv : List CStr} {i j : Nat} {st st1 : Env}
    {opts : List opt_s} (h : fullopt argc argv i st opts = some (Step.next j st1))
    (hi : i < argc) : j ≤ argc := by
  induction opts generalizing st with
  | nil => simp [fullopt] at h
  | cons o os ih =>
    simp only [fullopt] at h
    by_cases hl : live o = true
    · rw [if_pos hl] at h
      by_cases he : (eq_short o (argv.getD i []) || eq_long o (argv.getD i [])) = true
      · rw [if_pos he] at h
        by_cases ha : HAVE_ARG o = true
        · rw [if_pos ha] at h
          by_cases hc : i + 1 ≥ argc
          · rw [if_pos hc] at h; cases h
          · rw [if_neg hc] at h
            have := arghandler_next (Option.some.inj h); omega
        · rw [if_neg ha] at h
          have := arghandler_next (Option.some.inj h); omega
      · rw [if_neg he] at h
        by_cases ha : HAVE_ARG o = true
        · rw [if_pos ha] at h
          by_cases hv : (attached o (argv.getD i []) st).opt_arg.isSome = true
          · rw [if_pos hv] at h
            have := arghandler_next (Option.some.inj h); omega
          · rw [if_neg hv] at h
            exact ih h
        · rw [if_neg ha] at h
          exact ih h
    · rw [if_neg hl] at h; cases h

theorem shortopts_next_le {opts : List opt_s} {argc : Nat} {argv : List CStr} {i j : Nat}
    {s : CStr} {st st1 : Env} (h : shortopts opts argc argv i s st = Step.next j st1)
    (hi : i < argc) : j ≤ argc := by
  induction s generalizing st with
  | nil =>
    simp only [shortopts] at h
    injection h with h1 _
    omega
  | cons c s ih =>
    unfold shortopts at h
    split at h
    · simp [unrecognized_option] at h
    · split at h
      · split at h
        · split at h
          · cases h
          · have := arghandler_next h; omega
        · have := arghandler_next h; omega
      · split at h
        · cases h
        · exact ih h

/-- An iteration never moves the index past the end of the vector. -/
theorem opt_iter_next_le {opts : List opt_s} {argc : Nat} {argv : List CStr} {i j : Nat}
    {st st1 : Env} (h : opt_iter opts argc argv i st = Step.next j st1) (hi : i < argc) :
    j ≤ argc := by
  unfold opt_iter at h
  simp only at h
  split at h
  · cases h
  · split at h
    · cases h
    · split at h
      · rename_i step hs
        subst h
        exact fullopt_next_le hs hi
      · split at h
        · exact shortopts_next_le h hi
        · simp [unrecognized_option] at h

theorem reaches_le_argc {opts : List opt_s} {argc : Nat} {argv : List CStr} {s0 : Env}
    {i : Nat} {st : Env} (h : Reaches opts argc argv s0 i st) (hargc : 1 ≤ argc) :
    i ≤ argc := by
  induction h with
  | start => exact hargc
  | step _ hi hs _ => exact opt_iter_next_le hs hi

/-- The code `opt_parse` returns on a table, by the reason of the return. -/
theorem opt_parse_code {opts : List opt_s} {argc : Nat} {argv : List CStr} {pn : Bool}
    {s0 : Env} {r : Result} (hargc : 1 ≤ argc)
    (h : opt_parse argc argv (some opts) pn s0 = some r) :
    (r.why = Exit.exhausted ∧ r.code = argc) ∨
      (r.why = Exit.positional ∧ 1 ≤ r.code ∧ r.code < argc) ∨
      (r.why = Exit.terminator ∧ 2 ≤ r.code ∧ r.code ≤ argc) ∨
      ((r.why = Exit.missingValue ∨ r.why = Exit.unrecognized) ∧ r.code = -1) ∨
      (r.why = Exit.handlerAbort ∧ r.code ≠ 0 ∧
        ∃ o ∈ opts, ∃ s, r.code = (call_handler o s).1) := by
  simp only [opt_parse] at h
  rcases opt_loop_last _ _ _ Reaches.start h with ⟨j, sj, hr, hj, rfl⟩ | ⟨j, sj, hr, hj, hs⟩
  · have := reaches_le_argc hr hargc
    refine Or.inl ⟨rfl, ?_⟩
    show (j : Int) = argc
    omega
  · have h1 := reaches_le hr
    rcases opt_iter_ret hs with hx | hx | hx | hx
    · exact Or.inr (Or.inl ⟨hx.1, by rw [hx.2]; omega, by rw [hx.2]; omega⟩)
    · exact Or.inr (Or.inr (Or.inl ⟨hx.1, by rw [hx.2]; omega, by rw [hx.2]; omega⟩))
    · exact Or.inr (Or.inr (Or.inr (Or.inl hx)))
    · exact Or.inr (Or.inr (Or.inr (Or.inr hx)))

/-- C11: for every table whose handlers all return values `<= 0` and every vector with
`argc >= 1`, `opt_parse` returns; a non-negative result `r` satisfies
`1 <= r <= argc` and comes from a positional token, a `--` terminator or the end of
the vector; when the vector is exhausted the result is exactly `argc`. -/
theorem opt_parse_result_range (argc : Nat) (argv : List CStr) (opts : List opt_s)
    (pn : Bool) (s0 : Env) (hargc : 1 ≤ argc)
    (hh : ∀ o ∈ opts, ∀ st, (call_handler o st).1 ≤ 0) :
    ∃ r, opt_parse argc argv (some opts) pn s0 = some r ∧
      (0 ≤ r.code → 1 ≤ r.code ∧ r.code ≤ argc) ∧
      (r.why = Exit.exhausted → r.code = argc) ∧
      (0 ≤ r.code →
        r.why = Exit.positional ∨ r.why = Exit.terminator ∨ r.why = Exit.exhausted) := by
  obtain ⟨r, hr⟩ := opt_loop_total opts argc argv argc 1 (opt_start argv opts pn s0)
    (by omega)
  have hr1 : opt_parse argc argv (some opts) pn s0 = some r := hr
  refine ⟨r, hr1, ?_⟩
  rcases opt_parse_code hargc hr1 with hx | hx | hx | hx | hx
  · refine ⟨fun _ => ⟨by rw [hx.2]; omega, by rw [hx.2]⟩, fun _ => hx.2,
      fun _ => Or.inr (Or.inr hx.1)⟩
  · refine ⟨fun _ => ⟨hx.2.1, by omega⟩, fun h => ?_, fun _ => Or.inl hx.1⟩
    rw [hx.1] at h; cases h
  · refine ⟨fun _ => ⟨by omega, hx.2.2⟩, fun h => ?_, fun _ => Or.inr (Or.inl hx.1)⟩
    rw [hx.1] at h; cases h
  · refine ⟨fun h => ?_, fun h => ?_, fun h => ?_⟩
    · rw [hx.2] at h; omega
    · rcases hx.1 with e | e <;> rw [e] at h <;> cases h
    · rw [hx.2] at h; omega
  · obtain ⟨hw, hne, o, ho, s, hc⟩ := hx
    have hle := hh o ho s
    rw [← hc] at hle
    refine ⟨fun h => ?_, fun h => ?_, fun h => ?_⟩
    · omega
    · rw [hw] at h; cases h
    · omega

/-- C11 on the echo table, whose help handler returns `-2`. -/
theorem opt_parse_result_range_witness :
    (∀ o ∈ echo_progopts, ∀ st, (call_handler o st).1 ≤ 0) ∧
    ∃ r, opt_parse 4 ["echo".toList, "-n".toList, "a".toList, "b".toList]
        (some echo_progopts) false (Env.init echo_mem) = some r ∧
      (0 ≤ r.code → 1 ≤ r.code ∧ r.code ≤ (4 : Nat)) ∧
      (r.why = Exit.exhausted → r.code = (4 : Nat)) ∧
      (0 ≤ r.code →
        r.why = Exit.positional ∨ r.why = Exit.terminator ∨ r.why = Exit.exhausted) := by
  have hh : ∀ o ∈ echo_progopts, ∀ st, (call_handler o st).1 ≤ 0 := by
    intro o ho st
    simp only [echo_progopts, List.mem_cons, List.mem_singleton, List.not_mem_nil,
      or_false] at ho
    rcases ho with rfl | rfl | rfl | rfl <;>
      simp [call_handler, OPT_HELP, echo_n, echo_p, OPT_END, Handler.run, opt_handle_help,
        LIBOPT_HELP]
  exact ⟨hh, opt_parse_result_range 4 ["echo".toList, "-n".toList, "a".toList, "b".toList]
    echo_progopts false (Env.init echo_mem) (by decide) hh⟩

/-! ## Groups of short options and separate tokens -/

theorem arghandler_shift (d : Nat) (o : opt_s) (k : Nat) (st : Env) :
    arghandler o (k + d) st = shiftStep d (arghandler o k st) := by
  unfold arghandler
  split
  · simp [shiftStep]
  · simp only [shiftStep, Step.next.injEq, and_true]
    omega

theorem unrecognized_shift {argv1 argv2 : List CStr} {i d : Nat}
    (h0 : argv1.getD i [] = argv2.getD (i + d) []) (st : Env) :
    unrecognized_option argv2 (i + d) st = shiftStep d (unrecognized_option argv1 i st) := by
  unfold unrecognized_option
  rw [← h0]
  rfl

theorem fullopt_shift {argc : Nat} {argv1 argv2 : List CStr} {i d : Nat}
    (h0 : argv1.getD i [] = argv2.getD (i + d) [])
    (h1 : argv1.getD (i + 1) [] = argv2.getD (i + 1 + d) []) (opts : List opt_s) (st : Env) :
    fullopt (argc + d) argv2 (i + d) st opts
      = (fullopt argc argv1 i st opts).map (shiftStep d) := by
  have e : i + d + 1 = i + 1 + d := by omega
  induction opts generalizing st with
  | nil => rfl
  | cons o os ih =>
    simp only [fullopt, ← h0, e, ← h1]
    by_cases hl : live o = true
    · rw [if_pos hl, if_pos hl]
      by_cases he : (eq_short o (argv1.getD i []) || eq_long o (argv1.getD i [])) = true
      · rw [if_pos he, if_pos he]
        by_cases ha : HAVE_ARG o = true
        · rw [if_pos ha, if_pos ha]
          by_cases hc : i + 1 ≥ argc
          · rw [if_pos hc, if_pos (by omega)]
            simp [shiftStep]
          · rw [if_neg hc, if_neg (by omega)]
            simp only [Option.map_some', arghandler_shift]
        · rw [if_neg ha, if_neg ha]
          simp only [Option.map_some', arghandler_shift]
      · rw [if_neg he, if_neg he]
        by_cases ha : HAVE_ARG o = true
        · rw [if_pos ha, if_pos ha]
          by_cases hv : (attached o (argv1.getD i []) st).opt_arg.isSome = true
          · rw [if_pos hv, if_pos hv]
            simp only [Option.map_some', arghandler_shift]
          · rw [if_neg hv, if_neg hv]
            exact ih _
        · rw [if_neg ha, if_neg ha]
          exact ih _
    · rw [if_neg hl, if_neg hl]
      rfl

theorem shortopts_shift {argc : Nat} {argv1 argv2 : List CStr} {i d : Nat}
    (h0 : argv1.getD i [] = argv2.getD (i + d) [])
    (h1 : argv1.getD (i + 1) [] = argv2.getD (i + 1 + d) []) (opts : List opt_s)
    (s : CStr) (st : Env) :
    shortopts opts (argc + d) argv2 (i + d) s st
      = shiftStep d (shortopts opts argc argv1 i s st) := by
  have e : i + d + 1 = i + 1 + d := by omega
  induction s generalizing st with
  | nil => simp only [shortopts, shiftStep, e]
  | cons c s ih =>
    unfold shortopts
    cases findShort c opts with
    | none => exact unrecognized_shift h0 st
    | some o =>
      simp only
      by_cases ha : HAVE_ARG o = true
      · rw [if_pos ha, if_pos ha]
        cases s with
        | nil =>
          simp only
          by_cases hc : i + 1 ≥ argc
          · rw [if_pos hc, if_pos (by omega)]
            simp [shiftStep]
          · rw [if_neg hc, if_neg (by omega), e, ← h1, arghandler_shift]
        | cons x s1 => exact arghandler_shift d o i _
      · rw [if_neg ha, if_neg ha]
        by_cases hz : (dispatch o none st).1 ≠ 0
        · rw [if_pos hz, if_pos hz]
          simp [shiftStep]
        · rw [if_neg hz, if_neg hz]
          exact ih _

/-- An iteration reads the same when `d` more tokens stand in front of its token. -/
theorem opt_iter_shift {argc : Nat} {argv1 argv2 : List CStr} {i d : Nat}
    (h0 : argv1.getD i [] = argv2.getD (i + d) [])
    (h1 : argv1.getD (i + 1) [] = argv2.getD (i + 1 + d) []) (opts : List opt_s) (st : Env) :
    opt_iter opts (argc + d) argv2 (i + d) st
      = shiftStep d (opt_iter opts argc argv1 i st) := by
  unfold opt_iter
  simp only [← h0]
  by_cases c1 : charAt (argv1.getD i []) 0 ≠ '-'
  · rw [if_pos c1, if_pos c1]
    simp [shiftStep]
  · rw [if_neg c1, if_neg c1]
    by_cases c2 : strcmp (argv1.getD i []) ['-', '-'] = 0
    · rw [if_pos c2, if_pos c2]
      simp only [shiftStep, true_or, or_true, if_true, Step.ret.injEq, and_true, true_and]
      push_cast
      omega
    · rw [if_neg c2, if_neg c2, fullopt_shift h0 h1]
      cases fullopt argc argv1 i (set_opt_arg none st) opts with
      | some step => rfl
      | none =>
        simp only [Option.map_none']
        by_cases c3 : charAt (argv1.getD i []) 0 = '-' ∧ charAt (argv1.getD i []) 1 ≠ '-'
        · rw [if_pos c3, if_pos c3]
          exact shortopts_shift h0 h1 opts _ _
        · rw [if_neg c3, if_neg c3]
          exact unrecognized_shift h0 _

/-- The main loop reads the same when `d` more tokens stand in front of the tokens it
is to read; the amount of fuel does not matter once it is enough. -/
theorem opt_loop_shift {argc : Nat} {argv1 argv2 : List CStr} {d : Nat}
    (opts : List opt_s) :
    ∀ (fuel1 fuel2 k : Nat) (st : Env), argc < fuel1 + k → argc < fuel2 + k →
      (∀ j, k ≤ j → argv1.getD j [] = argv2.getD (j + d) []) →
      ∃ r, opt_loop opts argc argv1 fuel1 k st = some r ∧
        opt_loop opts (argc + d) argv2 fuel2 (k + d) st = some (shiftResult d r) := by
  intro fuel1
  induction fuel1 with
  | zero =>
    intro fuel2 k st h1 h2 htok
    refine ⟨{ why := Exit.exhausted, code := k, st := st }, ?_, ?_⟩
    · unfold opt_loop
      rw [if_neg (by omega)]
    · unfold opt_loop
      rw [if_neg (by omega)]
      simp [shiftResult]
  | succ f ih =>
    intro fuel2 k st h1 h2 htok
    by_cases hk : k < argc
    · obtain ⟨f2, rfl⟩ : ∃ f2, fuel2 = f2 + 1 := ⟨fuel2 - 1, by omega⟩
      have hs := @opt_iter_shift argc argv1 argv2 k d (htok k (Nat.le_refl k))
        (htok (k + 1) (by omega)) opts st
      unfold opt_loop
      rw [if_pos hk, if_pos (by omega)]
      simp only [hs]
      cases hi : opt_iter opts argc argv1 k st with
      | ret w c st1 =>
        refine ⟨_, rfl, ?_⟩
        simp only [shiftStep, shiftResult]
      | next j st1 =>
        have hj := opt_iter_next hi
        simp only [shiftStep]
        exact ih f2 j st1 (by omega) (by omega) (fun m hm => htok m (by omega))
    · refine ⟨{ why := Exit.exhausted, code := k, st := st }, ?_, ?_⟩
      · unfold opt_loop
        rw [if_neg hk]
      · unfold opt_loop
        rw [if_neg (by omega)]
        simp [shiftResult]

/-- The lookup of a short letter splits the table at the descriptor it finds. -/
theorem findShort_split {c : Char} {opts : List opt_s} {o : opt_s}
    (h : findShort c opts = some o) :
    ∃ pre post, opts = pre ++ o :: post ∧ (∀ p ∈ pre, live p = true ∧ ¬ Carries p c) ∧
      ∃ n, o.s = some n ∧ charAt n 1 = c := by
  induction opts with
  | nil => simp [findShort] at h
  | cons p ps ih =>
    simp only [findShort] at h
    by_cases hl : live p = true
    · rw [if_pos hl] at h
      have hrec : findShort c ps = some o → ¬ Carries p c →
          ∃ pre post, p :: ps = pre ++ o :: post ∧
            (∀ q ∈ pre, live q = true ∧ ¬ Carries q c) ∧ ∃ n, o.s = some n ∧ charAt n 1 = c := by
        intro h1 hnc
        obtain ⟨pre, post, e, hpre, hn⟩ := ih h1
        refine ⟨p :: pre, post, by rw [e]; rfl, ?_, hn⟩
        intro q hq
        rcases List.mem_cons.1 hq with rfl | hq
        · exact ⟨hl, hnc⟩
        · exact hpre q hq
      cases hs : p.s with
      | none =>
        rw [hs] at h
        exact hrec h (not_carries_iff.2 (fun n hn => by rw [hs] at hn; cases hn))
      | some n =>
        rw [hs] at h
        simp only at h
        by_cases hc : c = charAt n 1
        · rw [if_pos hc] at h
          cases h
          exact ⟨[], ps, rfl, by simp, n, hs, hc.symm⟩
        · rw [if_neg hc] at h
          refine hrec h (not_carries_iff.2 (fun m hm => ?_))
          rw [hs] at hm
          cases hm
          exact fun e => hc e.symm
    · rw [if_neg hl] at h
      cases h

theorem set_opt_arg_none_self {st : Env} (h : st.opt_arg = none) :
    set_opt_arg none st = st := by
  cases st
  simp only at h
  subst h
  rfl

theorem arghandler_zero {o : opt_s} {k : Nat} {st : Env}
    (h : (dispatch o st.opt_arg st).1 = 0) :
    arghandler o k st = Step.next (k + 1) (dispatch o st.opt_arg st).2 := by
  rw [arghandler_eq, if_pos h]

theorem dash_dash_start {n tok : CStr} (h : ['-', '-'] <+: n) (hp : n <+: tok) :
    ∃ t, tok = '-' :: '-' :: t := by
  obtain ⟨u, hu⟩ := h
  obtain ⟨v, hv⟩ := hp
  exact ⟨u ++ v, by rw [← hv, ← hu]; rfl⟩

theorem starts_of_append_starts {n e tok : CStr} (h : n ++ e <+: tok) : n <+: tok :=
  (List.prefix_append n e).trans h

/-- A token made of `-` and a letter other than `-`, in a table whose short names are
`-` plus one character and whose long names begin with `--`, is applied by the
descriptor the lookup of the letter finds. -/
theorem short_token_iter {opts : List opt_s}
    (hs : ∀ p ∈ opts, ∀ n, p.s = some n → ∃ y, n = ['-', y])
    (hl : ∀ p ∈ opts, ∀ n, p.l = some n → ['-', '-'] <+: n)
    {x : Char} {o : opt_s} (hf : findShort x opts = some o) (hx : x ≠ '-')
    (hna : HAVE_ARG o = false) (argc : Nat) (argv : List CStr) (i : Nat) (st : Env)
    (htok : argv.getD i [] = ['-', x]) :
    opt_iter opts argc argv i st = arghandler o i (set_opt_arg none st) := by
  obtain ⟨pre, post, e, hpre, n, hn, hc⟩ := findShort_split hf
  have ho : o ∈ opts := findShort_mem hf
  obtain ⟨y, rfl⟩ := hs o ho n hn
  have hy : y = x := hc
  subst hy
  have h0 : charAt (argv.getD i []) 0 = '-' := by rw [htok]; rfl
  have h1 : argv.getD i [] ≠ ['-', '-'] := by
    rw [htok]; intro e1; simp at e1; exact hx e1
  refine opt_iter_full h0 h1 ?_
  rw [e, fullopt_pass pre _ rfl, fullopt_exact_novalue (Or.inl (by rw [htok]; exact hn)) hna]
  intro p hp
  have hpo : p ∈ opts := by rw [e]; simp [hp]
  refine ⟨(hpre p hp).1, not_matches_iff.2 ⟨?_, ?_, ?_⟩⟩
  · rw [htok]
    exact fun e1 => (hpre p hp).2 (carries_of e1 rfl)
  · rw [htok]
    intro e1
    have := hl p hpo _ e1
    simp at this
    exact hx this.symm
  · rw [htok]
    intro _ m hm hpm
    have hlen := hpm.length_le
    rcases hm with hm | hm
    · obtain ⟨z, rfl⟩ := hs p hpo m hm
      simp at hlen
    · have := (hl p hpo m hm).length_le
      simp at hlen this
      omega

/-- A token `-x=V` with `x` other than `-`, in such a table, is applied by the
value-taking descriptor the lookup of the letter finds, with the value `V`. -/
theorem short_value_token_iter {opts : List opt_s}
    (hs : ∀ p ∈ opts, ∀ n, p.s = some n → ∃ y, n = ['-', y])
    (hl : ∀ p ∈ opts, ∀ n, p.l = some n → ['-', '-'] <+: n)
    {x : Char} {o : opt_s} (hf : findShort x opts = some o) (hx : x ≠ '-')
    (hva : HAVE_ARG o = true) (argc : Nat) (argv : List CStr) (i : Nat) (st : Env)
    (V : CStr) (htok : argv.getD i [] = '-' :: x :: '=' :: V) :
    opt_iter opts argc argv i st = arghandler o i (set_opt_arg (some V) st) := by
  obtain ⟨pre, post, e, hpre, n, hn, hc⟩ := findShort_split hf
  have ho : o ∈ opts := findShort_mem hf
  obtain ⟨y, rfl⟩ := hs o ho n hn
  have hy : y = x := hc
  subst hy
  have h0 : charAt (argv.getD i []) 0 = '-' := by rw [htok]; rfl
  have h1 : argv.getD i [] ≠ ['-', '-'] := by
    rw [htok]; intro e1; simp at e1
  have hnl : ∀ p ∈ opts, ∀ m, p.l = some m → ¬ (m <+: argv.getD i []) := by
    intro p hp m hm hpm
    obtain ⟨t, ht⟩ := dash_dash_start (hl p hp m hm) hpm
    rw [htok] at ht
    simp at ht
    exact hx ht.1
  have hns : ∀ p ∈ opts, p.s ≠ some (argv.getD i []) := by
    intro p hp e1
    obtain ⟨z, hz⟩ := hs p hp _ e1
    rw [htok] at hz
    simp at hz
  refine opt_iter_full h0 h1 ?_
  rw [e, fullopt_pass pre _ rfl]
  · have hat : attached o (argv.getD i []) (set_opt_arg none st)
        = set_opt_arg (some V) (set_opt_arg none st) := by
      rw [htok]
      exact @attached_short o ['-', y] V _ hn
    rw [fullopt_attached (live_of_s hn) (hns o ho)
      (fun e1 => hnl o ho _ e1 (List.prefix_refl _)) hva hat]
    rfl
  · intro p hp
    have hpo : p ∈ opts := by rw [e]; simp [hp]
    refine ⟨(hpre p hp).1, not_matches_iff.2 ⟨hns p hpo, ?_, ?_⟩⟩
    · exact fun e1 => hnl p hpo _ e1 (List.prefix_refl _)
    · intro _ m hm hpm
      rcases hm with hm | hm
      · obtain ⟨z, rfl⟩ := hs p hpo m hm
        rw [htok] at hpm
        simp at hpm
        exact (hpre p hp).2 (carries_of hm (hpm : charAt ['-', z] 1 = y))
      · exact hnl p hpo m hm (starts_of_append_starts hpm)

/-- A token `-ab...` with `a` other than `-` and `b` other than `=`, in such a table,
is matched by no descriptor as a whole token. -/
theorem group_token_fullopt {opts : List opt_s}
    (hs : ∀ p ∈ opts, ∀ n, p.s = some n → ∃ y, n = ['-', y])
    (hl : ∀ p ∈ opts, ∀ n, p.l = some n → ['-', '-'] <+: n)
    {a b : Char} {t : CStr} (ha : a ≠ '-') (hb : b ≠ '=') (argc : Nat) (argv : List CStr)
    (i : Nat) (st : Env) (hst : st.opt_arg = none)
    (htok : argv.getD i [] = '-' :: a :: b :: t) :
    fullopt argc argv i st opts = none := by
  have hnl : ∀ p ∈ opts, ∀ m, p.l = some m → ¬ (m <+: argv.getD i []) := by
    intro p hp m hm hpm
    obtain ⟨u, hu⟩ := dash_dash_start (hl p hp m hm) hpm
    rw [htok] at hu
    simp at hu
    exact ha hu.1
  refine fullopt_unmatched opts hst (fun p hp => not_matches_iff.2 ⟨?_, ?_, ?_⟩)
  · intro e1
    obtain ⟨z, hz⟩ := hs p hp _ e1
    rw [htok] at hz
    simp at hz
  · exact fun e1 => hnl p hp _ e1 (List.prefix_refl _)
  · intro _ m hm hpm
    rcases hm with hm | hm
    · obtain ⟨z, rfl⟩ := hs p hp m hm
      rw [htok] at hpm
      simp at hpm
      exact hb hpm.2.symm
    · exact hnl p hp m hm (starts_of_append_starts hpm)

/-- One turn of the loop over a group, at a letter of a no-value descriptor whose
handler returns 0. -/
theorem shortopts_novalue {opts : List opt_s} {argc : Nat} {argv : List CStr} {i : Nat}
    {x : Char} {o : opt_s} {s : CStr} {st : Env} (hf : findShort x opts = some o)
    (hna : HAVE_ARG o = false) (hz : (dispatch o none st).1 = 0) :
    shortopts opts argc argv i (x :: s) st
      = shortopts opts argc argv i s (dispatch o none st).2 := by
  conv_lhs => unfold shortopts
  simp only [hf, hna, Bool.false_eq_true, if_false]
  rw [if_neg (by simpa using hz)]

/-- One turn of the loop over a group, at a letter of a value-taking descriptor that is
followed by a character other than `=`. -/
theorem shortopts_value {opts : List opt_s} {argc : Nat} {argv : List CStr} {i : Nat}
    {x d : Char} {o : opt_s} {s1 : CStr} {st : Env} (hf : findShort x opts = some o)
    (hva : HAVE_ARG o = true) (hd : d ≠ '=') :
    shortopts opts argc argv i (x :: d :: s1) st
      = arghandler o i (set_opt_arg (some (d :: s1)) st) := by
  conv_lhs => unfold shortopts
  simp only [hf, hva, if_true]
  rw [if_neg hd]

/-- C17 (amended): for every table whose short names are all `-` plus one character
and whose long names begin with `--`, with handlers returning 0, for letters `a`, `b`
of no-value descriptors and `c` of a value-taking one (each the descriptor the lookup
of the letter finds), none of the letters being `-` and `b` not being `=`, and every
non-empty `V` not beginning with `=`: `opt_parse` on `[prog, -abcV, rest...]` and on
`[prog, -a, -b, -c=V, rest...]` both return, in the same final state (target storage,
handler calls with their `opt_arg` values, output), for the same reason; the first
result is the second minus 2 when non-negative and the same code when negative. After
the group the scan is at index 2 (index 4 for the separate tokens) in the state left
by applying `a`, `b` and then `c` with the value `V`: the characters of `V` are not
looked up as letters. -/
theorem combined_group_equivalence (opts : List opt_s) (da db dc : opt_s) (a b c : Char)
    (V prog : CStr) (rest : List CStr) (pn : Bool) (s0 : Env)
    (hs : ∀ p ∈ opts, ∀ n, p.s = some n → ∃ y, n = ['-', y])
    (hl : ∀ p ∈ opts, ∀ n, p.l = some n → ['-', '-'] <+: n)
    (hh : ∀ p ∈ opts, ∀ st, (call_handler p st).1 = 0)
    (ha : findShort a opts = some da) (hna : HAVE_ARG da = false)
    (hb : findShort b opts = some db) (hnb : HAVE_ARG db = false)
    (hc : findShort c opts = some dc) (hvc : HAVE_ARG dc = true)
    (ha1 : a ≠ '-') (hb1 : b ≠ '-') (hb2 : b ≠ '=') (hc1 : c ≠ '-')
    (hV : V ≠ []) (hV0 : charAt V 0 ≠ '=') :
    ∃ r1 r2,
      opt_parse (rest.length + 2) (prog :: ('-' :: a :: b :: c :: V) :: rest)
        (some opts) pn s0 = some r1 ∧
      opt_parse (rest.length + 4)
        (prog :: ['-', a] :: ['-', b] :: ('-' :: c :: '=' :: V) :: rest)
        (some opts) pn s0 = some r2 ∧
      r1.st = r2.st ∧ r1.why = r2.why ∧
      (0 ≤ r2.code → r1.code = r2.code - 2) ∧ (r2.code < 0 → r1.code = r2.code) ∧
      Reaches opts (rest.length + 2) (prog :: ('-' :: a :: b :: c :: V) :: rest)
        (opt_start (prog :: ('-' :: a :: b :: c :: V) :: rest) opts pn s0) 2
        (dispatch dc (some V) (set_opt_arg (some V) (dispatch db none (dispatch da none
          (set_opt_arg none (opt_start (prog :: ('-' :: a :: b :: c :: V) :: rest)
            opts pn s0))).2).2)).2 ∧
      Reaches opts (rest.length + 4)
        (prog :: ['-', a] :: ['-', b] :: ('-' :: c :: '=' :: V) :: rest)
        (opt_start (prog :: ['-', a] :: ['-', b] :: ('-' :: c :: '=' :: V) :: rest)
          opts pn s0) 4
        (dispatch dc (some V) (set_opt_arg (some V) (dispatch db none (dispatch da none
          (set_opt_arg none (opt_start (prog :: ('-' :: a :: b :: c :: V) :: rest)
            opts pn s0))).2).2)).2 := by
  have hs12 : opt_start (prog :: ['-', a] :: ['-', b] :: ('-' :: c :: '=' :: V) :: rest)
      opts pn s0 = opt_start (prog :: ('-' :: a :: b :: c :: V) :: rest) opts pn s0 := rfl
  rw [hs12]
  generalize hS : opt_start (prog :: ('-' :: a :: b :: c :: V) :: rest) opts pn s0 = s
  have hS1 : opt_start (prog :: ['-', a] :: ['-', b] :: ('-' :: c :: '=' :: V) :: rest)
      opts pn s0 = s := by rw [hs12, hS]
  have hda := findShort_mem ha
  have hdb := findShort_mem hb
  have hdc := findShort_mem hc
  obtain ⟨v0, V1, rfl⟩ : ∃ v0 V1, V = v0 :: V1 := by
    cases V with
    | nil => exact absurd rfl hV
    | cons v0 V1 => exact ⟨v0, V1, rfl⟩
  have hv0 : v0 ≠ '=' := hV0
  have hAn : (dispatch da none (set_opt_arg none s)).2.opt_arg = none := by
    rw [dispatch_opt_arg]; rfl
  have hBn : (dispatch db none (dispatch da none (set_opt_arg none s)).2).2.opt_arg
      = none := by
    rw [dispatch_opt_arg]; exact hAn
  -- the separate tokens
  have it1 : opt_iter opts (rest.length + 4)
      (prog :: ['-', a] :: ['-', b] :: ('-' :: c :: '=' :: (v0 :: V1)) :: rest) 1 s
      = Step.next 2 (dispatch da none (set_opt_arg none s)).2 := by
    rw [short_token_iter hs hl ha ha1 hna (rest.length + 4)
      (prog :: ['-', a] :: ['-', b] :: ('-' :: c :: '=' :: (v0 :: V1)) :: rest) 1 s rfl,
      arghandler_zero (hh da hda _)]
    rfl
  have it2 : opt_iter opts (rest.length + 4)
      (prog :: ['-', a] :: ['-', b] :: ('-' :: c :: '=' :: (v0 :: V1)) :: rest) 2
      (dispatch da none (set_opt_arg none s)).2
      = Step.next 3 (dispatch db none (dispatch da none (set_opt_arg none s)).2).2 := by
    rw [short_token_iter hs hl hb hb1 hnb (rest.length + 4)
      (prog :: ['-', a] :: ['-', b] :: ('-' :: c :: '=' :: (v0 :: V1)) :: rest) 2 _ rfl,
      set_opt_arg_none_self hAn, arghandler_zero (hh db hdb _), hAn]
  have it3 : opt_iter opts (rest.length + 4)
      (prog :: ['-', a] :: ['-', b] :: ('-' :: c :: '=' :: (v0 :: V1)) :: rest) 3
      (dispatch db none (dispatch da none (set_opt_arg none s)).2).2
      = Step.next 4 (dispatch dc (some (v0 :: V1)) (set_opt_arg (some (v0 :: V1))
          (dispatch db none (dispatch da none (set_opt_arg none s)).2).2)).2 := by
    rw [short_value_token_iter hs hl hc hc1 hvc (rest.length + 4)
      (prog :: ['-', a] :: ['-', b] :: ('-' :: c :: '=' :: (v0 :: V1)) :: rest) 3 _ (v0 :: V1) rfl,
      arghandler_zero (hh dc hdc _)]
    rfl
  have R2 := Reaches.step (Reaches.step (Reaches.step
    (@Reaches.start opts (rest.length + 4)
      (prog :: ['-', a] :: ['-', b] :: ('-' :: c :: '=' :: (v0 :: V1)) :: rest) s)
    (by omega) it1) (by omega) it2) (by omega) it3
  -- the group
  have it : opt_iter opts (rest.length + 2)
      (prog :: ('-' :: a :: b :: c :: (v0 :: V1)) :: rest) 1 s
      = Step.next 2 (dispatch dc (some (v0 :: V1)) (set_opt_arg (some (v0 :: V1))
          (dispatch db none (dispatch da none (set_opt_arg none s)).2).2)).2 := by
    rw [@opt_iter_short opts (rest.length + 2)
      (prog :: ('-' :: a :: b :: c :: (v0 :: V1)) :: rest) 1 s rfl (by simp)
      (group_token_fullopt hs hl ha1 hb2 _ _ 1 _ rfl rfl) (fun e => ha1 e)]
    show shortopts opts _ _ 1 (a :: b :: c :: v0 :: V1) (set_opt_arg none s) = _
    rw [shortopts_novalue ha hna (hh da hda _), shortopts_novalue hb hnb (hh db hdb _),
      shortopts_value hc hvc hv0, arghandler_zero (hh dc hdc _)]
    rfl
  have R1 := Reaches.step (@Reaches.start opts (rest.length + 2)
    (prog :: ('-' :: a :: b :: c :: (v0 :: V1)) :: rest) s) (by omega) it
  obtain ⟨f1, hf1, e1⟩ := opt_loop_of_reaches R1
  obtain ⟨f2, hf2, e2⟩ := opt_loop_of_reaches R2
  have htok : ∀ j, 2 ≤ j →
      (prog :: ('-' :: a :: b :: c :: (v0 :: V1)) :: rest).getD j []
        = (prog :: ['-', a] :: ['-', b] :: ('-' :: c :: '=' :: (v0 :: V1)) :: rest).getD
          (j + 2) [] := by
    intro j hj
    obtain ⟨m, rfl⟩ : ∃ m, j = m + 2 := ⟨j - 2, by omega⟩
    rfl
  obtain ⟨r, hr1, hr2⟩ := @opt_loop_shift (rest.length + 2) _ _ 2 opts f1 f2 2 _ hf1
    (by omega) htok
  have hp1 : opt_parse (rest.length + 2) (prog :: ('-' :: a :: b :: c :: (v0 :: V1)) :: rest)
      (some opts) pn s0 = some r := by
    simp only [opt_parse]
    rw [hS, e1]
    exact hr1
  have hp2 : opt_parse (rest.length + 4)
      (prog :: ['-', a] :: ['-', b] :: ('-' :: c :: '=' :: (v0 :: V1)) :: rest)
      (some opts) pn s0 = some (shiftResult 2 r) := by
    simp only [opt_parse]
    rw [hS1, e2]
    exact hr2
  refine ⟨r, shiftResult 2 r, hp1, hp2, rfl, rfl, ?_, ?_, R1, R2⟩
  · intro h0
    rcases opt_parse_code (by omega) hp1 with hx | hx | hx | hx | hx
    · have e : (shiftResult 2 r).code = r.code + 2 := by simp [shiftResult, hx.1]
      rw [e]; omega
    · have e : (shiftResult 2 r).code = r.code + 2 := by simp [shiftResult, hx.1]
      rw [e]; omega
    · have e : (shiftResult 2 r).code = r.code + 2 := by simp [shiftResult, hx.1]
      rw [e]; omega
    · have e : (shiftResult 2 r).code = r.code := by
        rcases hx.1 with e | e <;> simp [shiftResult, e]
      rw [e, hx.2] at h0
      omega
    · obtain ⟨_, hne, o, ho, s1, hcode⟩ := hx
      exact absurd (hcode.trans (hh o ho s1)) hne
  · intro hneg
    rcases opt_parse_code (by omega) hp1 with hx | hx | hx | hx | hx
    · have e : (shiftResult 2 r).code = r.code + 2 := by simp [shiftResult, hx.1]
      rw [e] at hneg
      have := hx.2
      omega
    · have e : (shiftResult 2 r).code = r.code + 2 := by simp [shiftResult, hx.1]
      rw [e] at hneg
      have := hx.2.1
      omega
    · have e : (shiftResult 2 r).code = r.code + 2 := by simp [shiftResult, hx.1]
      rw [e] at hneg
      have := hx.2.1
      omega
    · have e : (shiftResult 2 r).code = r.code := by
        rcases hx.1 with e | e <;> simp [shiftResult, e]
      rw [e]
    · obtain ⟨_, hne, o, ho, s1, hcode⟩ := hx
      exact absurd (hcode.trans (hh o ho s1)) hne

/-- C17 (amended) on a table with the flags `-n`, `-e` and the value-taking `-p`:
`-nepX a` against `-n -e -p=X a`. -/
theorem combined_group_equivalence_witness :
    ∃ r1 r2,
      opt_parse 3 ["echo".toList, "-nepX".toList, "a".toList]
        (some [echo_n, { echo_n with s := some "-e".toList }, echo_p, OPT_END])
        false (Env.init echo_mem) = some r1 ∧
      opt_parse 5 ["echo".toList, "-n".toList, "-e".toList, "-p=X".toList, "a".toList]
        (some [echo_n, { echo_n with s := some "-e".toList }, echo_p, OPT_END])
        false (Env.init echo_mem) = some r2 ∧
      r1.st = r2.st ∧ r1.why = r2.why ∧
      (0 ≤ r2.code → r1.code = r2.code - 2) ∧ (r2.code < 0 → r1.code = r2.code) := by
  have hs : ∀ p ∈ [echo_n, { echo_n with s := some "-e".toList }, echo_p, OPT_END],
      ∀ n, p.s = some n → ∃ y, n = ['-', y] := by
    intro p hp n hn
    simp only [List.mem_cons, List.mem_singleton, List.not_mem_nil, or_false] at hp
    rcases hp with rfl | rfl | rfl | rfl
    · cases hn; exact ⟨_, rfl⟩
    · cases hn; exact ⟨_, rfl⟩
    · cases hn; exact ⟨_, rfl⟩
    · cases hn
  have hl : ∀ p ∈ [echo_n, { echo_n with s := some "-e".toList }, echo_p, OPT_END],
      ∀ n, p.l = some n → ['-', '-'] <+: n := by
    intro p hp n hn
    simp only [List.mem_cons, List.mem_singleton, List.not_mem_nil, or_false] at hp
    rcases hp with rfl | rfl | rfl | rfl
    · cases hn
    · cases hn
    · cases hn; decide
    · cases hn
  have hh : ∀ p ∈ [echo_n, { echo_n with s := some "-e".toList }, echo_p, OPT_END],
      ∀ st, (call_handler p st).1 = 0 := by
    intro p hp st
    simp only [List.mem_cons, List.mem_singleton, List.not_mem_nil, or_false] at hp
    rcases hp with rfl | rfl | rfl | rfl <;> rfl
  obtain ⟨r1, r2, h1, h2, h3, h4, h5, h6, _, _⟩ := combined_group_equivalence
    [echo_n, { echo_n with s := some "-e".toList }, echo_p, OPT_END]
    echo_n { echo_n with s := some "-e".toList } echo_p 'n' 'e' 'p' "X".toList
    "echo".toList ["a".toList] false (Env.init echo_mem) hs hl hh rfl rfl rfl rfl rfl rfl
    (by decide) (by decide) (by decide) (by decide) (by decide) (by decide)
  exact ⟨r1, r2, h1, h2, h3, h4, h5, h6⟩

/-- C17 as stated fails when `-` or `=` is among the letters. With the flag letter `-`,
`-a-cV` sets both flags and stores `V`, returning 2, while `-a -- -c=V` stops at the
terminator: it returns 3 with one flag set and nothing stored. With the flag letter
`=` and a second, value-taking `-a`, the token `-a=cV` is given to that descriptor as
a whole token, while `-a -= -c=V` sets two flags and stores `V`. -/
theorem combined_group_dash_letter :
    ((findShort 'a' dash_letter_opts).map (fun o => (o.s, HAVE_ARG o))
        = some (some "-a".toList, false) ∧
      (findShort '-' dash_letter_opts).map (fun o => (o.s, HAVE_ARG o))
        = some (some "--".toList, false) ∧
      (findShort 'c' dash_letter_opts).map (fun o => (o.s, HAVE_ARG o))
        = some (some "-c".toList, true)) ∧
    (opt_parse 2 ["prog".toList, "-a-cV".toList] (some dash_letter_opts) false
        (Env.init (fun _ => Cell.int 0))).map
        (fun r => (r.code, r.st.mem 0, r.st.mem 1, r.st.mem 2))
      = some (2, Cell.int 1, Cell.int 1, Cell.str (some "V".toList)) ∧
    (opt_parse 4 ["prog".toList, "-a".toList, "--".toList, "-c=V".toList]
        (some dash_letter_opts) false (Env.init (fun _ => Cell.int 0))).map
        (fun r => (r.code, r.st.mem 0, r.st.mem 1, r.st.mem 2))
      = some (3, Cell.int 1, Cell.int 0, Cell.int 0) ∧
    ((findShort 'a' eq_letter_opts).map (fun o => (o.value, HAVE_ARG o))
        = some (some 0, false) ∧
      (findShort '=' eq_letter_opts).map (fun o => (o.value, HAVE_ARG o))
        = some (some 2, false) ∧
      (findShort 'c' eq_letter_opts).map (fun o => (o.value, HAVE_ARG o))
        = some (some 3, true)) ∧
    (opt_parse 2 ["prog".toList, "-a=cV".toList] (some eq_letter_opts) false
        (Env.init (fun _ => Cell.int 0))).map
        (fun r => (r.code, r.st.mem 0, r.st.mem 1, r.st.mem 2, r.st.mem 3))
      = some (2, Cell.int 0, Cell.str (some "cV".toList), Cell.int 0, Cell.int 0) ∧
    (opt_parse 4 ["prog".toList, "-a".toList, "-=".toList, "-c=V".toList]
        (some eq_letter_opts) false (Env.init (fun _ => Cell.int 0))).map
        (fun r => (r.code, r.st.mem 0, r.st.mem 1, r.st.mem 2, r.st.mem 3))
      = some (4, Cell.int 1, Cell.int 0, Cell.int 1, Cell.str (some "V".toList)) := by
  refine ⟨⟨?_, ?_, ?_⟩, ?_, ?_, ⟨?_, ?_, ?_⟩, ?_, ?_⟩ <;> decide

end LibOpt
